import Mathlib

/-!
# Spatial analysis (space-syntax integration) — verification development

Shallow embedding of `spatial_analysis.cpp` / `point.h`.

Numbers: every `double` is an element of a linearly ordered field `K`
(exact arithmetic; `ℚ` is used for concrete evaluations, `ℝ` is an instance
too).  The value `+infinity` stored in the depth vector is the top element of
`WithTop K`.  `sqrt`, `acos` and `π` are not field operations and are passed
as parameters where the code calls them, and so are the tests `std::isnan` and
`std::isinf` of the integration scorer.  C `int` values are `Int`; the one
place where an `int` product can leave the 32-bit range (`nodeCount *
nodeCount`) is reduced with `wrapInt32`.
-/

namespace SpatialAnalysis

/-! ## point.h -/

/-- Point structure for 2D coordinates (`struct Point`). -/
structure Point (K : Type) where
  x : K
  y : K
deriving DecidableEq, Repr

/-- Line segment with the index of the feature it belongs to (`struct Line`). -/
structure Line (K : Type) where
  p1 : Point K
  p2 : Point K
  featureIndex : Int
deriving DecidableEq, Repr

variable {K : Type} [LinearOrderedField K]

/-- Default constructor `Line()`: both end points `(0,0)`, feature index `-1`. -/
instance : Inhabited (Line K) := ⟨⟨⟨0, 0⟩, ⟨0, 0⟩, -1⟩⟩

/-- Method `Point::distanceTo`, with the square root passed in. -/
def Point.distanceTo (sqrt : K → K) (p other : Point K) : K :=
  let dx := p.x - other.x
  let dy := p.y - other.y
  sqrt (dx * dx + dy * dy)

/-- Method `Line::length`. -/
def Line.length (sqrt : K → K) (l : Line K) : K :=
  l.p1.distanceTo sqrt l.p2

/-- Method `Line::direction`. -/
def Line.direction (l : Line K) : Point K :=
  ⟨l.p2.x - l.p1.x, l.p2.y - l.p1.y⟩

/-! ## spatial_analysis.cpp : constants -/

/-- Constant `EPSILON = 1e-10`. -/
def EPSILON : K := 1 / 10 ^ 10

/-- Constant `INVALID_POINT(-123456.0, -789012.0)`. -/
def INVALID_POINT : Point K := ⟨-123456, -789012⟩

/-! ## Geometry kernel -/

/-- Denominator computed by `checkLineIntersection`. -/
def intersectionDenom (line1 line2 : Line K) : K :=
  (line1.p1.x - line1.p2.x) * (line2.p1.y - line2.p2.y)
    - (line1.p1.y - line1.p2.y) * (line2.p1.x - line2.p2.x)

/-- Parameter `t` computed by `checkLineIntersection` (position on `line1`). -/
def intersectionT (line1 line2 : Line K) : K :=
  ((line1.p1.x - line2.p1.x) * (line2.p1.y - line2.p2.y)
    - (line1.p1.y - line2.p1.y) * (line2.p1.x - line2.p2.x)) / intersectionDenom line1 line2

/-- Parameter `u` computed by `checkLineIntersection` (position on `line2`). -/
def intersectionU (line1 line2 : Line K) : K :=
  -((line1.p1.x - line1.p2.x) * (line1.p1.y - line2.p1.y)
    - (line1.p1.y - line1.p2.y) * (line1.p1.x - line2.p1.x)) / intersectionDenom line1 line2

/-- Function `checkLineIntersection`: the returned boolean together with the
value left in the output parameter `intersectionPoint`. -/
def checkLineIntersection (line1 line2 : Line K) : Bool × Point K :=
  let x1 := line1.p1.x
  let y1 := line1.p1.y
  let x2 := line1.p2.x
  let y2 := line1.p2.y
  let denom := intersectionDenom line1 line2
  if |denom| < EPSILON then
    (false, INVALID_POINT)
  else
    let t := intersectionT line1 line2
    let u := intersectionU line1 line2
    if t ≥ 0 ∧ t ≤ 1 ∧ u ≥ 0 ∧ u ≤ 1 then
      (true, ⟨x1 + t * (x2 - x1), y1 + t * (y2 - y1)⟩)
    else
      (false, INVALID_POINT)

/-- Function `angleBetweenLines`, with `sqrt`, `acos` and `π` passed in. -/
def angleBetweenLines (sqrt acos : K → K) (pi : K) (line1 line2 : Line K) : K :=
  let v1 := line1.direction
  let v2 := line2.direction
  let len1 := sqrt (v1.x * v1.x + v1.y * v1.y)
  let len2 := sqrt (v2.x * v2.x + v2.y * v2.y)
  if len1 < EPSILON ∨ len2 < EPSILON then 0
  else
    let dot := v1.x * v2.x + v1.y * v2.y
    let cos_angle := dot / (len1 * len2)
    let cos_angle := max (-1) (min 1 cos_angle)
    let angle_rad := acos cos_angle
    let angle_deg := angle_rad * 180 / pi
    min angle_deg (180 - angle_deg)

/-! ## Graph builder -/

/-- Statement `featureToLines[key].push_back(i)` on the
`std::map<int, std::vector<int>>`, kept as an association list.  The code never
iterates over the map, so the order of the keys is not observable. -/
def mapPushBack : List (Int × List Nat) → Int → Nat → List (Int × List Nat)
  | [], key, i => [(key, [i])]
  | (k, v) :: rest, key, i =>
    if k = key then (k, v ++ [i]) :: rest else (k, v) :: mapPushBack rest key i

/-- Read `featureToLines[key]`: a key that is not in the map yields a
default-constructed (empty) vector.  (`operator[]` also inserts that empty
vector, after `featureCount` has been taken; no later read is affected.) -/
def mapLookup : List (Int × List Nat) → Int → List Nat
  | [], _ => []
  | (k, v) :: rest, key => if k = key then v else mapLookup rest key

/-- First loop of `buildAdjacencyList`: group line numbers by feature index. -/
def groupByFeature (lines : List (Line K)) : List (Int × List Nat) :=
  lines.enum.foldl (fun m il => mapPushBack m il.2.featureIndex il.1) []

/-- The two innermost loops of `buildAdjacencyList`: the first pair
`(idx1, idx2)`, `idx1` from `lines1` (outer) and `idx2` from `lines2` (inner),
whose lines intersect; `none` when `intersects` stays false. -/
def findIntersection (lines : List (Line K)) : List Nat → List Nat → Option (Nat × Nat)
  | [], _ => none
  | idx1 :: rest1, lines2 =>
    match lines2.find? (fun idx2 =>
        (checkLineIntersection (lines.getD idx1 default) (lines.getD idx2 default)).1) with
    | some idx2 => some (idx1, idx2)
    | none => findIntersection lines rest1 lines2

/-- Conversion `static_cast<int>(x)`: truncation towards zero. -/
def truncToInt [FloorRing K] (x : K) : Int :=
  if 0 ≤ x then ⌊x⌋ else ⌈x⌉

/-- Weight given to the edge found at the lines `l1`, `l2`. -/
def edgeWeight [FloorRing K] (sqrt acos : K → K) (pi : K) (useAngleWeight : Bool)
    (tulipBins : Int) (l1 l2 : Line K) : K :=
  let angle := angleBetweenLines sqrt acos pi l1 l2
  let avgLength := (l1.length sqrt + l2.length sqrt) / 2
  if useAngleWeight then
    let binSize := 180 / (tulipBins : K)
    let bin := truncToInt (angle / binSize)
    let bin := min bin (tulipBins - 1)
    (1 + (bin : K)) * avgLength
  else 1

/-- Statement `adjacencyList[f].push_back(e)`. -/
def pushBackAt : List (List (Int × K)) → Nat → Int × K → List (List (Int × K))
  | [], _, _ => []
  | row :: rest, 0, e => (row ++ [e]) :: rest
  | row :: rest, f + 1, e => row :: pushBackAt rest f e

/-- Body of the loop over `f2` in `buildAdjacencyList`. -/
def connectFeatures [FloorRing K] (sqrt acos : K → K) (pi : K) (lines : List (Line K))
    (featureToLines : List (Int × List Nat)) (useAngleWeight : Bool) (tulipBins : Int)
    (f1 : Nat) (adjacencyList : List (List (Int × K))) (f2 : Nat) : List (List (Int × K)) :=
  let lines1 := mapLookup featureToLines f1
  let lines2 := mapLookup featureToLines f2
  match findIntersection lines lines1 lines2 with
  | none => adjacencyList
  | some (idx1, idx2) =>
    let weight := edgeWeight sqrt acos pi useAngleWeight tulipBins
      (lines.getD idx1 default) (lines.getD idx2 default)
    pushBackAt (pushBackAt adjacencyList f1 ((f2 : Int), weight)) f2 ((f1 : Int), weight)

/-- Function `buildAdjacencyList`. -/
def buildAdjacencyList [FloorRing K] (sqrt acos : K → K) (pi : K) (lines : List (Line K))
    (mode : String) (tulipBins : Int) : List (List (Int × K)) :=
  let featureToLines := groupByFeature lines
  let featureCount := featureToLines.length
  let useAngleWeight := (mode == "angle")
  (List.range featureCount).foldl
    (fun adjacencyList f1 =>
      (List.range' (f1 + 1) (featureCount - (f1 + 1))).foldl
        (connectFeatures sqrt acos pi lines featureToLines useAngleWeight tulipBins f1)
        adjacencyList)
    (List.replicate featureCount [])

/-! ## Depth engine -/

/-- Ways in which a run of the model stops without a value. -/
inductive Fault where
  | indexOutOfRange
  | outOfFuel
deriving DecidableEq, Repr

/-- Product of two `int`s as a 32-bit two's-complement value. -/
def wrapInt32 (z : Int) : Int :=
  (z + 2 ^ 31) % 2 ^ 32 - 2 ^ 31

/-- Index into a vector of `n` entries: `none` when `i < 0` or `i >= n`. -/
def toIndex (n : Nat) (i : Int) : Option (Fin n) :=
  if h : 0 ≤ i ∧ i < n then some ⟨i.toNat, by omega⟩ else none

/-- Order of the priority queue (`std::greater` on `std::pair<double,int>`
makes `top()` the least pair in this lexicographic order). -/
def pqLe (a b : K × Int) : Prop :=
  a.1 < b.1 ∨ (a.1 = b.1 ∧ a.2 ≤ b.2)

instance : DecidableRel (pqLe : K × Int → K × Int → Prop) :=
  fun a b => by unfold pqLe; exact inferInstance

/-- Operation `pq.push`: the queue is kept as an ascending list, whose head is
`pq.top()`. -/
def pqPush (e : K × Int) (pq : List (K × Int)) : List (K × Int) :=
  List.orderedInsert pqLe e pq

/-- Variables of the main loop of `calculateDepthFromRoot`. -/
structure DepthState (K : Type) (n : Nat) where
  depth : Fin n → WithTop K
  pq : List (K × Int)

/-- Body of the loop over the neighbours of the current node. -/
def relaxEdge {n : Nat} (currentDepth : K) (s : DepthState K n) (e : Int × K) :
    DepthState K n :=
  match toIndex n e.1 with
  | none => s
  | some v =>
    let newDepth := currentDepth + e.2
    if (newDepth : WithTop K) < s.depth v then
      { depth := Function.update s.depth v (newDepth : WithTop K)
        pq := pqPush (newDepth, e.1) s.pq }
    else s

/-- Loop `while (!pq.empty())` of `calculateDepthFromRoot`, at most `fuel`
iterations (one more to see the empty queue). -/
def depthLoop {n : Nat} (adjacencyList : List (List (Int × K))) :
    Nat → DepthState K n → Except Fault (Fin n → WithTop K)
  | 0, _ => .error .outOfFuel
  | fuel + 1, s =>
    match s.pq with
    | [] => .ok s.depth
    | (currentDepth, node) :: rest =>
      match toIndex n node with
      | none => .error .indexOutOfRange
      | some u =>
        if (currentDepth : WithTop K) > s.depth u then
          depthLoop adjacencyList fuel { s with pq := rest }
        else if node < 0 ∨ node ≥ (adjacencyList.length : Int) then
          depthLoop adjacencyList fuel { s with pq := rest }
        else
          depthLoop adjacencyList fuel
            ((adjacencyList.getD node.toNat []).foldl (relaxEdge currentDepth)
              { s with pq := rest })

/-- Summation loop of `calculateDepthFromRoot`: `(totalDepth, reachableCount)`. -/
def sumDepths {n : Nat} (rootIndex : Int) (depth : Fin n → WithTop K) : K × Int :=
  (List.finRange n).foldl
    (fun acc (i : Fin n) =>
      if ((i : Nat) : Int) ≠ rootIndex then
        match depth i with
        | none => acc
        | some d => (acc.1 + d, acc.2 + 1)
      else acc)
    (0, 0)

/-- Function `calculateDepthFromRoot`.  `nodeCount` is a non-negative `int`
(a negative one makes the constructor of `depth` fail). -/
def calculateDepthFromRoot (fuel : Nat) (rootIndex : Int)
    (adjacencyList : List (List (Int × K))) (nodeCount : Nat) : Except Fault K :=
  match toIndex nodeCount rootIndex with
  | none => .error .indexOutOfRange
  | some r =>
    match depthLoop adjacencyList fuel
        { depth := Function.update (fun _ => (⊤ : WithTop K)) r ((0 : K) : WithTop K)
          pq := [(0, rootIndex)] } with
    | .error e => .error e
    | .ok depth =>
      let totalDepth := (sumDepths rootIndex depth).1
      let reachableCount := (sumDepths rootIndex depth).2
      let unreachableCount : Int := (nodeCount : Int) - 1 - reachableCount
      if unreachableCount > 0 ∧ reachableCount > 0 then
        let avgDepth := totalDepth / (reachableCount : K)
        .ok (totalDepth + (unreachableCount : K) * avgDepth * 2)
      else if reachableCount = 0 then
        .ok ((wrapInt32 ((nodeCount : Int) * (nodeCount : Int)) : K) * 1)
      else
        .ok totalDepth

/-- Number of loop iterations that always suffice for `calculateDepthFromRoot`
when no weight is negative. -/
def depthFuel (adjacencyList : List (List (Int × K))) (nodeCount : Nat) : Nat :=
  2 + nodeCount + ((List.finRange nodeCount).map
    (fun v : Fin nodeCount => (adjacencyList.getD (v : Nat) []).length)).sum

/-! ## Integration scorer -/

/-- Test `std::isinf` on the double nearest to the value `x`: a magnitude of at
least `2^1024 - 2^970` rounds to an infinite double. -/
def roundsToInfinity (x : K) : Bool :=
  decide ((2 : K) ^ 1024 - 2 ^ 970 ≤ |x|)

/-- Function `calculateIntegrationForRoot`.  The tests `std::isnan` and
`std::isinf`, which the code applies to the doubles holding `totalDepthConv`
and `integration`, are passed in as `isnan` and `isinf`. -/
def calculateIntegrationForRoot (isnan isinf : K → Bool) (fuel : Nat) (rootIndex : Int)
    (nodeCount : Nat) (adjacencyList : List (List (Int × K))) (applyFormula : Bool)
    (globalNodeCount : Int) (tulipBins : Int) : Except Fault K :=
  let _globalNodeCount : Int := if globalNodeCount = 0 then (nodeCount : Int) else globalNodeCount
  match calculateDepthFromRoot fuel rootIndex adjacencyList nodeCount with
  | .error e => .error e
  | .ok MD =>
    if !applyFormula then .ok MD
    else if (nodeCount : Int) ≤ 0 ∨ tulipBins ≤ 1 then .ok 0
    else
      let totalDepthConv := (2 * MD) / ((tulipBins : K) - 1)
      if totalDepthConv ≤ 0 ∨ isnan totalDepthConv = true ∨ isinf totalDepthConv = true then
        .ok 0
      else
        let integration := ((nodeCount : K) * (nodeCount : K)) / totalDepthConv
        if isnan integration = true ∨ isinf integration = true then .ok 0
        else .ok integration


/-! ## Auxiliary predicate for the graph builder -/

/-- The entry `x` is one of the two entries that the body of the `f2` loop
appends for the feature pair `(f1, f2)`, and it is appended to row `a`. -/
def EdgeEntry [FloorRing K] (sqrt acos : K → K) (pi : K) (lines : List (Line K))
    (featureToLines : List (Int × List Nat)) (useAngleWeight : Bool) (tulipBins : Int)
    (f1 f2 a : Nat) (x : Int × K) : Prop :=
  ∃ idx1 idx2,
    findIntersection lines (mapLookup featureToLines f1) (mapLookup featureToLines f2)
      = some (idx1, idx2) ∧
    ((a = f1 ∧ x = ((f2 : Int), edgeWeight sqrt acos pi useAngleWeight tulipBins
        (lines.getD idx1 default) (lines.getD idx2 default))) ∨
     (a = f2 ∧ x = ((f1 : Int), edgeWeight sqrt acos pi useAngleWeight tulipBins
        (lines.getD idx1 default) (lines.getD idx2 default))))

/-! ## Example inputs -/

/-- Three segments forming a path: `A` (feature 0) crosses `B` (feature 1) at
`(1,1)`, `B` meets `C` (feature 2) at `(2,0)`, `A` and `C` do not meet. -/
def pathSegments : List (Line ℚ) :=
  [⟨⟨0, 0⟩, ⟨2, 2⟩, 0⟩, ⟨⟨0, 2⟩, ⟨2, 0⟩, 1⟩, ⟨⟨1, 0⟩, ⟨3, 0⟩, 2⟩]

/-- Two crossing segments tagged with the feature indices 0 and 5. -/
def sparseSegments : List (Line ℚ) :=
  [⟨⟨0, 0⟩, ⟨2, 2⟩, 0⟩, ⟨⟨0, 2⟩, ⟨2, 0⟩, 5⟩]

/-- Adjacency structure of the three-feature path `0 - 1 - 2`, unit weights. -/
def pathAdjacency : List (List (Int × ℚ)) :=
  [[(1, 1)], [(0, 1), (2, 1)], [(1, 1)]]

/-- Two connected features `0 - 1` (unit weights) and an isolated feature 2. -/
def splitAdjacency : List (List (Int × ℚ)) :=
  [[(1, 1)], [(0, 1)], []]

/-! ## Paths and shortest distances (specification side) -/

/-- `PathWeight adj n root v d`: some path from `root` to `v` has total edge
weight `d`.  Nodes are `0 .. n-1`; an edge from `u` to `v` of weight `w` is an
entry `(v, w)` in row `u` of the adjacency structure (a row that does not exist
has no entries). -/
inductive PathWeight (adj : List (List (Int × K))) (n : Nat) (root : Fin n) :
    Fin n → K → Prop where
  | nil : PathWeight adj n root root 0
  | snoc {u v : Fin n} {d w : K} :
      PathWeight adj n root u d →
      ((((v : Nat) : Int), w) ∈ adj.getD (u : Nat) []) →
      PathWeight adj n root v (d + w)

/-- The value `d` is the minimum total edge weight of a path from `root` to `v`. -/
def IsMinPathWeight (adj : List (List (Int × K))) (n : Nat) (root v : Fin n) (d : K) : Prop :=
  PathWeight adj n root v d ∧ ∀ d', PathWeight adj n root v d' → d ≤ d'

/-- Loop invariant of the main loop of `calculateDepthFromRoot`, with the set
`U` of nodes that have not been expanded yet. -/
structure DepthInv {n : Nat} (adj : List (List (Int × K))) (root : Fin n)
    (s : DepthState K n) (U : Finset (Fin n)) : Prop where
  sorted : s.pq.Sorted pqLe
  entries : ∀ e ∈ s.pq, ∃ v : Fin n, e.2 = ((v : Nat) : Int) ∧ s.depth v ≤ (e.1 : WithTop K)
  settled : ∀ v, v ∉ U → ∃ d : K, s.depth v = (d : WithTop K) ∧ (∀ e ∈ s.pq, d ≤ e.1) ∧
    ∀ (x : Fin n) (w : K), ((((x : Nat) : Int), w) ∈ adj.getD (v : Nat) []) →
      s.depth x ≤ ((d + w : K) : WithTop K)
  pending : ∀ v, v ∈ U → ∀ d : K, s.depth v = (d : WithTop K) →
    (d, ((v : Nat) : Int)) ∈ s.pq
  isPath : ∀ v (d : K), s.depth v = (d : WithTop K) → PathWeight adj n root v d
  rootLe : s.depth root ≤ ((0 : K) : WithTop K)

/-! ## Connectivity counter -/

/-- Function `calculateConnectivity`.  `featureCount` is a non-negative `int`
(a negative one makes the constructor of `connectivity` fail); reading
`adjacencyList[i]` outside the structure is an index fault. -/
def calculateConnectivity (adjacencyList : List (List (Int × K))) (featureCount : Nat) :
    Except Fault (List Int) :=
  (List.range featureCount).foldlM
    (fun connectivity i =>
      match adjacencyList[i]? with
      | none => .error .indexOutOfRange
      | some row => .ok (connectivity.set i (row.length : Int)))
    (List.replicate featureCount 0)

/-! ## Further specification-side definitions and example inputs -/

/-- The adjacency structure with every entry deleted whose neighbour index is
negative or at least `nodeCount`. -/
def pruneAdjacency (nodeCount : Nat) (adjacencyList : List (List (Int × K))) :
    List (List (Int × K)) :=
  adjacencyList.map (fun row => row.filter (fun e => decide (0 ≤ e.1 ∧ e.1 < (nodeCount : Int))))

/-- Two features joined by one edge of weight 1. -/
def pairAdjacency : List (List (Int × ℚ)) :=
  [[(1, 1)], [(0, 1)]]

/-- The structure `pairAdjacency` with two more entries in row 0 whose
neighbour indices (7 and -3) are out of range for two nodes. -/
def strayAdjacency : List (List (Int × ℚ)) :=
  [[(1, 1), (7, 2), (-3, 1)], [(0, 1)]]

/-- State of the rows just before the feature pair `(f1, f2)` is examined:
every row is strictly increasing in the neighbour index, holds only indices in
`[0, count)` other than its own, and only pairs examined earlier. -/
def RowsOrdered (adj : List (List (Int × K))) (count f1 f2 : Nat) : Prop :=
  ∀ a : Nat,
    ((adj.getD a []).map Prod.fst).Pairwise (fun x y => x < y) ∧
    ∀ b ∈ (adj.getD a []).map Prod.fst,
      0 ≤ b ∧ b < (count : Int) ∧ b ≠ (a : Int) ∧
      (b < (a : Int) → (b < (f1 : Int) ∨ (b = (f1 : Int) ∧ (a : Int) < (f2 : Int)))) ∧
      ((a : Int) < b → ((a : Int) < (f1 : Int) ∨ ((a : Int) = (f1 : Int) ∧ b < (f2 : Int))))

/-- The segments number `i` (of feature `k1`) and `j` (of feature `k2`)
intersect and are the first such pair in scan order: segments of `k1` in input
order as the outer loop, segments of `k2` in input order as the inner loop. -/
def IsFirstIntersection (lines : List (Line K)) (k1 k2 : Int) (i j : Nat) : Prop :=
  (∃ l1 l2, lines[i]? = some l1 ∧ lines[j]? = some l2 ∧
    l1.featureIndex = k1 ∧ l2.featureIndex = k2 ∧ (checkLineIntersection l1 l2).1 = true) ∧
  ∀ i' j' l1' l2', lines[i']? = some l1' → lines[j']? = some l2' →
    l1'.featureIndex = k1 → l2'.featureIndex = k2 →
    (checkLineIntersection l1' l2').1 = true →
    i < i' ∨ (i = i' ∧ j ≤ j')

/-- Two perpendicular segments crossing at `(1,1)`: feature 0 from `(0,0)` to
`(2,2)` and feature 1 from `(0,2)` to `(2,0)`. -/
def crossingSegments (K : Type) [LinearOrderedField K] : List (Line K) :=
  [⟨⟨0, 0⟩, ⟨2, 2⟩, 0⟩, ⟨⟨0, 2⟩, ⟨2, 0⟩, 1⟩]

/-- Two features joined by one edge of weight `w`. -/
def weightedPair (K : Type) [LinearOrderedField K] (w : K) : List (List (Int × K)) :=
  [[(1, w)], [(0, w)]]

/-! ## Geometry kernel: properties -/

theorem EPSILON_pos : (0 : K) < EPSILON := by
  unfold EPSILON; positivity

theorem intersectionDenom_swap (a b : Line K) :
    intersectionDenom b a = - intersectionDenom a b := by
  unfold intersectionDenom; ring

theorem intersectionDenom_ne_zero {a b : Line K} (h : ¬ |intersectionDenom a b| < EPSILON) :
    intersectionDenom a b ≠ 0 := by
  intro h0
  apply h
  rw [h0, abs_zero]
  exact EPSILON_pos

theorem intersectionT_swap (a b : Line K) : intersectionT b a = intersectionU a b := by
  unfold intersectionT intersectionU
  rw [intersectionDenom_swap, div_neg, neg_div]
  congr 2
  ring

theorem intersectionU_swap (a b : Line K) : intersectionU b a = intersectionT a b := by
  unfold intersectionT intersectionU
  rw [intersectionDenom_swap, div_neg, neg_div, neg_neg]
  congr 1
  ring

/-- The parameters solve both coordinate equations. -/
theorem intersection_params_solve {a b : Line K} (h : intersectionDenom a b ≠ 0) :
    a.p1.x + intersectionT a b * (a.p2.x - a.p1.x)
        = b.p1.x + intersectionU a b * (b.p2.x - b.p1.x) ∧
    a.p1.y + intersectionT a b * (a.p2.y - a.p1.y)
        = b.p1.y + intersectionU a b * (b.p2.y - b.p1.y) := by
  unfold intersectionT intersectionU
  unfold intersectionDenom at h ⊢
  constructor
  · field_simp
    ring
  · field_simp
    ring

theorem intersection_params_unique {a b : Line K} (h : intersectionDenom a b ≠ 0) (t u : K)
    (hx : a.p1.x + t * (a.p2.x - a.p1.x) = b.p1.x + u * (b.p2.x - b.p1.x))
    (hy : a.p1.y + t * (a.p2.y - a.p1.y) = b.p1.y + u * (b.p2.y - b.p1.y)) :
    t = intersectionT a b ∧ u = intersectionU a b := by
  unfold intersectionT intersectionU
  unfold intersectionDenom at h ⊢
  constructor
  · rw [eq_div_iff h]
    linear_combination (b.p2.y - b.p1.y) * hx - (b.p2.x - b.p1.x) * hy
  · rw [eq_div_iff h]
    linear_combination (a.p2.y - a.p1.y) * hx - (a.p2.x - a.p1.x) * hy

theorem checkLineIntersection_fst (a b : Line K) :
    (checkLineIntersection a b).1 = true ↔
      ¬ |intersectionDenom a b| < EPSILON ∧
        0 ≤ intersectionT a b ∧ intersectionT a b ≤ 1 ∧
        0 ≤ intersectionU a b ∧ intersectionU a b ≤ 1 := by
  unfold checkLineIntersection
  by_cases h : |intersectionDenom a b| < EPSILON
  · simp [h]
  · by_cases h2 : intersectionT a b ≥ 0 ∧ intersectionT a b ≤ 1 ∧
        intersectionU a b ≥ 0 ∧ intersectionU a b ≤ 1
    · have h3 := h2
      simp only [ge_iff_le] at h3
      simp [h, h2, h3]
    · have h3 := h2
      simp only [ge_iff_le] at h3
      simp [h, h2, h3]

theorem checkLineIntersection_snd_of_true {a b : Line K}
    (h : (checkLineIntersection a b).1 = true) :
    (checkLineIntersection a b).2 =
      ⟨a.p1.x + intersectionT a b * (a.p2.x - a.p1.x),
       a.p1.y + intersectionT a b * (a.p2.y - a.p1.y)⟩ := by
  have h' := (checkLineIntersection_fst a b).1 h
  obtain ⟨h1, h2, h3, h4, h5⟩ := h'
  unfold checkLineIntersection
  simp only [h1, if_false]
  rw [if_pos ⟨h2, h3, h4, h5⟩]

theorem checkLineIntersection_snd_of_false {a b : Line K}
    (h : (checkLineIntersection a b).1 = false) :
    (checkLineIntersection a b).2 = INVALID_POINT := by
  unfold checkLineIntersection at h ⊢
  by_cases h1 : |intersectionDenom a b| < EPSILON
  · simp [h1]
  · simp only [h1, if_false] at h ⊢
    by_cases h2 : intersectionT a b ≥ 0 ∧ intersectionT a b ≤ 1 ∧
        intersectionU a b ≥ 0 ∧ intersectionU a b ≤ 1
    · rw [if_pos h2] at h
      simp at h
    · rw [if_neg h2]

theorem checkLineIntersection_fst_swap (a b : Line K) :
    (checkLineIntersection b a).1 = (checkLineIntersection a b).1 := by
  rw [Bool.eq_iff_iff, checkLineIntersection_fst, checkLineIntersection_fst,
    intersectionDenom_swap a b, abs_neg, intersectionT_swap a b, intersectionU_swap a b]
  tauto

/-- C5: over exact arithmetic, `checkLineIntersection` answers false when
`|denom| < 1e-10`; otherwise the system `p1 + t (p2 - p1) = p3 + u (p4 - p3)` has
exactly one solution `(t, u)`, the answer is true exactly when both `t` and `u`
lie in `[0, 1]`, and then the output point is that common point of the two
segments. -/
theorem checkLineIntersection_parametric (line1 line2 : Line K) :
    (|(line1.p1.x - line1.p2.x) * (line2.p1.y - line2.p2.y)
        - (line1.p1.y - line1.p2.y) * (line2.p1.x - line2.p2.x)| < 1 / 10 ^ 10 →
      (checkLineIntersection line1 line2).1 = false) ∧
    (¬ |(line1.p1.x - line1.p2.x) * (line2.p1.y - line2.p2.y)
        - (line1.p1.y - line1.p2.y) * (line2.p1.x - line2.p2.x)| < 1 / 10 ^ 10 →
      ∃ t u : K,
        (line1.p1.x + t * (line1.p2.x - line1.p1.x)
            = line2.p1.x + u * (line2.p2.x - line2.p1.x) ∧
          line1.p1.y + t * (line1.p2.y - line1.p1.y)
            = line2.p1.y + u * (line2.p2.y - line2.p1.y)) ∧
        (∀ t' u' : K,
          line1.p1.x + t' * (line1.p2.x - line1.p1.x)
              = line2.p1.x + u' * (line2.p2.x - line2.p1.x) →
          line1.p1.y + t' * (line1.p2.y - line1.p1.y)
              = line2.p1.y + u' * (line2.p2.y - line2.p1.y) →
          t' = t ∧ u' = u) ∧
        ((checkLineIntersection line1 line2).1 = true ↔
          0 ≤ t ∧ t ≤ 1 ∧ 0 ≤ u ∧ u ≤ 1) ∧
        ((checkLineIntersection line1 line2).1 = true →
          (checkLineIntersection line1 line2).2
              = ⟨line1.p1.x + t * (line1.p2.x - line1.p1.x),
                 line1.p1.y + t * (line1.p2.y - line1.p1.y)⟩ ∧
          (checkLineIntersection line1 line2).2
              = ⟨line2.p1.x + u * (line2.p2.x - line2.p1.x),
                 line2.p1.y + u * (line2.p2.y - line2.p1.y)⟩)) := by
  have hd : (line1.p1.x - line1.p2.x) * (line2.p1.y - line2.p2.y)
        - (line1.p1.y - line1.p2.y) * (line2.p1.x - line2.p2.x)
      = intersectionDenom line1 line2 := rfl
  have he : (1 / 10 ^ 10 : K) = EPSILON := rfl
  rw [hd, he]
  refine ⟨fun h => ?_, fun h => ?_⟩
  · cases hb : (checkLineIntersection line1 line2).1
    · rfl
    · exact absurd h ((checkLineIntersection_fst line1 line2).1 hb).1
  · have h0 := intersectionDenom_ne_zero h
    have hs := intersection_params_solve h0
    refine ⟨intersectionT line1 line2, intersectionU line1 line2, hs, ?_, ?_, ?_⟩
    · intro t' u' hx hy
      exact intersection_params_unique h0 t' u' hx hy
    · rw [checkLineIntersection_fst]
      exact ⟨fun hh => hh.2, fun hh => ⟨h, hh⟩⟩
    · intro hb
      have hp := checkLineIntersection_snd_of_true hb
      refine ⟨hp, ?_⟩
      rw [hp, hs.1, hs.2]

/-- C6: `checkLineIntersection(A, B)` and `checkLineIntersection(B, A)` give the
same boolean; when it is true they give the same point, and when it is false
both give the invalid sentinel point. -/
theorem checkLineIntersection_symmetric (a b : Line K) :
    (checkLineIntersection a b).1 = (checkLineIntersection b a).1 ∧
    ((checkLineIntersection a b).1 = true →
      (checkLineIntersection a b).2 = (checkLineIntersection b a).2) ∧
    ((checkLineIntersection a b).1 = false →
      (checkLineIntersection a b).2 = INVALID_POINT ∧
      (checkLineIntersection b a).2 = INVALID_POINT) := by
  have hsw := checkLineIntersection_fst_swap a b
  refine ⟨hsw.symm, fun h => ?_, fun h => ?_⟩
  · have h0 := intersectionDenom_ne_zero ((checkLineIntersection_fst a b).1 h).1
    have hs := intersection_params_solve h0
    rw [checkLineIntersection_snd_of_true h, checkLineIntersection_snd_of_true (hsw.trans h),
      intersectionT_swap a b, hs.1, hs.2]
  · exact ⟨checkLineIntersection_snd_of_false h,
      checkLineIntersection_snd_of_false (hsw.trans h)⟩


/-! ## Graph builder: properties -/

set_option linter.unusedSectionVars false

theorem mapLookup_mapPushBack (m : List (Int × List Nat)) (key : Int) (i : Nat) (k : Int) :
    mapLookup (mapPushBack m key i) k
      = if key = k then mapLookup m k ++ [i] else mapLookup m k := by
  induction m with
  | nil =>
    by_cases h : key = k <;> simp [mapPushBack, mapLookup, h]
  | cons e rest ih =>
    obtain ⟨k0, v⟩ := e
    by_cases h0 : k0 = key
    · subst h0
      by_cases h : k0 = k <;> simp [mapPushBack, mapLookup, h]
    · by_cases h : k0 = k
      · subst h
        have h1 : ¬ key = k0 := fun hh => h0 hh.symm
        simp [mapPushBack, mapLookup, h0, h1]
      · simp [mapPushBack, mapLookup, h0, h, ih]

theorem mapLookup_foldl (xs : List (Nat × Line K)) (m : List (Int × List Nat)) (k : Int) :
    mapLookup (xs.foldl (fun m il => mapPushBack m il.2.featureIndex il.1) m) k
      = mapLookup m k ++ (xs.filter (fun il => decide (il.2.featureIndex = k))).map Prod.fst := by
  induction xs generalizing m with
  | nil => simp
  | cons il rest ih =>
    rw [List.foldl_cons, ih, mapLookup_mapPushBack]
    by_cases h : il.2.featureIndex = k
    · simp [h, List.filter_cons]
    · simp [h, List.filter_cons]

theorem mem_mapLookup_groupByFeature (lines : List (Line K)) (k : Int) (i : Nat) :
    i ∈ mapLookup (groupByFeature lines) k ↔ ∃ l, lines[i]? = some l ∧ l.featureIndex = k := by
  unfold groupByFeature
  rw [mapLookup_foldl]
  simp only [mapLookup, List.nil_append, List.mem_map, List.mem_filter, decide_eq_true_eq]
  constructor
  · rintro ⟨⟨j, l⟩, ⟨hmem, hk⟩, hj⟩
    simp only at hj hk
    subst hj
    exact ⟨l, List.mk_mem_enum_iff_getElem?.1 hmem, hk⟩
  · rintro ⟨l, hl, hk⟩
    exact ⟨(i, l), ⟨List.mk_mem_enum_iff_getElem?.2 hl, hk⟩, rfl⟩

theorem keys_mapPushBack (m : List (Int × List Nat)) (key : Int) (i : Nat) :
    (mapPushBack m key i).map Prod.fst
      = if key ∈ m.map Prod.fst then m.map Prod.fst else m.map Prod.fst ++ [key] := by
  induction m with
  | nil => simp [mapPushBack]
  | cons e rest ih =>
    obtain ⟨k0, v⟩ := e
    by_cases h0 : k0 = key
    · subst h0
      simp [mapPushBack]
    · have h1 : ¬ key = k0 := fun hh => h0 hh.symm
      by_cases h : key ∈ rest.map Prod.fst
      · simp only [mapPushBack, h0, if_false, List.map_cons, ih, h, if_true, List.mem_cons,
          or_true]
      · simp only [mapPushBack, h0, if_false, List.map_cons, ih, h, List.mem_cons, h1,
          or_self, List.cons_append]

theorem keys_foldl (xs : List (Nat × Line K)) (m : List (Int × List Nat))
    (hm : (m.map Prod.fst).Nodup) :
    ((xs.foldl (fun m il => mapPushBack m il.2.featureIndex il.1) m).map Prod.fst).Nodup ∧
    ∀ k, k ∈ (xs.foldl (fun m il => mapPushBack m il.2.featureIndex il.1) m).map Prod.fst ↔
      (k ∈ m.map Prod.fst ∨ ∃ il ∈ xs, il.2.featureIndex = k) := by
  induction xs generalizing m with
  | nil => simp [hm]
  | cons il rest ih =>
    rw [List.foldl_cons]
    have hkeys := keys_mapPushBack m il.2.featureIndex il.1
    have hnd : ((mapPushBack m il.2.featureIndex il.1).map Prod.fst).Nodup := by
      rw [hkeys]
      by_cases h : il.2.featureIndex ∈ m.map Prod.fst
      · rw [if_pos h]; exact hm
      · rw [if_neg h]
        exact List.Nodup.append hm (List.nodup_singleton _) (by
          intro a ha hb
          rw [List.mem_singleton] at hb
          exact h (hb ▸ ha))
    obtain ⟨h1, h2⟩ := ih _ hnd
    refine ⟨h1, fun k => ?_⟩
    rw [h2, hkeys]
    by_cases h : il.2.featureIndex ∈ m.map Prod.fst
    · rw [if_pos h]
      constructor
      · rintro (hk | ⟨il2, hil2, hk⟩)
        · exact Or.inl hk
        · exact Or.inr ⟨il2, List.mem_cons_of_mem _ hil2, hk⟩
      · rintro (hk | ⟨il2, hil2, hk⟩)
        · exact Or.inl hk
        · rcases List.mem_cons.1 hil2 with heq | hmem
          · subst heq; exact Or.inl (hk ▸ h)
          · exact Or.inr ⟨il2, hmem, hk⟩
    · rw [if_neg h]
      constructor
      · rintro (hk | ⟨il2, hil2, hk⟩)
        · rcases List.mem_append.1 hk with hk1 | hk1
          · exact Or.inl hk1
          · rw [List.mem_singleton] at hk1
            exact Or.inr ⟨il, List.mem_cons_self _ _, hk1.symm⟩
        · exact Or.inr ⟨il2, List.mem_cons_of_mem _ hil2, hk⟩
      · rintro (hk | ⟨il2, hil2, hk⟩)
        · exact Or.inl (List.mem_append.2 (Or.inl hk))
        · rcases List.mem_cons.1 hil2 with heq | hmem
          · subst heq
            exact Or.inl (List.mem_append.2 (Or.inr (List.mem_singleton.2 hk.symm)))
          · exact Or.inr ⟨il2, hmem, hk⟩

theorem keys_groupByFeature (lines : List (Line K)) :
    ((groupByFeature lines).map Prod.fst).Nodup ∧
    ∀ k, k ∈ (groupByFeature lines).map Prod.fst ↔ ∃ l ∈ lines, l.featureIndex = k := by
  obtain ⟨h1, h2⟩ := keys_foldl lines.enum [] (by simp)
  refine ⟨h1, fun k => ?_⟩
  unfold groupByFeature
  rw [h2]
  constructor
  · rintro (hk | ⟨il, hil, hk⟩)
    · simp at hk
    · exact ⟨il.2, List.snd_mem_of_mem_enum hil, hk⟩
  · rintro ⟨l, hl, hk⟩
    obtain ⟨i, hi, hget⟩ := List.getElem_of_mem hl
    refine Or.inr ⟨(i, l), ?_, hk⟩
    rw [List.mk_mem_enum_iff_getElem?, List.getElem?_eq_getElem hi, hget]

/-- Dense feature indices `0 .. n-1` give `featureCount = n`. -/
theorem length_groupByFeature_of_dense (lines : List (Line K)) (n : Nat)
    (h : ∀ k : Int, (∃ l ∈ lines, l.featureIndex = k) ↔ (0 ≤ k ∧ k < n)) :
    (groupByFeature lines).length = n := by
  obtain ⟨hnd, hmem⟩ := keys_groupByFeature lines
  have hset : ((groupByFeature lines).map Prod.fst).toFinset = Finset.Ico (0 : Int) n := by
    ext k
    rw [List.mem_toFinset, hmem, h, Finset.mem_Ico]
  have hcard := List.toFinset_card_of_nodup hnd
  rw [hset, Int.card_Ico, List.length_map] at hcard
  rw [← hcard]
  simp

theorem findIntersection_eq_none (lines : List (Line K)) (l1 l2 : List Nat) :
    findIntersection lines l1 l2 = none ↔
      ∀ i ∈ l1, ∀ j ∈ l2,
        (checkLineIntersection (lines.getD i default) (lines.getD j default)).1 = false := by
  induction l1 with
  | nil => simp [findIntersection]
  | cons i rest ih =>
    unfold findIntersection
    cases hf : l2.find? (fun idx2 =>
        (checkLineIntersection (lines.getD i default) (lines.getD idx2 default)).1) with
    | some j =>
      simp only [false_iff, reduceCtorEq]
      intro hall
      have hj := List.find?_some hf
      have hmem := List.mem_of_find?_eq_some hf
      have := hall i (List.mem_cons_self _ _) j hmem
      simp only at hj
      rw [this] at hj
      exact Bool.noConfusion hj
    | none =>
      simp only [ih]
      rw [List.find?_eq_none] at hf
      constructor
      · intro hall a ha j hj
        rcases List.mem_cons.1 ha with heq | hmem
        · subst heq
          simpa using hf j hj
        · exact hall a hmem j hj
      · intro hall a ha j hj
        exact hall a (List.mem_cons_of_mem _ ha) j hj

theorem findIntersection_eq_some (lines : List (Line K)) (l1 l2 : List Nat) (i j : Nat)
    (h : findIntersection lines l1 l2 = some (i, j)) :
    i ∈ l1 ∧ j ∈ l2 ∧
      (checkLineIntersection (lines.getD i default) (lines.getD j default)).1 = true := by
  induction l1 with
  | nil => simp [findIntersection] at h
  | cons i0 rest ih =>
    unfold findIntersection at h
    cases hf : l2.find? (fun idx2 =>
        (checkLineIntersection (lines.getD i0 default) (lines.getD idx2 default)).1) with
    | some j0 =>
      rw [hf] at h
      simp only [Option.some.injEq, Prod.mk.injEq] at h
      obtain ⟨h1, h2⟩ := h
      subst h1 h2
      have h3 := List.find?_some hf
      exact ⟨List.mem_cons_self _ _, List.mem_of_find?_eq_some hf, h3⟩
    | none =>
      rw [hf] at h
      obtain ⟨h1, h2, h3⟩ := ih h
      exact ⟨List.mem_cons_of_mem _ h1, h2, h3⟩

theorem length_pushBackAt (adj : List (List (Int × K))) (f : Nat) (e : Int × K) :
    (pushBackAt adj f e).length = adj.length := by
  induction adj generalizing f with
  | nil => rfl
  | cons row rest ih =>
    cases f with
    | zero => rfl
    | succ f => simp [pushBackAt, ih]

theorem mem_getD_pushBackAt (adj : List (List (Int × K))) (f : Nat) (e : Int × K) (a : Nat)
    (x : Int × K) :
    x ∈ (pushBackAt adj f e).getD a [] ↔
      (x ∈ adj.getD a [] ∨ (a = f ∧ f < adj.length ∧ x = e)) := by
  induction adj generalizing f a with
  | nil => simp [pushBackAt]
  | cons row rest ih =>
    cases f with
    | zero =>
      cases a with
      | zero => simp [pushBackAt]
      | succ a => simp [pushBackAt]
    | succ f =>
      cases a with
      | zero => simp [pushBackAt]
      | succ a =>
        simp only [pushBackAt, List.getD_cons_succ, List.length_cons]
        rw [ih]
        simp

theorem getD_replicate_nil {α : Type} (n a : Nat) :
    (List.replicate n ([] : List α)).getD a [] = [] := by
  induction n generalizing a with
  | zero => rfl
  | succ n ih =>
    cases a with
    | zero => rfl
    | succ a => simp only [List.replicate_succ, List.getD_cons_succ, ih]

section BuilderLoops

variable [FloorRing K] (sqrt acos : K → K) (pi : K) (lines : List (Line K))
  (featureToLines : List (Int × List Nat)) (useAngleWeight : Bool) (tulipBins : Int)

theorem length_connectFeatures (f1 f2 : Nat) (adj : List (List (Int × K))) :
    (connectFeatures sqrt acos pi lines featureToLines useAngleWeight tulipBins f1 adj f2).length
      = adj.length := by
  unfold connectFeatures
  dsimp only
  generalize findIntersection lines (mapLookup featureToLines f1)
    (mapLookup featureToLines f2) = r
  cases r with
  | none => rfl
  | some p => simp only [length_pushBackAt]

theorem mem_getD_connectFeatures (f1 f2 : Nat) (adj : List (List (Int × K)))
    (h1 : f1 < adj.length) (h2 : f2 < adj.length) (a : Nat) (x : Int × K) :
    x ∈ (connectFeatures sqrt acos pi lines featureToLines useAngleWeight tulipBins
          f1 adj f2).getD a [] ↔
      (x ∈ adj.getD a [] ∨
        EdgeEntry sqrt acos pi lines featureToLines useAngleWeight tulipBins f1 f2 a x) := by
  unfold connectFeatures EdgeEntry
  dsimp only
  generalize findIntersection lines (mapLookup featureToLines f1)
    (mapLookup featureToLines f2) = r
  cases r with
  | none => simp
  | some p =>
    obtain ⟨i, j⟩ := p
    simp only [mem_getD_pushBackAt, length_pushBackAt, Option.some.injEq, Prod.mk.injEq]
    constructor
    · rintro ((hx | ⟨ha, -, hx⟩) | ⟨ha, -, hx⟩)
      · exact Or.inl hx
      · exact Or.inr ⟨i, j, ⟨rfl, rfl⟩, Or.inl ⟨ha, hx⟩⟩
      · exact Or.inr ⟨i, j, ⟨rfl, rfl⟩, Or.inr ⟨ha, hx⟩⟩
    · rintro (hx | ⟨i', j', ⟨hi, hj⟩, hcase⟩)
      · exact Or.inl (Or.inl hx)
      · subst hi hj
        rcases hcase with ⟨ha, hx⟩ | ⟨ha, hx⟩
        · exact Or.inl (Or.inr ⟨ha, h1, hx⟩)
        · exact Or.inr ⟨ha, h2, hx⟩

theorem foldl_connectFeatures (fs : List Nat) (f1 : Nat) (adj : List (List (Int × K)))
    (h1 : f1 < adj.length) (hfs : ∀ f2 ∈ fs, f2 < adj.length) :
    (fs.foldl (connectFeatures sqrt acos pi lines featureToLines useAngleWeight tulipBins f1)
        adj).length = adj.length ∧
    ∀ (a : Nat) (x : Int × K),
      x ∈ (fs.foldl (connectFeatures sqrt acos pi lines featureToLines useAngleWeight
            tulipBins f1) adj).getD a [] ↔
        (x ∈ adj.getD a [] ∨ ∃ f2 ∈ fs,
          EdgeEntry sqrt acos pi lines featureToLines useAngleWeight tulipBins f1 f2 a x) := by
  induction fs generalizing adj with
  | nil => simp
  | cons f2 rest ih =>
    rw [List.foldl_cons]
    have hlen := length_connectFeatures sqrt acos pi lines featureToLines useAngleWeight
      tulipBins f1 f2 adj
    have hf2 := hfs f2 (List.mem_cons_self _ _)
    obtain ⟨ih1, ih2⟩ := ih
      (connectFeatures sqrt acos pi lines featureToLines useAngleWeight tulipBins f1 adj f2)
      (by rw [hlen]; exact h1)
      (fun g hg => by rw [hlen]; exact hfs g (List.mem_cons_of_mem _ hg))
    refine ⟨ih1.trans hlen, fun a x => ?_⟩
    rw [ih2, mem_getD_connectFeatures sqrt acos pi lines featureToLines useAngleWeight
      tulipBins f1 f2 adj h1 hf2]
    constructor
    · rintro ((hx | he) | ⟨g, hg, he⟩)
      · exact Or.inl hx
      · exact Or.inr ⟨f2, List.mem_cons_self _ _, he⟩
      · exact Or.inr ⟨g, List.mem_cons_of_mem _ hg, he⟩
    · rintro (hx | ⟨g, hg, he⟩)
      · exact Or.inl (Or.inl hx)
      · rcases List.mem_cons.1 hg with heq | hmem
        · subst heq; exact Or.inl (Or.inr he)
        · exact Or.inr ⟨g, hmem, he⟩

theorem foldl_foldl_connectFeatures (gs : List Nat) (n : Nat) (adj : List (List (Int × K)))
    (hn : adj.length = n) (hgs : ∀ f1 ∈ gs, f1 < n) :
    (gs.foldl (fun adjacencyList f1 =>
        (List.range' (f1 + 1) (n - (f1 + 1))).foldl
          (connectFeatures sqrt acos pi lines featureToLines useAngleWeight tulipBins f1)
          adjacencyList) adj).length = n ∧
    ∀ (a : Nat) (x : Int × K),
      x ∈ (gs.foldl (fun adjacencyList f1 =>
        (List.range' (f1 + 1) (n - (f1 + 1))).foldl
          (connectFeatures sqrt acos pi lines featureToLines useAngleWeight tulipBins f1)
          adjacencyList) adj).getD a [] ↔
        (x ∈ adj.getD a [] ∨ ∃ f1 ∈ gs, ∃ f2, f1 < f2 ∧ f2 < n ∧
          EdgeEntry sqrt acos pi lines featureToLines useAngleWeight tulipBins f1 f2 a x) := by
  induction gs generalizing adj with
  | nil => simp [hn]
  | cons f1 rest ih =>
    rw [List.foldl_cons]
    have hf1 : f1 < n := hgs f1 (List.mem_cons_self _ _)
    obtain ⟨hl, hm⟩ := foldl_connectFeatures sqrt acos pi lines featureToLines useAngleWeight
      tulipBins (List.range' (f1 + 1) (n - (f1 + 1))) f1 adj (by rw [hn]; exact hf1)
      (fun f2 hf2 => by
        rw [List.mem_range'_1] at hf2
        rw [hn]; omega)
    obtain ⟨ih1, ih2⟩ := ih _ (hl.trans hn) (fun g hg => hgs g (List.mem_cons_of_mem _ hg))
    refine ⟨ih1, fun a x => ?_⟩
    rw [ih2, hm]
    constructor
    · rintro ((hx | ⟨f2, hf2, he⟩) | ⟨g, hg, f2, h1, h2, he⟩)
      · exact Or.inl hx
      · rw [List.mem_range'_1] at hf2
        exact Or.inr ⟨f1, List.mem_cons_self _ _, f2, by omega, by omega, he⟩
      · exact Or.inr ⟨g, List.mem_cons_of_mem _ hg, f2, h1, h2, he⟩
    · rintro (hx | ⟨g, hg, f2, h1, h2, he⟩)
      · exact Or.inl (Or.inl hx)
      · rcases List.mem_cons.1 hg with heq | hmem
        · subst heq
          exact Or.inl (Or.inr ⟨f2, by rw [List.mem_range'_1]; omega, he⟩)
        · exact Or.inr ⟨g, hmem, f2, h1, h2, he⟩

theorem length_buildAdjacencyList (mode : String) :
    (buildAdjacencyList sqrt acos pi lines mode tulipBins).length
      = (groupByFeature lines).length := by
  unfold buildAdjacencyList
  exact (foldl_foldl_connectFeatures sqrt acos pi lines (groupByFeature lines) (mode == "angle")
    tulipBins (List.range (groupByFeature lines).length) (groupByFeature lines).length
    (List.replicate (groupByFeature lines).length []) (by simp)
    (fun f hf => List.mem_range.1 hf)).1

theorem mem_getD_buildAdjacencyList (mode : String) (a : Nat) (x : Int × K) :
    x ∈ (buildAdjacencyList sqrt acos pi lines mode tulipBins).getD a [] ↔
      ∃ f1 f2, f1 < f2 ∧ f2 < (groupByFeature lines).length ∧
        EdgeEntry sqrt acos pi lines (groupByFeature lines) (mode == "angle") tulipBins
          f1 f2 a x := by
  unfold buildAdjacencyList
  rw [(foldl_foldl_connectFeatures sqrt acos pi lines (groupByFeature lines) (mode == "angle")
    tulipBins (List.range (groupByFeature lines).length) (groupByFeature lines).length
    (List.replicate (groupByFeature lines).length []) (by simp)
    (fun f hf => List.mem_range.1 hf)).2 a x]
  have hempty : x ∉ (List.replicate (groupByFeature lines).length
      ([] : List (Int × K))).getD a [] := by
    rw [getD_replicate_nil]
    exact List.not_mem_nil x
  constructor
  · rintro (hx | ⟨f1, -, f2, h1, h2, he⟩)
    · exact absurd hx hempty
    · exact ⟨f1, f2, h1, h2, he⟩
  · rintro ⟨f1, f2, h1, h2, he⟩
    exact Or.inr ⟨f1, List.mem_range.2 (by omega), f2, h1, h2, he⟩

/-- Symmetry of the built structure, for rows addressed by natural numbers. -/
theorem buildAdjacencyList_symm_aux (mode : String) (a : Nat) (b : Int) (w : K)
    (h : (b, w) ∈ (buildAdjacencyList sqrt acos pi lines mode tulipBins).getD a []) :
    0 ≤ b ∧ ((a : Int), w) ∈
      (buildAdjacencyList sqrt acos pi lines mode tulipBins).getD b.toNat [] := by
  rw [mem_getD_buildAdjacencyList] at h
  obtain ⟨f1, f2, h1, h2, i, j, hfind, hcase⟩ := h
  rcases hcase with ⟨ha, hx⟩ | ⟨ha, hx⟩
  · simp only [Prod.mk.injEq] at hx
    obtain ⟨hb, hw⟩ := hx
    subst hb ha
    refine ⟨Int.natCast_nonneg _, ?_⟩
    rw [Int.toNat_natCast, mem_getD_buildAdjacencyList]
    exact ⟨a, f2, h1, h2, i, j, hfind, Or.inr ⟨rfl, by rw [hw]⟩⟩
  · simp only [Prod.mk.injEq] at hx
    obtain ⟨hb, hw⟩ := hx
    subst hb ha
    refine ⟨Int.natCast_nonneg _, ?_⟩
    rw [Int.toNat_natCast, mem_getD_buildAdjacencyList]
    exact ⟨f1, a, h1, h2, i, j, hfind, Or.inl ⟨rfl, by rw [hw]⟩⟩

end BuilderLoops

section BuilderClaims

variable [FloorRing K] (sqrt acos : K → K) (pi : K)

theorem edgeWeight_topo (tulipBins : Int) (l1 l2 : Line K) :
    edgeWeight sqrt acos pi false tulipBins l1 l2 = 1 := by
  simp [edgeWeight]

theorem getD_of_getElem? {α : Type} (l : List α) (i : Nat) (d x : α) (h : l[i]? = some x) :
    l.getD i d = x := by
  rw [List.getD_eq_getElem?_getD, h]; rfl

/-- The scan over two features succeeds exactly when some segment of the first
meets some segment of the second. -/
theorem findIntersection_isSome_iff (lines : List (Line K)) (k1 k2 : Int) :
    (∃ i j, findIntersection lines (mapLookup (groupByFeature lines) k1)
        (mapLookup (groupByFeature lines) k2) = some (i, j)) ↔
      ∃ l1 ∈ lines, ∃ l2 ∈ lines, l1.featureIndex = k1 ∧ l2.featureIndex = k2 ∧
        (checkLineIntersection l1 l2).1 = true := by
  constructor
  · rintro ⟨i, j, h⟩
    obtain ⟨hi, hj, hc⟩ := findIntersection_eq_some lines _ _ i j h
    obtain ⟨l1, hl1, hk1⟩ := (mem_mapLookup_groupByFeature lines k1 i).1 hi
    obtain ⟨l2, hl2, hk2⟩ := (mem_mapLookup_groupByFeature lines k2 j).1 hj
    rw [getD_of_getElem? lines i default l1 hl1, getD_of_getElem? lines j default l2 hl2] at hc
    exact ⟨l1, List.getElem?_mem hl1, l2, List.getElem?_mem hl2, hk1, hk2, hc⟩
  · rintro ⟨l1, hl1, l2, hl2, hk1, hk2, hc⟩
    obtain ⟨i, hi, hgi⟩ := List.getElem_of_mem hl1
    obtain ⟨j, hj, hgj⟩ := List.getElem_of_mem hl2
    have hi' : lines[i]? = some l1 := by rw [List.getElem?_eq_getElem hi, hgi]
    have hj' : lines[j]? = some l2 := by rw [List.getElem?_eq_getElem hj, hgj]
    cases hf : findIntersection lines (mapLookup (groupByFeature lines) k1)
        (mapLookup (groupByFeature lines) k2) with
    | some p => exact ⟨p.1, p.2, rfl⟩
    | none =>
      rw [findIntersection_eq_none] at hf
      have := hf i ((mem_mapLookup_groupByFeature lines k1 i).2 ⟨l1, hi', hk1⟩)
        j ((mem_mapLookup_groupByFeature lines k2 j).2 ⟨l2, hj', hk2⟩)
      rw [getD_of_getElem? lines i default l1 hi', getD_of_getElem? lines j default l2 hj',
        hc] at this
      exact Bool.noConfusion this

/-- C2: when the feature indices are exactly `0 .. n-1`, `buildAdjacencyList` in
`"topo"` mode returns `n` rows, and row `a` holds `(b, w)` exactly when `w = 1`,
`b` is another feature and some segment of feature `a` intersects some segment
of feature `b`. -/
theorem buildAdjacencyList_topo_dense (lines : List (Line K)) (tulipBins : Int) (n : Nat)
    (hdense : ∀ k : Int, (∃ l ∈ lines, l.featureIndex = k) ↔ (0 ≤ k ∧ k < n)) :
    (buildAdjacencyList sqrt acos pi lines "topo" tulipBins).length = n ∧
    ∀ (a : Nat) (b : Int) (w : K), a < n →
      ((b, w) ∈ (buildAdjacencyList sqrt acos pi lines "topo" tulipBins).getD a [] ↔
        (w = 1 ∧ 0 ≤ b ∧ b < n ∧ b ≠ a ∧
          ∃ l1 ∈ lines, ∃ l2 ∈ lines, l1.featureIndex = a ∧ l2.featureIndex = b ∧
            (checkLineIntersection l1 l2).1 = true)) := by
  have hlen := length_groupByFeature_of_dense lines n hdense
  have hmode : ("topo" == "angle") = false := by decide
  refine ⟨by rw [length_buildAdjacencyList, hlen], fun a b w ha => ?_⟩
  rw [mem_getD_buildAdjacencyList, hlen, hmode]
  constructor
  · rintro ⟨f1, f2, h12, h2n, i, j, hfind, hcase⟩
    obtain ⟨l1, hl1, l2, hl2, hk1, hk2, hc⟩ :=
      (findIntersection_isSome_iff lines f1 f2).1 ⟨i, j, hfind⟩
    rw [edgeWeight_topo] at hcase
    rcases hcase with ⟨haf, hx⟩ | ⟨haf, hx⟩
    · simp only [Prod.mk.injEq] at hx
      obtain ⟨hb, hw⟩ := hx
      subst hb haf
      exact ⟨hw, by omega, by omega, by omega, l1, hl1, l2, hl2, hk1, hk2, hc⟩
    · simp only [Prod.mk.injEq] at hx
      obtain ⟨hb, hw⟩ := hx
      subst hb haf
      refine ⟨hw, by omega, by omega, by omega, l2, hl2, l1, hl1, hk2, hk1, ?_⟩
      rw [checkLineIntersection_fst_swap]; exact hc
  · rintro ⟨hw, hb0, hbn, hba, l1, hl1, l2, hl2, hk1, hk2, hc⟩
    subst hw
    obtain ⟨m, rfl⟩ := Int.eq_ofNat_of_zero_le hb0
    rcases Nat.lt_or_gt_of_ne (fun h : a = m => hba (by rw [h])) with hlt | hgt
    · obtain ⟨i, j, hfind⟩ := (findIntersection_isSome_iff lines a m).2
        ⟨l1, hl1, l2, hl2, hk1, hk2, hc⟩
      exact ⟨a, m, hlt, by omega, i, j, hfind, Or.inl ⟨rfl, by rw [edgeWeight_topo]⟩⟩
    · obtain ⟨i, j, hfind⟩ := (findIntersection_isSome_iff lines m a).2
        ⟨l2, hl2, l1, hl1, hk2, hk1, by rw [checkLineIntersection_fst_swap]; exact hc⟩
      exact ⟨m, a, hgt, ha, i, j, hfind, Or.inr ⟨rfl, by rw [edgeWeight_topo]⟩⟩

/-- C4: the structure returned by `buildAdjacencyList` is symmetric, for every
segment list, mode and resolution: an entry `(b, w)` in row `a` comes with the
entry `(a, w)` in row `b`. -/
theorem buildAdjacencyList_symmetric (lines : List (Line K)) (mode : String) (tulipBins : Int)
    (a : Nat) (b : Int) (w : K)
    (h : (b, w) ∈ (buildAdjacencyList sqrt acos pi lines mode tulipBins).getD a []) :
    0 ≤ b ∧ ((a : Int), w) ∈
      (buildAdjacencyList sqrt acos pi lines mode tulipBins).getD b.toNat [] :=
  buildAdjacencyList_symm_aux sqrt acos pi lines tulipBins mode a b w h

end BuilderClaims

/-! ### Evaluations on the example segments -/

theorem pathSegments_dense (k : Int) :
    (∃ l ∈ pathSegments, l.featureIndex = k) ↔ (0 ≤ k ∧ k < (3 : Nat)) := by
  simp only [pathSegments, List.mem_cons, List.mem_singleton, List.not_mem_nil, or_false,
    exists_eq_or_imp, exists_eq_left]
  constructor
  · rintro (h | h | h) <;> omega
  · rintro ⟨h1, h2⟩
    have : k = 0 ∨ k = 1 ∨ k = 2 := by omega
    rcases this with h | h | h <;> simp [h]

theorem buildAdjacencyList_pathSegments (sqrt acos : ℚ → ℚ) (pi : ℚ) (tulipBins : Int) :
    buildAdjacencyList sqrt acos pi pathSegments "topo" tulipBins = pathAdjacency := by
  have hmode : ("topo" == "angle") = false := by decide
  simp only [buildAdjacencyList, hmode, pathSegments, pathAdjacency, groupByFeature, List.enum,
    List.enumFrom, List.foldl, mapPushBack, List.length, List.range, List.range.loop,
    List.range', connectFeatures, mapLookup, findIntersection, List.find?, List.getD_cons_zero,
    List.getD_cons_succ, checkLineIntersection, intersectionDenom, intersectionT,
    intersectionU, EPSILON, edgeWeight, pushBackAt, List.replicate]
  norm_num [List.range', List.foldl, connectFeatures, mapLookup, findIntersection, List.find?,
    checkLineIntersection, intersectionDenom, intersectionT, intersectionU, EPSILON, edgeWeight,
    pushBackAt]

/-- C3 (code at the failing input): the two crossing segments with feature
indices 0 and 5 do intersect, yet `buildAdjacencyList` reads the map at the
keys 0 and 1 and returns two empty rows. -/
theorem buildAdjacencyList_sparse_drops_edge :
    (checkLineIntersection (sparseSegments.getD 0 default)
        (sparseSegments.getD 1 default)).1 = true ∧
    ∀ (sqrt acos : ℚ → ℚ) (pi : ℚ),
      buildAdjacencyList sqrt acos pi sparseSegments "topo" 8 = [[], []] := by
  constructor
  · rw [checkLineIntersection_fst]
    norm_num [sparseSegments, intersectionDenom, intersectionT, intersectionU, EPSILON]
  · intro sqrt acos pi
    rfl

/-- Witness for C2: the three-segment path. -/
theorem buildAdjacencyList_topo_dense_witness :
    (∀ k : Int, (∃ l ∈ pathSegments, l.featureIndex = k) ↔ (0 ≤ k ∧ k < (3 : Nat))) ∧
    buildAdjacencyList (fun x => x) (fun x => x) 0 pathSegments "topo" 8 = pathAdjacency ∧
    ((buildAdjacencyList (fun x => x) (fun x => x) 0 pathSegments "topo" 8).length = 3 ∧
    ∀ (a : Nat) (b : Int) (w : ℚ), a < 3 →
      ((b, w) ∈ (buildAdjacencyList (fun x => x) (fun x => x) 0 pathSegments "topo" 8).getD a []
        ↔ (w = 1 ∧ 0 ≤ b ∧ b < (3 : Nat) ∧ b ≠ a ∧
          ∃ l1 ∈ pathSegments, ∃ l2 ∈ pathSegments, l1.featureIndex = a ∧ l2.featureIndex = b ∧
            (checkLineIntersection l1 l2).1 = true))) :=
  ⟨pathSegments_dense, buildAdjacencyList_pathSegments _ _ _ _,
    buildAdjacencyList_topo_dense (fun x => x) (fun x => x) 0 pathSegments 8 3
      pathSegments_dense⟩

/-- Witness for C4: in the structure built from the path, row 0 lists
`(1, 1)` and row 1 lists `(0, 1)`. -/
theorem buildAdjacencyList_symmetric_witness :
    ((1 : Int), (1 : ℚ)) ∈
        (buildAdjacencyList (fun x => x) (fun x => x) 0 pathSegments "topo" 8).getD 0 [] ∧
    ((0 : Int) ≤ 1 ∧ (((0 : Nat) : Int), (1 : ℚ)) ∈
        (buildAdjacencyList (fun x => x) (fun x => x) 0 pathSegments "topo" 8).getD
          (1 : Int).toNat []) :=
  ⟨by rw [buildAdjacencyList_pathSegments]; simp [pathAdjacency],
    buildAdjacencyList_symmetric (fun x => x) (fun x => x) 0 pathSegments "topo" 8 0 1 1
      (by rw [buildAdjacencyList_pathSegments]; simp [pathAdjacency])⟩

/-! ## Depth engine: the relaxation loop -/

theorem pqLe_total (a b : K × Int) : pqLe a b ∨ pqLe b a := by
  unfold pqLe
  rcases lt_trichotomy a.1 b.1 with h | h | h
  · exact Or.inl (Or.inl h)
  · rcases le_total a.2 b.2 with h2 | h2
    · exact Or.inl (Or.inr ⟨h, h2⟩)
    · exact Or.inr (Or.inr ⟨h.symm, h2⟩)
  · exact Or.inr (Or.inl h)

theorem pqLe_trans (a b c : K × Int) (hab : pqLe a b) (hbc : pqLe b c) : pqLe a c := by
  unfold pqLe at *
  rcases hab with h1 | ⟨h1, h1'⟩ <;> rcases hbc with h2 | ⟨h2, h2'⟩
  · exact Or.inl (lt_trans h1 h2)
  · exact Or.inl (h2 ▸ h1)
  · exact Or.inl (h1 ▸ h2)
  · exact Or.inr ⟨h1.trans h2, le_trans h1' h2'⟩

theorem pqLe_fst {a b : K × Int} (h : pqLe a b) : a.1 ≤ b.1 := by
  rcases h with h | ⟨h, -⟩
  · exact le_of_lt h
  · exact le_of_eq h

theorem sorted_pqPush (e : K × Int) (pq : List (K × Int)) (h : pq.Sorted pqLe) :
    (pqPush e pq).Sorted pqLe := by
  haveI : IsTotal (K × Int) pqLe := ⟨pqLe_total⟩
  haveI : IsTrans (K × Int) pqLe := ⟨pqLe_trans⟩
  exact List.Sorted.orderedInsert e pq h

theorem mem_pqPush (x e : K × Int) (pq : List (K × Int)) :
    x ∈ pqPush e pq ↔ x = e ∨ x ∈ pq := by
  unfold pqPush
  exact List.mem_orderedInsert pqLe

theorem length_pqPush (e : K × Int) (pq : List (K × Int)) :
    (pqPush e pq).length = pq.length + 1 := by
  unfold pqPush
  exact List.orderedInsert_length pqLe pq e

theorem toIndex_coe (n : Nat) (v : Fin n) : toIndex n ((v : Nat) : Int) = some v := by
  unfold toIndex
  have h : (0 : Int) ≤ ((v : Nat) : Int) ∧ ((v : Nat) : Int) < (n : Int) :=
    ⟨Int.natCast_nonneg _, by exact_mod_cast v.isLt⟩
  rw [dif_pos h]
  simp

theorem toIndex_eq_some {n : Nat} {i : Int} {v : Fin n} (h : toIndex n i = some v) :
    i = ((v : Nat) : Int) := by
  unfold toIndex at h
  by_cases hc : 0 ≤ i ∧ i < (n : Int)
  · rw [dif_pos hc] at h
    simp only [Option.some.injEq] at h
    rw [← h]
    simp [Int.toNat_of_nonneg hc.1]
  · rw [dif_neg hc] at h
    exact Option.noConfusion h

theorem foldl_invariant {σ α : Type} (P : σ → Prop) (f : σ → α → σ) (es : List α) (s : σ)
    (h0 : P s) (hstep : ∀ s e, e ∈ es → P s → P (f s e)) : P (es.foldl f s) := by
  induction es generalizing s with
  | nil => exact h0
  | cons e rest ih =>
    rw [List.foldl_cons]
    exact ih (f s e) (hstep s e (List.mem_cons_self _ _) h0)
      (fun s' e' he' hs' => hstep s' e' (List.mem_cons_of_mem _ he') hs')

section Relax

variable {n : Nat}

/-- One step of the neighbour loop, described by cases. -/
theorem relaxEdge_cases (d : K) (s : DepthState K n) (e : Int × K) :
    relaxEdge d s e = s ∨
    ∃ v : Fin n, e.1 = ((v : Nat) : Int) ∧ ((d + e.2 : K) : WithTop K) < s.depth v ∧
      relaxEdge d s e =
        { depth := Function.update s.depth v ((d + e.2 : K) : WithTop K)
          pq := pqPush (d + e.2, e.1) s.pq } := by
  unfold relaxEdge
  cases hi : toIndex n e.1 with
  | none => exact Or.inl rfl
  | some v =>
    dsimp only
    by_cases hlt : ((d + e.2 : K) : WithTop K) < s.depth v
    · rw [if_pos hlt]
      exact Or.inr ⟨v, toIndex_eq_some hi, hlt, rfl⟩
    · rw [if_neg hlt]
      exact Or.inl rfl

theorem relaxEdge_depth_le (d : K) (s : DepthState K n) (e : Int × K) (v : Fin n) :
    (relaxEdge d s e).depth v ≤ s.depth v := by
  rcases relaxEdge_cases d s e with h | ⟨x, -, hlt, h⟩
  · rw [h]
  · rw [h]
    dsimp only
    by_cases hv : v = x
    · subst hv
      rw [Function.update_same]
      exact le_of_lt hlt
    · rw [Function.update_noteq hv]

theorem relaxEdge_pq_subset (d : K) (s : DepthState K n) (e : Int × K) (x : K × Int)
    (hx : x ∈ s.pq) : x ∈ (relaxEdge d s e).pq := by
  rcases relaxEdge_cases d s e with h | ⟨v, -, -, h⟩
  · rw [h]; exact hx
  · rw [h]
    exact (mem_pqPush _ _ _).2 (Or.inr hx)

theorem relaxEdge_after (d : K) (s : DepthState K n) (e : Int × K) (v : Fin n)
    (hv : e.1 = ((v : Nat) : Int)) :
    (relaxEdge d s e).depth v ≤ ((d + e.2 : K) : WithTop K) := by
  unfold relaxEdge
  rw [hv, toIndex_coe]
  dsimp only
  by_cases hlt : ((d + e.2 : K) : WithTop K) < s.depth v
  · rw [if_pos hlt]
    dsimp only
    rw [Function.update_same]
  · rw [if_neg hlt]
    exact not_lt.1 hlt

theorem relaxEdge_of_relaxed (d : K) (s : DepthState K n) (e : Int × K)
    (h : ∀ v : Fin n, e.1 = ((v : Nat) : Int) → s.depth v ≤ ((d + e.2 : K) : WithTop K)) :
    relaxEdge d s e = s := by
  rcases relaxEdge_cases d s e with h1 | ⟨v, hv, hlt, -⟩
  · exact h1
  · exact absurd hlt (not_lt.2 (h v hv))

end Relax

section RelaxAll

variable {n : Nat}

theorem foldl_relaxEdge_depth_le (d : K) (es : List (Int × K)) (s : DepthState K n)
    (v : Fin n) : (es.foldl (relaxEdge d) s).depth v ≤ s.depth v :=
  foldl_invariant (fun s' => s'.depth v ≤ s.depth v) (relaxEdge d) es s (le_refl _)
    (fun s' e _ hs' => le_trans (relaxEdge_depth_le d s' e v) hs')

theorem foldl_relaxEdge_pq_subset (d : K) (es : List (Int × K)) (s : DepthState K n)
    (x : K × Int) (hx : x ∈ s.pq) : x ∈ (es.foldl (relaxEdge d) s).pq :=
  foldl_invariant (fun s' => x ∈ s'.pq) (relaxEdge d) es s hx
    (fun s' e _ hs' => relaxEdge_pq_subset d s' e x hs')

theorem foldl_relaxEdge_sorted (d : K) (es : List (Int × K)) (s : DepthState K n)
    (h : s.pq.Sorted pqLe) : (es.foldl (relaxEdge d) s).pq.Sorted pqLe := by
  refine foldl_invariant (fun s' => s'.pq.Sorted pqLe) (relaxEdge d) es s h ?_
  intro s' e _ hs'
  rcases relaxEdge_cases d s' e with h1 | ⟨v, -, -, h1⟩
  · rw [h1]; exact hs'
  · rw [h1]; exact sorted_pqPush _ _ hs'

theorem foldl_relaxEdge_entries (d : K) (es : List (Int × K)) (s : DepthState K n)
    (h : ∀ e ∈ s.pq, ∃ v : Fin n, e.2 = ((v : Nat) : Int) ∧ s.depth v ≤ (e.1 : WithTop K)) :
    ∀ e ∈ (es.foldl (relaxEdge d) s).pq,
      ∃ v : Fin n, e.2 = ((v : Nat) : Int) ∧
        (es.foldl (relaxEdge d) s).depth v ≤ (e.1 : WithTop K) := by
  refine foldl_invariant (fun s' => ∀ e ∈ s'.pq, ∃ v : Fin n, e.2 = ((v : Nat) : Int) ∧
    s'.depth v ≤ (e.1 : WithTop K)) (relaxEdge d) es s h ?_
  intro s' e _ hs' y hy
  rcases relaxEdge_cases d s' e with h1 | ⟨x, hx, -, h1⟩
  · rw [h1] at hy ⊢
    exact hs' y hy
  · have hle := fun v => relaxEdge_depth_le d s' e v
    rw [h1] at hy
    rcases (mem_pqPush _ _ _).1 hy with heq | hold
    · refine ⟨x, by rw [heq]; exact hx, ?_⟩
      rw [h1, heq]
      dsimp only
      rw [Function.update_same]
    · obtain ⟨v, hv1, hv2⟩ := hs' y hold
      exact ⟨v, hv1, le_trans (hle v) hv2⟩

theorem foldl_relaxEdge_new_keys (d : K) (es : List (Int × K)) (s : DepthState K n)
    (hw : ∀ e ∈ es, 0 ≤ e.2) :
    ∀ y ∈ (es.foldl (relaxEdge d) s).pq, y ∈ s.pq ∨ d ≤ y.1 := by
  refine foldl_invariant (fun s' => ∀ y ∈ s'.pq, y ∈ s.pq ∨ d ≤ y.1) (relaxEdge d) es s
    (fun y hy => Or.inl hy) ?_
  intro s' e he hs' y hy
  rcases relaxEdge_cases d s' e with h1 | ⟨x, -, -, h1⟩
  · rw [h1] at hy
    exact hs' y hy
  · rw [h1] at hy
    rcases (mem_pqPush _ _ _).1 hy with heq | hold
    · right
      rw [heq]
      exact le_add_of_nonneg_right (hw e he)
    · exact hs' y hold

theorem foldl_relaxEdge_depth_eq (d : K) (es : List (Int × K)) (s : DepthState K n)
    (hw : ∀ e ∈ es, 0 ≤ e.2) (v : Fin n) (hv : s.depth v ≤ (d : WithTop K)) :
    (es.foldl (relaxEdge d) s).depth v = s.depth v := by
  refine foldl_invariant (fun s' => s'.depth v = s.depth v) (relaxEdge d) es s rfl ?_
  intro s' e he hs'
  rcases relaxEdge_cases d s' e with h1 | ⟨x, -, hlt, h1⟩
  · rw [h1]; exact hs'
  · rw [h1]
    dsimp only
    by_cases hvx : v = x
    · subst hvx
      exfalso
      rw [hs'] at hlt
      have h2 : ((d + e.2 : K) : WithTop K) < (d : WithTop K) := lt_of_lt_of_le hlt hv
      rw [WithTop.coe_lt_coe] at h2
      have := hw e he
      linarith
    · rw [Function.update_noteq hvx]
      exact hs'

theorem foldl_relaxEdge_changed (d : K) (es : List (Int × K)) (s : DepthState K n)
    (v : Fin n) (hv : (es.foldl (relaxEdge d) s).depth v ≠ s.depth v) :
    ∃ d' : K, (es.foldl (relaxEdge d) s).depth v = (d' : WithTop K) ∧
      (d', ((v : Nat) : Int)) ∈ (es.foldl (relaxEdge d) s).pq := by
  revert hv
  refine foldl_invariant (fun s' => s'.depth v ≠ s.depth v →
    ∃ d' : K, s'.depth v = (d' : WithTop K) ∧ (d', ((v : Nat) : Int)) ∈ s'.pq)
    (relaxEdge d) es s (fun h => absurd rfl h) ?_
  intro s' e _ hs' hne
  rcases relaxEdge_cases d s' e with h1 | ⟨x, hx, -, h1⟩
  · rw [h1] at hne ⊢
    exact hs' hne
  · by_cases hvx : v = x
    · subst hvx
      refine ⟨d + e.2, ?_, ?_⟩
      · rw [h1]
        dsimp only
        rw [Function.update_same]
      · rw [h1]
        dsimp only
        rw [← hx]
        exact (mem_pqPush _ _ _).2 (Or.inl rfl)
    · have hsame : (relaxEdge d s' e).depth v = s'.depth v := by
        rw [h1]
        dsimp only
        rw [Function.update_noteq hvx]
      rw [hsame] at hne ⊢
      obtain ⟨d', hd1, hd2⟩ := hs' hne
      exact ⟨d', hd1, relaxEdge_pq_subset d s' e _ hd2⟩

theorem foldl_relaxEdge_after (d : K) (es : List (Int × K)) (s : DepthState K n)
    (e : Int × K) (he : e ∈ es) (v : Fin n) (hv : e.1 = ((v : Nat) : Int)) :
    (es.foldl (relaxEdge d) s).depth v ≤ ((d + e.2 : K) : WithTop K) := by
  induction es generalizing s with
  | nil => exact absurd he (List.not_mem_nil e)
  | cons e0 rest ih =>
    rw [List.foldl_cons]
    rcases List.mem_cons.1 he with heq | hmem
    · subst heq
      exact le_trans (foldl_relaxEdge_depth_le d rest _ v) (relaxEdge_after d s e v hv)
    · exact ih (relaxEdge d s e0) hmem

theorem foldl_relaxEdge_isPath (adj : List (List (Int × K))) (root u : Fin n) (d : K)
    (es : List (Int × K)) (s : DepthState K n)
    (hu : PathWeight adj n root u d) (hes : ∀ e ∈ es, e ∈ adj.getD (u : Nat) [])
    (h : ∀ v (d' : K), s.depth v = (d' : WithTop K) → PathWeight adj n root v d') :
    ∀ v (d' : K), (es.foldl (relaxEdge d) s).depth v = (d' : WithTop K) →
      PathWeight adj n root v d' := by
  refine foldl_invariant (fun s' => ∀ v (d' : K), s'.depth v = (d' : WithTop K) →
    PathWeight adj n root v d') (relaxEdge d) es s h ?_
  intro s' e he hs' v d' hv
  rcases relaxEdge_cases d s' e with h1 | ⟨x, hx, -, h1⟩
  · rw [h1] at hv
    exact hs' v d' hv
  · rw [h1] at hv
    dsimp only at hv
    by_cases hvx : v = x
    · subst hvx
      rw [Function.update_same, WithTop.coe_eq_coe] at hv
      rw [← hv]
      refine PathWeight.snoc hu ?_
      have := hes e he
      rw [← hx]
      exact this
    · rw [Function.update_noteq hvx] at hv
      exact hs' v d' hv

theorem foldl_relaxEdge_length (d : K) (es : List (Int × K)) (s : DepthState K n) :
    (es.foldl (relaxEdge d) s).pq.length ≤ s.pq.length + es.length := by
  induction es generalizing s with
  | nil => simp
  | cons e0 rest ih =>
    rw [List.foldl_cons]
    have h1 := ih (relaxEdge d s e0)
    have h2 : (relaxEdge d s e0).pq.length ≤ s.pq.length + 1 := by
      rcases relaxEdge_cases d s e0 with h | ⟨x, -, -, h⟩
      · rw [h]; omega
      · rw [h]
        dsimp only
        rw [length_pqPush]
    rw [List.length_cons]
    omega

theorem foldl_relaxEdge_of_relaxed (d : K) (es : List (Int × K)) (s : DepthState K n)
    (h : ∀ e ∈ es, ∀ v : Fin n, e.1 = ((v : Nat) : Int) →
      s.depth v ≤ ((d + e.2 : K) : WithTop K)) :
    es.foldl (relaxEdge d) s = s := by
  induction es with
  | nil => rfl
  | cons e0 rest ih =>
    rw [List.foldl_cons, relaxEdge_of_relaxed d s e0 (h e0 (List.mem_cons_self _ _))]
    exact ih (fun e he => h e (List.mem_cons_of_mem _ he))

end RelaxAll

section MainLoop

variable {n : Nat}

theorem nonneg_of_mem_getD (adj : List (List (Int × K)))
    (hw : ∀ row ∈ adj, ∀ e ∈ row, (0 : K) ≤ e.2) (u : Nat) :
    ∀ e ∈ adj.getD u [], (0 : K) ≤ e.2 := by
  intro e he
  rw [List.getD_eq_getElem?_getD] at he
  cases hg : adj[u]? with
  | none =>
    rw [hg] at he
    exact absurd he (List.not_mem_nil e)
  | some row =>
    rw [hg] at he
    exact hw row (List.getElem?_mem hg) e he

theorem depthLoop_zero (adj : List (List (Int × K))) (s : DepthState K n) :
    depthLoop adj 0 s = .error .outOfFuel := rfl

theorem depthLoop_succ_nil (adj : List (List (Int × K))) (fuel : Nat)
    (depth : Fin n → WithTop K) :
    depthLoop adj (fuel + 1) ⟨depth, []⟩ = .ok depth := rfl

theorem depthLoop_succ_cons (adj : List (List (Int × K))) (fuel : Nat)
    (depth : Fin n → WithTop K) (d : K) (u : Fin n) (rest : List (K × Int)) :
    depthLoop adj (fuel + 1) ⟨depth, (d, ((u : Nat) : Int)) :: rest⟩ =
      if (d : WithTop K) > depth u then depthLoop adj fuel ⟨depth, rest⟩
      else depthLoop adj fuel ((adj.getD (u : Nat) []).foldl (relaxEdge d) ⟨depth, rest⟩) := by
  rw [depthLoop]
  simp only [toIndex_coe]
  by_cases hst : (d : WithTop K) > depth u
  · rw [if_pos hst, if_pos hst]
  · rw [if_neg hst, if_neg hst]
    by_cases hb : ((u : Nat) : Int) < 0 ∨ ((u : Nat) : Int) ≥ (adj.length : Int)
    · rw [if_pos hb]
      have hlen : adj.length ≤ (u : Nat) := by omega
      have hnil : adj.getD (u : Nat) [] = [] := by
        rw [List.getD_eq_getElem?_getD, List.getElem?_eq_none hlen]
        rfl
      rw [hnil]
      rfl
    · rw [if_neg hb, Int.toNat_natCast]

/-- The invariant holds before the first iteration. -/
theorem DepthInv.initial (adj : List (List (Int × K))) (root : Fin n) :
    DepthInv adj root
      { depth := Function.update (fun _ => (⊤ : WithTop K)) root ((0 : K) : WithTop K)
        pq := [(0, ((root : Nat) : Int))] } Finset.univ where
  sorted := List.sorted_singleton _
  entries := by
    intro e he
    rw [List.mem_singleton] at he
    refine ⟨root, by rw [he], ?_⟩
    rw [he]
    dsimp only
    rw [Function.update_same]
  settled := fun v hv => absurd (Finset.mem_univ v) hv
  pending := by
    intro v _ d hd
    dsimp only at hd ⊢
    by_cases hv : v = root
    · subst hv
      rw [Function.update_same, WithTop.coe_eq_coe] at hd
      rw [← hd]
      exact List.mem_singleton.2 rfl
    · rw [Function.update_noteq hv] at hd
      exact absurd hd.symm (WithTop.coe_ne_top)
  isPath := by
    intro v d hd
    dsimp only at hd
    by_cases hv : v = root
    · subst hv
      rw [Function.update_same, WithTop.coe_eq_coe] at hd
      rw [← hd]
      exact PathWeight.nil
    · rw [Function.update_noteq hv] at hd
      exact absurd hd.symm (WithTop.coe_ne_top)
  rootLe := by
    dsimp only
    rw [Function.update_same]

/-- Dropping a stale queue entry, or an entry of an expanded node, keeps the
invariant. -/
theorem DepthInv.skip {adj : List (List (Int × K))} {root : Fin n}
    {depth : Fin n → WithTop K} {d : K} {u : Fin n} {rest : List (K × Int)}
    {U : Finset (Fin n)}
    (h : DepthInv adj root ⟨depth, (d, ((u : Nat) : Int)) :: rest⟩ U)
    (hu : depth u ≠ (d : WithTop K) ∨ u ∉ U) :
    DepthInv adj root ⟨depth, rest⟩ U where
  sorted := (List.sorted_cons.1 h.sorted).2
  entries := fun e he => h.entries e (List.mem_cons_of_mem _ he)
  settled := by
    intro v hv
    obtain ⟨dv, h1, h2, h3⟩ := h.settled v hv
    exact ⟨dv, h1, fun e he => h2 e (List.mem_cons_of_mem _ he), h3⟩
  pending := by
    intro v hv dv hdv
    have hmem := h.pending v hv dv hdv
    rcases List.mem_cons.1 hmem with heq | hmem'
    · exfalso
      simp only [Prod.mk.injEq, Nat.cast_inj] at heq
      obtain ⟨h1, h2⟩ := heq
      have hvu : v = u := Fin.ext h2
      subst hvu
      subst h1
      rcases hu with hne | hnot
      · exact hne hdv
      · exact hnot hv
    · exact hmem'
  isPath := h.isPath
  rootLe := h.rootLe

/-- Expanding a pending node keeps the invariant and settles that node. -/
theorem DepthInv.expand {adj : List (List (Int × K))} {root : Fin n}
    (hw : ∀ row ∈ adj, ∀ e ∈ row, (0 : K) ≤ e.2)
    {depth : Fin n → WithTop K} {d : K} {u : Fin n} {rest : List (K × Int)}
    {U : Finset (Fin n)}
    (h : DepthInv adj root ⟨depth, (d, ((u : Nat) : Int)) :: rest⟩ U)
    (hd : depth u = (d : WithTop K)) :
    DepthInv adj root ((adj.getD (u : Nat) []).foldl (relaxEdge d) ⟨depth, rest⟩)
      (U.erase u) := by
  have hes := nonneg_of_mem_getD adj hw (u : Nat)
  have hsorted := List.sorted_cons.1 h.sorted
  have hpath : PathWeight adj n root u d := h.isPath u d hd
  have hkeys : ∀ y ∈ ((adj.getD (u : Nat) []).foldl (relaxEdge d)
      (⟨depth, rest⟩ : DepthState K n)).pq, d ≤ y.1 := by
    intro y hy
    rcases foldl_relaxEdge_new_keys d _ ⟨depth, rest⟩ hes y hy with hold | hnew
    · exact pqLe_fst (hsorted.1 y hold)
    · exact hnew
  refine ⟨foldl_relaxEdge_sorted d _ _ hsorted.2, ?_, ?_, ?_, ?_, ?_⟩
  · exact foldl_relaxEdge_entries d _ ⟨depth, rest⟩
      (fun e he => h.entries e (List.mem_cons_of_mem _ he))
  · intro v hv
    by_cases hvu : v = u
    · subst hvu
      refine ⟨d, ?_, hkeys, ?_⟩
      · rw [foldl_relaxEdge_depth_eq d _ ⟨depth, rest⟩ hes v (le_of_eq hd)]
        exact hd
      · intro x w hx
        exact foldl_relaxEdge_after d _ ⟨depth, rest⟩ _ hx x rfl
    · have hvU : v ∉ U := fun hmem => hv (Finset.mem_erase.2 ⟨hvu, hmem⟩)
      obtain ⟨dv, h1, h2, h3⟩ := h.settled v hvU
      dsimp only at h1 h2 h3
      have hdv : dv ≤ d := h2 (d, ((u : Nat) : Int)) (List.mem_cons_self _ _)
      refine ⟨dv, ?_, ?_, ?_⟩
      · rw [foldl_relaxEdge_depth_eq d _ ⟨depth, rest⟩ hes v
          (by show depth v ≤ _; rw [h1]; exact WithTop.coe_le_coe.2 hdv)]
        exact h1
      · intro y hy
        exact le_trans hdv (hkeys y hy)
      · intro x w hx
        exact le_trans (foldl_relaxEdge_depth_le d _ ⟨depth, rest⟩ x) (h3 x w hx)
  · intro v hv dv hdv
    obtain ⟨hvu, hvU⟩ := Finset.mem_erase.1 hv
    by_cases hch : ((adj.getD (u : Nat) []).foldl (relaxEdge d)
        (⟨depth, rest⟩ : DepthState K n)).depth v = depth v
    · rw [hch] at hdv
      have hmem := h.pending v hvU dv hdv
      rcases List.mem_cons.1 hmem with heq | hmem'
      · exfalso
        simp only [Prod.mk.injEq, Nat.cast_inj] at heq
        exact hvu (Fin.ext heq.2)
      · exact foldl_relaxEdge_pq_subset d _ ⟨depth, rest⟩ _ hmem'
    · obtain ⟨d', hd1, hd2⟩ := foldl_relaxEdge_changed d _ ⟨depth, rest⟩ v hch
      rw [hd1, WithTop.coe_eq_coe] at hdv
      rw [← hdv]
      exact hd2
  · exact foldl_relaxEdge_isPath adj root u d _ ⟨depth, rest⟩ hpath (fun e he => he) h.isPath
  · exact le_trans (foldl_relaxEdge_depth_le d _ ⟨depth, rest⟩ root) h.rootLe

/-- With an empty queue every recorded depth is at most the weight of any path. -/
theorem DepthInv.le_pathWeight {adj : List (List (Int × K))} {root : Fin n}
    {depth : Fin n → WithTop K} {U : Finset (Fin n)}
    (h : DepthInv adj root ⟨depth, []⟩ U) (v : Fin n) (d : K)
    (hp : PathWeight adj n root v d) : depth v ≤ (d : WithTop K) := by
  induction hp with
  | nil => exact h.rootLe
  | @snoc u v d w _ hedge ih =>
    have hfin : depth u ≠ ⊤ := fun htop => by
      rw [htop] at ih
      exact WithTop.coe_ne_top (top_le_iff.1 ih)
    obtain ⟨du, hdu⟩ := WithTop.ne_top_iff_exists.1 hfin
    have huU : u ∉ U := fun hmem =>
      List.not_mem_nil _ (h.pending u hmem du hdu.symm)
    obtain ⟨d', h1, -, h3⟩ := h.settled u huU
    dsimp only at h1 h3
    have hle := h3 v w hedge
    have hd' : d' ≤ d := by
      have : depth u ≤ (d : WithTop K) := ih
      rw [h1, WithTop.coe_le_coe] at this
      exact this
    refine le_trans hle ?_
    rw [WithTop.coe_le_coe]
    linarith

end MainLoop

section LoopResult

variable {n : Nat}

/-- The main loop terminates within the fuel bounded by the potential, and the
depth vector it returns holds the minimum path weights (`⊤` exactly for the
nodes without a path from the root). -/
theorem depthLoop_spec (adj : List (List (Int × K)))
    (hw : ∀ row ∈ adj, ∀ e ∈ row, (0 : K) ≤ e.2) (root : Fin n) :
    ∀ (fuel : Nat) (s : DepthState K n) (U : Finset (Fin n)),
      DepthInv adj root s U →
      s.pq.length + ∑ v in U, (1 + (adj.getD (v : Nat) []).length) < fuel →
      ∃ depth, depthLoop adj fuel s = .ok depth ∧
        (∀ v (d : K), depth v = (d : WithTop K) → IsMinPathWeight adj n root v d) ∧
        (∀ v, depth v = ⊤ → ∀ d, ¬ PathWeight adj n root v d) := by
  intro fuel
  induction fuel with
  | zero => intro s U _ hlt; exact absurd hlt (Nat.not_lt_zero _)
  | succ fuel ih =>
    intro s U hinv hlt
    obtain ⟨depth, pq⟩ := s
    cases pq with
    | nil =>
      refine ⟨depth, depthLoop_succ_nil adj fuel depth, ?_, ?_⟩
      · intro v d hd
        refine ⟨hinv.isPath v d hd, fun d' hp => ?_⟩
        have := hinv.le_pathWeight v d' hp
        rw [hd, WithTop.coe_le_coe] at this
        exact this
      · intro v hv d hp
        have := hinv.le_pathWeight v d hp
        rw [hv] at this
        exact WithTop.coe_ne_top (top_le_iff.1 this)
    | cons e rest =>
      obtain ⟨d, node⟩ := e
      obtain ⟨u, hnode, hle⟩ := hinv.entries (d, node) (List.mem_cons_self _ _)
      dsimp only at hnode hle
      subst hnode
      rw [depthLoop_succ_cons]
      dsimp only [List.length_cons] at hlt
      by_cases hst : (d : WithTop K) > depth u
      · rw [if_pos hst]
        exact ih ⟨depth, rest⟩ U (hinv.skip (Or.inl (ne_of_lt hst))) (by dsimp only; omega)
      · rw [if_neg hst]
        have hd : depth u = (d : WithTop K) := le_antisymm hle (not_lt.1 hst)
        by_cases huU : u ∈ U
        · refine ih _ (U.erase u) (hinv.expand hw hd) ?_
          have hlen := foldl_relaxEdge_length d (adj.getD (u : Nat) [])
            (⟨depth, rest⟩ : DepthState K n)
          have hsum := Finset.add_sum_erase U
            (fun v : Fin n => 1 + (adj.getD (v : Nat) []).length) huU
          dsimp only at hlen hsum
          omega
        · obtain ⟨d', h1, -, h3⟩ := hinv.settled u huU
          dsimp only at h1 h3
          have hdd : d' = d := by
            rw [hd, WithTop.coe_eq_coe] at h1
            exact h1.symm
          subst hdd
          have hrel : (adj.getD (u : Nat) []).foldl (relaxEdge d')
              (⟨depth, rest⟩ : DepthState K n) = ⟨depth, rest⟩ := by
            apply foldl_relaxEdge_of_relaxed
            intro e he v hv
            have hmem : ((((v : Nat) : Int)), e.2) ∈ adj.getD (u : Nat) [] := by
              rw [← hv]; exact he
            exact h3 v e.2 hmem
          rw [hrel]
          exact ih ⟨depth, rest⟩ U (hinv.skip (Or.inr huU)) (by dsimp only; omega)

/-- Fuel `depthFuel` is enough for the loop started at the root. -/
theorem depthLoop_initial (adj : List (List (Int × K)))
    (hw : ∀ row ∈ adj, ∀ e ∈ row, (0 : K) ≤ e.2) (root : Fin n) (fuel : Nat)
    (hfuel : depthFuel adj n ≤ fuel) :
    ∃ depth, depthLoop adj fuel
        { depth := Function.update (fun _ => (⊤ : WithTop K)) root ((0 : K) : WithTop K)
          pq := [(0, ((root : Nat) : Int))] } = .ok depth ∧
      (∀ v (d : K), depth v = (d : WithTop K) → IsMinPathWeight adj n root v d) ∧
      (∀ v, depth v = ⊤ → ∀ d, ¬ PathWeight adj n root v d) := by
  refine depthLoop_spec adj hw root fuel _ Finset.univ (DepthInv.initial adj root) ?_
  unfold depthFuel at hfuel
  have hsum : ∑ v : Fin n, (1 + (adj.getD (v : Nat) []).length)
      = n + ((List.finRange n).map (fun v : Fin n => (adj.getD (v : Nat) []).length)).sum := by
    rw [Finset.sum_add_distrib, Finset.sum_const, Finset.card_univ, Fintype.card_fin,
      smul_eq_mul, mul_one,
      Fin.sum_univ_def (fun v : Fin n => (adj.getD (v : Nat) []).length)]
  dsimp only
  rw [hsum]
  simp only [List.length_cons, List.length_nil]
  omega

end LoopResult

section Aggregate

variable {n : Nat}

theorem IsMinPathWeight.unique {adj : List (List (Int × K))} {root v : Fin n} {d d' : K}
    (h : IsMinPathWeight adj n root v d) (h' : IsMinPathWeight adj n root v d') : d = d' :=
  le_antisymm (h.2 d' h'.1) (h'.2 d h.1)

/-- The summation loop over any list of nodes. -/
theorem sumDepths_foldl (root : Fin n) (depth : Fin n → WithTop K) (val : Fin n → K)
    (P : Fin n → Prop) [DecidablePred P]
    (hP : ∀ v, P v ↔ (v ≠ root ∧ depth v ≠ ⊤))
    (hval : ∀ v, P v → depth v = (val v : WithTop K))
    (l : List (Fin n)) (acc : K × Int) :
    l.foldl (fun acc (i : Fin n) =>
        if ((i : Nat) : Int) ≠ ((root : Nat) : Int) then
          match depth i with
          | none => acc
          | some d => (acc.1 + d, acc.2 + 1)
        else acc) acc
      = (acc.1 + ((l.filter (fun v => decide (P v))).map val).sum,
         acc.2 + ((l.filter (fun v => decide (P v))).length : Int)) := by
  induction l generalizing acc with
  | nil => simp
  | cons i rest ih =>
    rw [List.foldl_cons, ih]
    by_cases hi : P i
    · have hne : ((i : Nat) : Int) ≠ ((root : Nat) : Int) := by
        intro heq
        exact ((hP i).1 hi).1 (Fin.ext (by exact_mod_cast heq))
      have hd := hval i hi
      rw [if_pos hne, List.filter_cons_of_pos (by simpa using hi)]
      have hm : (match depth i with
          | none => acc
          | some d => (acc.1 + d, acc.2 + 1)) = (acc.1 + val i, acc.2 + 1) := by
        rw [hd]
      rw [hm]
      simp only [List.map_cons, List.sum_cons, List.length_cons, Nat.cast_add, Nat.cast_one]
      refine Prod.ext ?_ ?_
      · dsimp only; ring
      · dsimp only; ring
    · rw [List.filter_cons_of_neg (by simpa using hi)]
      by_cases hne : ((i : Nat) : Int) ≠ ((root : Nat) : Int)
      · rw [if_pos hne]
        have hir : i ≠ root := fun h => hne (by rw [h])
        have htop : depth i = ⊤ := by
          by_contra hc
          exact hi ((hP i).2 ⟨hir, hc⟩)
        have hm : (match depth i with
            | none => acc
            | some d => (acc.1 + d, acc.2 + 1)) = acc := by
          rw [htop]
        rw [hm]
      · rw [if_neg hne]

theorem sumDepths_eq (root : Fin n) (depth : Fin n → WithTop K) (val : Fin n → K)
    (R : Finset (Fin n)) (hR : ∀ v, v ∈ R ↔ (v ≠ root ∧ depth v ≠ ⊤))
    (hval : ∀ v ∈ R, depth v = (val v : WithTop K)) :
    sumDepths ((root : Nat) : Int) depth = (∑ v in R, val v, (R.card : Int)) := by
  unfold sumDepths
  rw [sumDepths_foldl root depth val (fun v => v ∈ R) hR hval]
  have hnd : ((List.finRange n).filter (fun v => decide (v ∈ R))).Nodup :=
    (List.nodup_finRange n).filter _
  have hfs : ((List.finRange n).filter (fun v => decide (v ∈ R))).toFinset = R := by
    ext v
    simp
  refine Prod.ext ?_ ?_
  · dsimp only
    rw [zero_add, ← List.sum_toFinset val hnd, hfs]
  · dsimp only
    rw [zero_add, ← List.toFinset_card_of_nodup hnd, hfs]

/-- Value returned by `calculateDepthFromRoot`, in terms of the set `R` of
reachable non-root nodes and their minimum path weights `dist`. -/
theorem calculateDepthFromRoot_eq (adj : List (List (Int × K)))
    (hw : ∀ row ∈ adj, ∀ e ∈ row, (0 : K) ≤ e.2) (root : Fin n)
    (R : Finset (Fin n)) (dist : Fin n → K)
    (hR : ∀ v, v ∈ R ↔ (v ≠ root ∧ ∃ d, PathWeight adj n root v d))
    (hdist : ∀ v ∈ R, IsMinPathWeight adj n root v (dist v))
    (fuel : Nat) (hfuel : depthFuel adj n ≤ fuel) :
    calculateDepthFromRoot fuel ((root : Nat) : Int) adj n =
      .ok (if (n : Int) - 1 - (R.card : Int) > 0 ∧ (R.card : Int) > 0 then
            (∑ v in R, dist v) + (((n : Int) - 1 - (R.card : Int) : Int) : K)
              * ((∑ v in R, dist v) / ((R.card : Int) : K)) * 2
          else if (R.card : Int) = 0 then
            (wrapInt32 ((n : Int) * (n : Int)) : K) * 1
          else ∑ v in R, dist v) := by
  obtain ⟨depth, hloop, hfin, htop⟩ := depthLoop_initial adj hw root fuel hfuel
  have hR' : ∀ v, v ∈ R ↔ (v ≠ root ∧ depth v ≠ ⊤) := by
    intro v
    rw [hR]
    constructor
    · rintro ⟨h1, d, hp⟩
      exact ⟨h1, fun ht => htop v ht d hp⟩
    · rintro ⟨h1, h2⟩
      obtain ⟨d, hd⟩ := WithTop.ne_top_iff_exists.1 h2
      exact ⟨h1, d, (hfin v d hd.symm).1⟩
  have hval : ∀ v ∈ R, depth v = (dist v : WithTop K) := by
    intro v hv
    obtain ⟨d, hd⟩ := WithTop.ne_top_iff_exists.1 ((hR' v).1 hv).2
    rw [← hd, (hfin v d hd.symm).unique (hdist v hv)]
  have hsum := sumDepths_eq root depth dist R hR' hval
  unfold calculateDepthFromRoot
  rw [toIndex_coe]
  dsimp only
  rw [hloop]
  dsimp only
  rw [hsum]
  dsimp only
  by_cases h1 : (n : Int) - 1 - (R.card : Int) > 0 ∧ (R.card : Int) > 0
  · rw [if_pos h1, if_pos h1]
  · rw [if_neg h1, if_neg h1]
    by_cases h2 : (R.card : Int) = 0
    · rw [if_pos h2, if_pos h2]
    · rw [if_neg h2, if_neg h2]

/-- The reachable set and the minimum path weights exist. -/
theorem exists_reachable_dist (adj : List (List (Int × K)))
    (hw : ∀ row ∈ adj, ∀ e ∈ row, (0 : K) ≤ e.2) (root : Fin n) :
    ∃ (R : Finset (Fin n)) (dist : Fin n → K),
      (∀ v, v ∈ R ↔ (v ≠ root ∧ ∃ d, PathWeight adj n root v d)) ∧
      (∀ v, (∃ d, PathWeight adj n root v d) → IsMinPathWeight adj n root v (dist v)) := by
  classical
  obtain ⟨depth, -, hfin, htop⟩ := depthLoop_initial adj hw root (depthFuel adj n) (le_refl _)
  refine ⟨Finset.univ.filter (fun v => v ≠ root ∧ depth v ≠ ⊤),
    fun v => (depth v).untop' 0, ?_, ?_⟩
  · intro v
    rw [Finset.mem_filter]
    constructor
    · rintro ⟨-, h1, h2⟩
      obtain ⟨d, hd⟩ := WithTop.ne_top_iff_exists.1 h2
      exact ⟨h1, d, (hfin v d hd.symm).1⟩
    · rintro ⟨h1, d, hp⟩
      exact ⟨Finset.mem_univ v, h1, fun ht => htop v ht d hp⟩
  · rintro v ⟨d, hp⟩
    have hne : depth v ≠ ⊤ := fun ht => htop v ht d hp
    obtain ⟨d', hd'⟩ := WithTop.ne_top_iff_exists.1 hne
    have := hfin v d' hd'.symm
    show IsMinPathWeight adj n root v ((depth v).untop' 0)
    rw [← hd', WithTop.untop'_coe]
    exact this

end Aggregate

/-! ## Depth engine: the aggregate -/

section DepthClaims

variable {n : Nat}

/-- A root whose only in-range neighbour entries are non-negative self-loops:
the loop stops after one iteration and the sentinel branch is taken. -/
theorem calculateDepthFromRoot_isolated (adj : List (List (Int × K))) (root : Fin n)
    (hiso : ∀ e ∈ adj.getD (root : Nat) [],
      toIndex n e.1 = none ∨ (e.1 = ((root : Nat) : Int) ∧ 0 ≤ e.2))
    (fuel : Nat) :
    calculateDepthFromRoot (fuel + 2) ((root : Nat) : Int) adj n
      = .ok ((wrapInt32 ((n : Int) * (n : Int)) : K) * 1) := by
  have hfold : (adj.getD (root : Nat) []).foldl (relaxEdge (0 : K))
      (⟨Function.update (fun _ => (⊤ : WithTop K)) root ((0 : K) : WithTop K), []⟩ :
        DepthState K n)
      = ⟨Function.update (fun _ => (⊤ : WithTop K)) root ((0 : K) : WithTop K), []⟩ := by
    apply foldl_relaxEdge_of_relaxed
    intro e he v hv
    rcases hiso e he with hnone | ⟨hself, hw⟩
    · rw [hv, toIndex_coe] at hnone
      exact Option.noConfusion hnone
    · have hvr : v = root := by
        rw [hv] at hself
        exact Fin.ext (by exact_mod_cast hself)
      subst hvr
      dsimp only
      rw [Function.update_same, WithTop.coe_le_coe]
      linarith
  have hloop : depthLoop adj (fuel + 2)
      (⟨Function.update (fun _ => (⊤ : WithTop K)) root ((0 : K) : WithTop K),
        [(0, ((root : Nat) : Int))]⟩ : DepthState K n)
      = .ok (Function.update (fun _ => (⊤ : WithTop K)) root ((0 : K) : WithTop K)) := by
    rw [depthLoop_succ_cons, if_neg (by rw [Function.update_same]; exact lt_irrefl _), hfold,
      depthLoop_succ_nil]
  have hsum := sumDepths_eq root
    (Function.update (fun _ => (⊤ : WithTop K)) root ((0 : K) : WithTop K)) (fun _ => (0 : K)) ∅
    (by
      intro v
      constructor
      · intro hv; exact absurd hv (Finset.not_mem_empty v)
      · rintro ⟨h1, h2⟩
        exact absurd (Function.update_noteq h1 _ _) h2)
    (fun v hv => absurd hv (Finset.not_mem_empty v))
  unfold calculateDepthFromRoot
  rw [toIndex_coe]
  dsimp only
  rw [hloop]
  dsimp only
  rw [hsum]
  simp

/-- Sentinel value when the square of the node count fits in an `int`. -/
theorem wrapInt32_sq_of_small (n : Nat) (h : n * n < 2 ^ 31) :
    wrapInt32 ((n : Int) * (n : Int)) = (n : Int) * (n : Int) := by
  unfold wrapInt32
  have h1 : (0 : Int) ≤ (n : Int) * (n : Int) := by positivity
  have h2 : (n : Int) * (n : Int) < 2 ^ 31 := by exact_mod_cast h
  omega

/-- When `nodeCount²` fits in an `int`, a root without in-range neighbours
yields the sentinel `nodeCount²`. -/
theorem calculateDepthFromRoot_isolated_small (adj : List (List (Int × K))) (root : Fin n)
    (hiso : ∀ e ∈ adj.getD (root : Nat) [], toIndex n e.1 = none)
    (hsmall : n * n < 2 ^ 31) (fuel : Nat) :
    calculateDepthFromRoot (fuel + 2) ((root : Nat) : Int) adj n
      = .ok ((n : K) * (n : K)) := by
  rw [calculateDepthFromRoot_isolated adj root (fun e he => Or.inl (hiso e he)) fuel,
    wrapInt32_sq_of_small n hsmall]
  push_cast
  rw [mul_one]

/-- C1 (amended): with at least two nodes, no negative weight and every node
reachable from the root, `calculateDepthFromRoot` returns the sum over the nodes
other than the root of the minimum path weight from the root. -/
theorem calculateDepthFromRoot_all_reachable (adj : List (List (Int × K))) (root : Fin n)
    (hn : 2 ≤ n)
    (hw : ∀ row ∈ adj, ∀ e ∈ row, (0 : K) ≤ e.2)
    (hreach : ∀ v : Fin n, ∃ d, PathWeight adj n root v d) :
    ∃ dist : Fin n → K,
      (∀ v, IsMinPathWeight adj n root v (dist v)) ∧
      ∀ fuel, depthFuel adj n ≤ fuel →
        calculateDepthFromRoot fuel ((root : Nat) : Int) adj n
          = .ok (∑ v in Finset.univ.erase root, dist v) := by
  obtain ⟨R, dist, hR, hdist⟩ := exists_reachable_dist adj hw root
  have hRe : R = Finset.univ.erase root := by
    ext v
    rw [hR, Finset.mem_erase]
    exact ⟨fun h => ⟨h.1, Finset.mem_univ v⟩, fun h => ⟨h.1, hreach v⟩⟩
  refine ⟨dist, fun v => hdist v (hreach v), fun fuel hfuel => ?_⟩
  rw [calculateDepthFromRoot_eq adj hw root R dist hR (fun v _ => hdist v (hreach v)) fuel hfuel]
  have hcard : R.card = n - 1 := by
    rw [hRe, Finset.card_erase_of_mem (Finset.mem_univ root), Finset.card_univ,
      Fintype.card_fin]
  have h1 : ¬ ((n : Int) - 1 - (R.card : Int) > 0 ∧ (R.card : Int) > 0) := by
    rw [hcard]; omega
  have h2 : ¬ ((R.card : Int) = 0) := by
    rw [hcard]; omega
  rw [if_neg h1, if_neg h2, hRe]

/-- C7: when `r > 0` nodes other than the root are reachable and
`k = nodeCount - 1 - r > 0` are not, `calculateDepthFromRoot` returns
`S + k * (S / r) * 2`, `S` being the sum of the minimum path weights of the
reachable nodes. -/
theorem calculateDepthFromRoot_penalty (adj : List (List (Int × K))) (root : Fin n)
    (hw : ∀ row ∈ adj, ∀ e ∈ row, (0 : K) ≤ e.2)
    (R : Finset (Fin n)) (dist : Fin n → K)
    (hR : ∀ v, v ∈ R ↔ (v ≠ root ∧ ∃ d, PathWeight adj n root v d))
    (hdist : ∀ v ∈ R, IsMinPathWeight adj n root v (dist v))
    (hr : 0 < R.card) (hk : R.card + 1 < n)
    (fuel : Nat) (hfuel : depthFuel adj n ≤ fuel) :
    calculateDepthFromRoot fuel ((root : Nat) : Int) adj n
      = .ok ((∑ v in R, dist v)
          + ((n : K) - 1 - (R.card : K)) * ((∑ v in R, dist v) / (R.card : K)) * 2) := by
  rw [calculateDepthFromRoot_eq adj hw root R dist hR hdist fuel hfuel]
  have h1 : (n : Int) - 1 - (R.card : Int) > 0 ∧ (R.card : Int) > 0 := by
    constructor <;> omega
  rw [if_pos h1]
  push_cast
  rfl

/-- C9 (amended): for the single isolated feature (`[[]]`, root 0,
`nodeCount = 1`) no other node is reachable, the sentinel branch is taken and
the result is `nodeCount² = 1`, with any fuel of at least two iterations. -/
theorem calculateDepthFromRoot_single_isolated (fuel : Nat) :
    calculateDepthFromRoot (fuel + 2) 0 ([[]] : List (List (Int × K))) 1 = .ok 1 := by
  have h := calculateDepthFromRoot_isolated ([[]] : List (List (Int × K))) (0 : Fin 1)
    (by intro e he; simp at he) fuel
  simp only [Fin.val_zero, Nat.cast_zero, Nat.cast_one] at h
  rw [h]
  norm_num [wrapInt32]

end DepthClaims

/-! ### Evaluations of the depth engine on the example structures -/

theorem pathAdjacency_nonneg : ∀ row ∈ pathAdjacency, ∀ e ∈ row, (0 : ℚ) ≤ e.2 := by
  norm_num [pathAdjacency]
  rintro a b (⟨-, rfl⟩ | ⟨-, rfl⟩) <;> norm_num

theorem pathAdjacency_reach (v : Fin 3) : ∃ d, PathWeight pathAdjacency 3 1 v d := by
  fin_cases v
  · exact ⟨0 + 1, PathWeight.snoc PathWeight.nil (by simp [pathAdjacency])⟩
  · exact ⟨0, PathWeight.nil⟩
  · exact ⟨0 + 1, PathWeight.snoc PathWeight.nil (by simp [pathAdjacency])⟩

theorem pathAdjacency_weight (u v : Fin 3) (w : ℚ)
    (h : ((((v : Nat) : Int)), w) ∈ pathAdjacency.getD (u : Nat) []) : w = 1 := by
  fin_cases u <;> simp [pathAdjacency] at h <;> tauto

theorem pathAdjacency_lower (v : Fin 3) (d : ℚ) (h : PathWeight pathAdjacency 3 1 v d) :
    0 ≤ d ∧ (v ≠ 1 → 1 ≤ d) := by
  induction h with
  | nil => exact ⟨le_refl _, fun h => absurd rfl h⟩
  | @snoc u v d w _ hedge ih =>
    have hw := pathAdjacency_weight u v w hedge
    subst hw
    exact ⟨by linarith [ih.1], fun _ => by linarith [ih.1]⟩

theorem pathAdjacency_min (v : Fin 3) (hv : v ≠ 1) :
    IsMinPathWeight pathAdjacency 3 1 v 1 := by
  refine ⟨?_, fun d' hp => (pathAdjacency_lower v d' hp).2 hv⟩
  have h : PathWeight pathAdjacency 3 1 v (0 + 1) := by
    refine PathWeight.snoc PathWeight.nil ?_
    fin_cases v
    · simp [pathAdjacency]
    · exact absurd rfl hv
    · simp [pathAdjacency]
  rw [zero_add] at h
  exact h

/-- On the three-feature path with root 1 the aggregate depth is `1 + 1 = 2`. -/
theorem calculateDepthFromRoot_pathAdjacency (fuel : Nat)
    (hfuel : depthFuel pathAdjacency 3 ≤ fuel) :
    calculateDepthFromRoot fuel 1 pathAdjacency 3 = .ok 2 := by
  have h := calculateDepthFromRoot_eq pathAdjacency pathAdjacency_nonneg (1 : Fin 3)
    (Finset.univ.erase 1) (fun _ => 1)
    (fun v => by
      rw [Finset.mem_erase]
      exact ⟨fun h => ⟨h.1, pathAdjacency_reach v⟩, fun h => ⟨h.1, Finset.mem_univ v⟩⟩)
    (fun v hv => pathAdjacency_min v (Finset.mem_erase.1 hv).1) fuel hfuel
  have hcard : (Finset.univ.erase (1 : Fin 3)).card = 2 := by decide
  rw [hcard] at h
  simp only [Finset.sum_const, hcard] at h
  norm_num at h
  exact h

theorem splitAdjacency_nonneg : ∀ row ∈ splitAdjacency, ∀ e ∈ row, (0 : ℚ) ≤ e.2 := by
  norm_num [splitAdjacency]

theorem splitAdjacency_lower (v : Fin 3) (d : ℚ) (h : PathWeight splitAdjacency 3 0 v d) :
    (v = 0 ∧ 0 ≤ d) ∨ (v = 1 ∧ 1 ≤ d) := by
  induction h with
  | nil => exact Or.inl ⟨rfl, le_refl _⟩
  | @snoc u v d w _ hedge ih =>
    rcases ih with ⟨hu, hd⟩ | ⟨hu, hd⟩
    · subst hu
      have : v = 1 ∧ w = 1 := by
        fin_cases v <;> simp [splitAdjacency] at hedge ⊢
        exact hedge
      right
      exact ⟨this.1, by rw [this.2]; linarith⟩
    · subst hu
      have : v = 0 ∧ w = 1 := by
        fin_cases v <;> simp [splitAdjacency] at hedge ⊢
        exact hedge
      left
      exact ⟨this.1, by rw [this.2]; linarith⟩

theorem splitAdjacency_reachable (v : Fin 3) :
    v ∈ ({1} : Finset (Fin 3)) ↔ (v ≠ 0 ∧ ∃ d, PathWeight splitAdjacency 3 0 v d) := by
  rw [Finset.mem_singleton]
  constructor
  · intro hv
    subst hv
    exact ⟨by decide, 0 + 1, PathWeight.snoc PathWeight.nil (by simp [splitAdjacency])⟩
  · rintro ⟨h0, d, hp⟩
    rcases splitAdjacency_lower v d hp with ⟨h, -⟩ | ⟨h, -⟩
    · exact absurd h h0
    · exact h

theorem splitAdjacency_min (v : Fin 3) (hv : v ∈ ({1} : Finset (Fin 3))) :
    IsMinPathWeight splitAdjacency 3 0 v ((fun _ => (1 : ℚ)) v) := by
  rw [Finset.mem_singleton] at hv
  subst hv
  refine ⟨?_, fun d' hp => ?_⟩
  · have h : PathWeight splitAdjacency 3 0 1 (0 + 1) :=
      PathWeight.snoc PathWeight.nil (by simp [splitAdjacency])
    rw [zero_add] at h
    exact h
  · rcases splitAdjacency_lower 1 d' hp with ⟨h, -⟩ | ⟨-, h⟩
    · exact absurd h (by decide)
    · exact h

/-- Witness for C1: the three-feature path with root 1; the aggregate is 2. -/
theorem calculateDepthFromRoot_all_reachable_witness :
    2 ≤ 3 ∧
    (∀ row ∈ pathAdjacency, ∀ e ∈ row, (0 : ℚ) ≤ e.2) ∧
    (∀ v : Fin 3, ∃ d, PathWeight pathAdjacency 3 1 v d) ∧
    (∃ dist : Fin 3 → ℚ,
      (∀ v, IsMinPathWeight pathAdjacency 3 1 v (dist v)) ∧
      ∀ fuel, depthFuel pathAdjacency 3 ≤ fuel →
        calculateDepthFromRoot fuel (((1 : Fin 3) : Nat) : Int) pathAdjacency 3
          = .ok (∑ v in Finset.univ.erase 1, dist v)) ∧
    calculateDepthFromRoot (depthFuel pathAdjacency 3) 1 pathAdjacency 3 = .ok 2 :=
  ⟨by decide, pathAdjacency_nonneg, pathAdjacency_reach,
    calculateDepthFromRoot_all_reachable pathAdjacency 1 (by decide) pathAdjacency_nonneg
      pathAdjacency_reach,
    calculateDepthFromRoot_pathAdjacency _ (le_refl _)⟩

/-- Counterexample for C1 as stated: one node with a self-loop of weight 1
satisfies every hypothesis, the sum over the other nodes is empty, and the
function returns 1. -/
theorem calculateDepthFromRoot_all_reachable_counterexample :
    ([[(0, 1)]] : List (List (Int × ℚ))).length = 1 ∧
    (∀ row ∈ ([[(0, 1)]] : List (List (Int × ℚ))), ∀ e ∈ row,
      0 ≤ e.1 ∧ e.1 < 1 ∧ (0 : ℚ) ≤ e.2) ∧
    (∀ v : Fin 1, ∃ d, PathWeight ([[(0, 1)]] : List (List (Int × ℚ))) 1 0 v d) ∧
    ¬ ∃ dist : Fin 1 → ℚ, ∀ fuel, depthFuel ([[(0, 1)]] : List (List (Int × ℚ))) 1 ≤ fuel →
        calculateDepthFromRoot fuel 0 ([[(0, 1)]] : List (List (Int × ℚ))) 1
          = .ok (∑ v in Finset.univ.erase 0, dist v) := by
  refine ⟨rfl, by norm_num, ?_, ?_⟩
  · intro v
    have hv : v = 0 := Subsingleton.elim _ _
    subst hv
    exact ⟨0, PathWeight.nil⟩
  · rintro ⟨dist, h⟩
    have h1 := h (depthFuel ([[(0, 1)]] : List (List (Int × ℚ))) 1 + 2) (by omega)
    have h2 := calculateDepthFromRoot_isolated ([[(0, 1)]] : List (List (Int × ℚ))) (0 : Fin 1)
      (by intro e he; right; simp at he; subst he; norm_num)
      (depthFuel ([[(0, 1)]] : List (List (Int × ℚ))) 1)
    simp only [Fin.val_zero, Nat.cast_zero, Nat.cast_one] at h2
    rw [h2] at h1
    have hempty : (Finset.univ.erase (0 : Fin 1)) = ∅ := by decide
    rw [hempty, Finset.sum_empty] at h1
    norm_num [wrapInt32] at h1

/-- Witness for C7: features 0 and 1 connected, feature 2 isolated, root 0;
`S = 1`, `r = 1`, `k = 1` and the aggregate is `1 + 1 * (1 / 1) * 2 = 3`. -/
theorem calculateDepthFromRoot_penalty_witness :
    (∀ row ∈ splitAdjacency, ∀ e ∈ row, (0 : ℚ) ≤ e.2) ∧
    (∀ v : Fin 3, v ∈ ({1} : Finset (Fin 3)) ↔
      (v ≠ 0 ∧ ∃ d, PathWeight splitAdjacency 3 0 v d)) ∧
    (∀ v ∈ ({1} : Finset (Fin 3)), IsMinPathWeight splitAdjacency 3 0 v 1) ∧
    0 < ({1} : Finset (Fin 3)).card ∧ ({1} : Finset (Fin 3)).card + 1 < 3 ∧
    calculateDepthFromRoot (depthFuel splitAdjacency 3) 0 splitAdjacency 3 = .ok 3 := by
  refine ⟨splitAdjacency_nonneg, splitAdjacency_reachable, splitAdjacency_min, by decide,
    by decide, ?_⟩
  have h := calculateDepthFromRoot_penalty splitAdjacency (0 : Fin 3) splitAdjacency_nonneg
    {1} (fun _ => 1) splitAdjacency_reachable splitAdjacency_min (by decide) (by decide)
    (depthFuel splitAdjacency 3) (le_refl _)
  simp only [Fin.val_zero, Nat.cast_zero, Finset.sum_singleton, Finset.card_singleton] at h
  rw [h]
  norm_num

/-- C8 (code at the failing input): 65536 features without any edge, root 0;
the `int` product `nodeCount * nodeCount` wraps to 0 and the function returns
0, not `65536²`. -/
theorem calculateDepthFromRoot_isolated_overflow :
    calculateDepthFromRoot 2 0 (List.replicate 65536 ([] : List (Int × ℚ))) 65536 = .ok 0 ∧
    (0 : ℚ) ≠ 65536 * 65536 := by
  refine ⟨?_, by norm_num⟩
  have h := calculateDepthFromRoot_isolated (List.replicate 65536 ([] : List (Int × ℚ)))
    (0 : Fin 65536)
    (by
      intro e he
      rw [getD_replicate_nil] at he
      exact absurd he (List.not_mem_nil e))
    0
  simp only [Fin.val_zero, Nat.cast_zero] at h
  rw [h]
  norm_num [wrapInt32]

theorem calculateDepthFromRoot_single_rat :
    calculateDepthFromRoot 2 0 ([[]] : List (List (Int × ℚ))) 1 = .ok 1 := by
  have h := calculateDepthFromRoot_isolated ([[]] : List (List (Int × ℚ))) (0 : Fin 1)
    (by intro e he; simp at he) 0
  simp only [Fin.val_zero, Nat.cast_zero, Nat.cast_one] at h
  rw [h]
  norm_num [wrapInt32]

/-- Counterexample for C9 as stated: the result for the single isolated
feature is 1, not 0. -/
theorem calculateDepthFromRoot_single_isolated_counterexample :
    calculateDepthFromRoot 2 0 ([[]] : List (List (Int × ℚ))) 1 = .ok 1 ∧
    calculateDepthFromRoot 2 0 ([[]] : List (List (Int × ℚ))) 1 ≠ .ok 0 := by
  refine ⟨calculateDepthFromRoot_single_rat, ?_⟩
  rw [calculateDepthFromRoot_single_rat]
  intro hc
  have := Except.ok.inj hc
  norm_num at this

/-! ## Integration scorer: properties -/

section WeightedPair

theorem weightedPair_nonneg (w : K) (hw : 0 ≤ w) :
    ∀ row ∈ weightedPair K w, ∀ e ∈ row, (0 : K) ≤ e.2 := by
  intro row hrow e he
  simp only [weightedPair, List.mem_cons, List.mem_singleton, List.not_mem_nil, or_false]
    at hrow
  rcases hrow with h | h
  · rw [h, List.mem_singleton] at he
    rw [he]; exact hw
  · rw [h, List.mem_singleton] at he
    rw [he]; exact hw

theorem weightedPair_lower (w : K) (hw : 0 ≤ w) (v : Fin 2) (d : K)
    (h : PathWeight (weightedPair K w) 2 0 v d) :
    (v = 0 ∧ 0 ≤ d) ∨ (v = 1 ∧ w ≤ d) := by
  induction h with
  | nil => exact Or.inl ⟨rfl, le_refl _⟩
  | @snoc u v d w' _ hedge ih =>
    rcases ih with ⟨hu, hd⟩ | ⟨hu, hd⟩
    · subst hu
      have : v = 1 ∧ w' = w := by
        fin_cases v <;> simp [weightedPair] at hedge ⊢
        exact hedge
      right
      exact ⟨this.1, by rw [this.2]; linarith⟩
    · subst hu
      have : v = 0 ∧ w' = w := by
        fin_cases v <;> simp [weightedPair] at hedge ⊢
        exact hedge
      left
      exact ⟨this.1, by rw [this.2]; linarith⟩

theorem weightedPair_reachable (w : K) (hw : 0 ≤ w) (v : Fin 2) :
    v ∈ ({1} : Finset (Fin 2)) ↔
      (v ≠ 0 ∧ ∃ d, PathWeight (weightedPair K w) 2 0 v d) := by
  rw [Finset.mem_singleton]
  constructor
  · intro hv
    subst hv
    exact ⟨by decide, 0 + w, PathWeight.snoc PathWeight.nil (by simp [weightedPair])⟩
  · rintro ⟨h0, d, hp⟩
    rcases weightedPair_lower w hw v d hp with ⟨h, -⟩ | ⟨h, -⟩
    · exact absurd h h0
    · exact h

theorem weightedPair_min (w : K) (hw : 0 ≤ w) (v : Fin 2)
    (hv : v ∈ ({1} : Finset (Fin 2))) :
    IsMinPathWeight (weightedPair K w) 2 0 v ((fun _ => w) v) := by
  rw [Finset.mem_singleton] at hv
  subst hv
  refine ⟨?_, fun d' hp => ?_⟩
  · have h : PathWeight (weightedPair K w) 2 0 1 (0 + w) :=
      PathWeight.snoc PathWeight.nil (by simp [weightedPair])
    rw [zero_add] at h
    exact h
  · rcases weightedPair_lower w hw 1 d' hp with ⟨h, -⟩ | ⟨-, h⟩
    · exact absurd h (by decide)
    · exact h

/-- On two features joined by an edge of weight `w ≥ 0` the aggregate depth
from root 0 is `w`. -/
theorem calculateDepthFromRoot_weightedPair (w : K) (hw : 0 ≤ w) (fuel : Nat)
    (hfuel : depthFuel (weightedPair K w) 2 ≤ fuel) :
    calculateDepthFromRoot fuel 0 (weightedPair K w) 2 = .ok w := by
  have h := calculateDepthFromRoot_eq (weightedPair K w) (weightedPair_nonneg w hw) (0 : Fin 2)
    {1} (fun _ => w) (weightedPair_reachable w hw) (weightedPair_min w hw) fuel hfuel
  simp only [Fin.val_zero, Nat.cast_zero, Finset.sum_singleton, Finset.card_singleton] at h
  rw [h]
  norm_num

theorem roundsToInfinity_eq_false (x : K) (h : |x| < 2 ^ 1024 - 2 ^ 970) :
    roundsToInfinity x = false := by
  unfold roundsToInfinity
  exact decide_eq_false (not_le.2 h)

theorem roundsToInfinity_eq_true (x : K) (h : 2 ^ 1024 - 2 ^ 970 ≤ x) :
    roundsToInfinity x = true := by
  unfold roundsToInfinity
  exact decide_eq_true (le_trans h (le_abs_self x))

/-- Result of `calculateIntegrationForRoot` once the depth is known. -/
theorem calculateIntegrationForRoot_of_depth (isnan isinf : K → Bool) (fuel : Nat)
    (rootIndex : Int) (nodeCount : Nat) (adj : List (List (Int × K))) (g tulipBins : Int)
    (MD : K) (hMD : calculateDepthFromRoot fuel rootIndex adj nodeCount = .ok MD) :
    calculateIntegrationForRoot isnan isinf fuel rootIndex nodeCount adj true g tulipBins =
      if (nodeCount : Int) ≤ 0 ∨ tulipBins ≤ 1 then .ok 0
      else if (2 * MD) / ((tulipBins : K) - 1) ≤ 0 ∨
          isnan ((2 * MD) / ((tulipBins : K) - 1)) = true ∨
          isinf ((2 * MD) / ((tulipBins : K) - 1)) = true then .ok 0
      else if isnan (((nodeCount : K) * (nodeCount : K)) / ((2 * MD) / ((tulipBins : K) - 1)))
            = true ∨
          isinf (((nodeCount : K) * (nodeCount : K)) / ((2 * MD) / ((tulipBins : K) - 1)))
            = true then .ok 0
      else .ok (((nodeCount : K) * (nodeCount : K)) / ((2 * MD) / ((tulipBins : K) - 1))) := by
  unfold calculateIntegrationForRoot
  rw [hMD]
  simp only [Bool.not_true, Bool.false_eq_true, if_false]

/-- C10 (amended): with formula application enabled, `nodeCount ≥ 1`,
`resolution ≥ 2` and `MD` the value of `calculateDepthFromRoot`: if `MD > 0` and
neither `totalDepthConv = (2 * MD) / (resolution - 1)` nor the quotient
`nodeCount² / totalDepthConv` is NaN or infinite, the result is that quotient,
which equals `nodeCount² * (resolution - 1) / (2 * MD)`; if `MD ≤ 0`, or if one of
the two values is NaN or infinite, the result is 0. -/
theorem calculateIntegrationForRoot_formula (isnan isinf : K → Bool) (fuel : Nat)
    (rootIndex : Int) (nodeCount : Nat)
    (adj : List (List (Int × K))) (globalNodeCount tulipBins : Int) (MD : K)
    (hn : 1 ≤ nodeCount) (hres : 2 ≤ tulipBins)
    (hMD : calculateDepthFromRoot fuel rootIndex adj nodeCount = .ok MD) :
    (0 < MD →
      isnan ((2 * MD) / ((tulipBins : K) - 1)) = false →
      isinf ((2 * MD) / ((tulipBins : K) - 1)) = false →
      isnan ((nodeCount : K) ^ 2 / ((2 * MD) / ((tulipBins : K) - 1))) = false →
      isinf ((nodeCount : K) ^ 2 / ((2 * MD) / ((tulipBins : K) - 1))) = false →
      calculateIntegrationForRoot isnan isinf fuel rootIndex nodeCount adj true globalNodeCount
          tulipBins
        = .ok ((nodeCount : K) ^ 2 / ((2 * MD) / ((tulipBins : K) - 1))) ∧
      (nodeCount : K) ^ 2 / ((2 * MD) / ((tulipBins : K) - 1))
        = (nodeCount : K) ^ 2 * ((tulipBins : K) - 1) / (2 * MD)) ∧
    (MD ≤ 0 →
      calculateIntegrationForRoot isnan isinf fuel rootIndex nodeCount adj true globalNodeCount
          tulipBins
        = .ok 0) ∧
    ((isnan ((2 * MD) / ((tulipBins : K) - 1)) = true ∨
        isinf ((2 * MD) / ((tulipBins : K) - 1)) = true ∨
        isnan ((nodeCount : K) ^ 2 / ((2 * MD) / ((tulipBins : K) - 1))) = true ∨
        isinf ((nodeCount : K) ^ 2 / ((2 * MD) / ((tulipBins : K) - 1))) = true) →
      calculateIntegrationForRoot isnan isinf fuel rootIndex nodeCount adj true globalNodeCount
          tulipBins
        = .ok 0) := by
  have hguard : ¬ ((nodeCount : Int) ≤ 0 ∨ tulipBins ≤ 1) := by omega
  have hpos : (0 : K) < (tulipBins : K) - 1 := by
    have : (2 : K) ≤ (tulipBins : K) := by exact_mod_cast hres
    linarith
  rw [calculateIntegrationForRoot_of_depth isnan isinf fuel rootIndex nodeCount adj
    globalNodeCount tulipBins MD hMD, if_neg hguard, pow_two]
  refine ⟨fun h h1 h2 h3 h4 => ?_, fun h => ?_, fun h => ?_⟩
  · have hconv : ¬ ((2 * MD) / ((tulipBins : K) - 1) ≤ 0) := by
      rw [not_le]
      positivity
    rw [if_neg (by rw [h1, h2]; simp [hconv]), if_neg (by rw [h3, h4]; simp)]
    refine ⟨rfl, ?_⟩
    have hne1 : (2 * MD) ≠ 0 := by positivity
    have hne2 : (tulipBins : K) - 1 ≠ 0 := ne_of_gt hpos
    field_simp
  · have hconv : (2 * MD) / ((tulipBins : K) - 1) ≤ 0 :=
      div_nonpos_of_nonpos_of_nonneg (by linarith) (le_of_lt hpos)
    rw [if_pos (Or.inl hconv)]
  · by_cases hc : (2 * MD) / ((tulipBins : K) - 1) ≤ 0 ∨
        isnan ((2 * MD) / ((tulipBins : K) - 1)) = true ∨
        isinf ((2 * MD) / ((tulipBins : K) - 1)) = true
    · rw [if_pos hc]
    · rw [if_neg hc]
      have hq : isnan (((nodeCount : K) * (nodeCount : K)) /
            ((2 * MD) / ((tulipBins : K) - 1))) = true ∨
          isinf (((nodeCount : K) * (nodeCount : K)) /
            ((2 * MD) / ((tulipBins : K) - 1))) = true := by
        rcases h with h | h | h | h
        · exact absurd (Or.inr (Or.inl h)) hc
        · exact absurd (Or.inr (Or.inr h)) hc
        · exact Or.inl h
        · exact Or.inr h
      rw [if_pos hq]

end WeightedPair

/-- Witness for C10: the single isolated feature with the default
resolution 8 has `MD = 1`, `totalDepthConv = 2 / 7` and integration
`1 / (2 / 7) = 7 / 2`, both finite. -/
theorem calculateIntegrationForRoot_formula_witness :
    1 ≤ 1 ∧ (2 : Int) ≤ 8 ∧
    calculateDepthFromRoot 2 0 ([[]] : List (List (Int × ℚ))) 1 = .ok 1 ∧
    roundsToInfinity ((2 * (1 : ℚ)) / (((8 : Int) : ℚ) - 1)) = false ∧
    roundsToInfinity ((((1 : Nat) : ℚ)) ^ 2 / ((2 * (1 : ℚ)) / (((8 : Int) : ℚ) - 1))) = false ∧
    calculateIntegrationForRoot (fun _ => false) roundsToInfinity 2 0 1
      ([[]] : List (List (Int × ℚ))) true 0 8 = .ok (7 / 2) := by
  have h1 : roundsToInfinity ((2 * (1 : ℚ)) / (((8 : Int) : ℚ) - 1)) = false := by
    apply roundsToInfinity_eq_false
    rw [abs_lt]
    constructor <;> norm_num
  have h2 : roundsToInfinity
      ((((1 : Nat) : ℚ)) ^ 2 / ((2 * (1 : ℚ)) / (((8 : Int) : ℚ) - 1))) = false := by
    apply roundsToInfinity_eq_false
    rw [abs_lt]
    constructor <;> norm_num
  refine ⟨le_refl _, by decide, calculateDepthFromRoot_single_rat, h1, h2, ?_⟩
  have h := (calculateIntegrationForRoot_formula (fun _ => false) roundsToInfinity 2 0 1
    ([[]] : List (List (Int × ℚ))) 0 8 1
    (le_refl _) (by decide) calculateDepthFromRoot_single_rat).1 (by norm_num) rfl h1 rfl h2
  rw [h.1]
  norm_num

/-- Counterexample for C10 as stated: two features joined by an edge of weight
`2^-1030`, root 0, resolution 8.  `MD = 2^-1030 > 0`, the quotient
`4 / ((2 * MD) / 7) = 7 * 2^1031` is beyond every finite double, the test
`std::isinf(integration)` holds and the result is 0, not the quotient. -/
theorem calculateIntegrationForRoot_formula_counterexample :
    calculateDepthFromRoot (depthFuel (weightedPair ℚ (1 / 2 ^ 1030)) 2) 0
      (weightedPair ℚ (1 / 2 ^ 1030)) 2 = .ok (1 / 2 ^ 1030) ∧
    (0 : ℚ) < 1 / 2 ^ 1030 ∧
    calculateIntegrationForRoot (fun _ => false) roundsToInfinity
      (depthFuel (weightedPair ℚ (1 / 2 ^ 1030)) 2) 0 2
      (weightedPair ℚ (1 / 2 ^ 1030)) true 0 8 = .ok 0 ∧
    (0 : ℚ) ≠ ((2 : Nat) : ℚ) ^ 2 / ((2 * (1 / 2 ^ 1030)) / (((8 : Int) : ℚ) - 1)) := by
  have hMD := calculateDepthFromRoot_weightedPair (1 / 2 ^ 1030 : ℚ) (by positivity)
    (depthFuel (weightedPair ℚ (1 / 2 ^ 1030)) 2) (le_refl _)
  have h1 : roundsToInfinity ((2 * (1 / 2 ^ 1030 : ℚ)) / (((8 : Int) : ℚ) - 1)) = false := by
    apply roundsToInfinity_eq_false
    rw [abs_lt]
    constructor <;> norm_num
  have h2 : roundsToInfinity ((((2 : Nat) : ℚ) * ((2 : Nat) : ℚ)) /
      ((2 * (1 / 2 ^ 1030 : ℚ)) / (((8 : Int) : ℚ) - 1))) = true := by
    apply roundsToInfinity_eq_true
    norm_num
  refine ⟨hMD, by positivity, ?_, by norm_num⟩
  rw [calculateIntegrationForRoot_of_depth (fun _ => false) roundsToInfinity _ 0 2 _ 0 8 _ hMD,
    if_neg (by decide), if_neg (by rw [h1]; norm_num), if_pos (Or.inr h2)]

/-! ## Connectivity counter: properties -/

section Connectivity

theorem foldlM_connectivity (adj : List (List (Int × K))) (is : List Nat)
    (h : ∀ i ∈ is, i < adj.length) (c : List Int) :
    is.foldlM (fun connectivity i =>
        match adj[i]? with
        | none => (Except.error Fault.indexOutOfRange : Except Fault (List Int))
        | some row => Except.ok (connectivity.set i (row.length : Int))) c
      = .ok (is.foldl (fun connectivity i =>
          connectivity.set i ((adj.getD i []).length : Int)) c) := by
  induction is generalizing c with
  | nil => rfl
  | cons i rest ih =>
    have hi : i < adj.length := h i (List.mem_cons_self _ _)
    rw [List.foldlM_cons, List.foldl_cons]
    have hget : adj[i]? = some adj[i] := List.getElem?_eq_getElem hi
    have hD : adj.getD i [] = adj[i] := by
      rw [List.getD_eq_getElem?_getD, hget]; rfl
    rw [hget, hD]
    exact ih (fun j hj => h j (List.mem_cons_of_mem _ hj)) _

theorem foldl_set_length (v : Nat → Int) (is : List Nat) (c : List Int) :
    (is.foldl (fun connectivity i => connectivity.set i (v i)) c).length = c.length := by
  induction is generalizing c with
  | nil => rfl
  | cons i rest ih => rw [List.foldl_cons, ih, List.length_set]

theorem foldl_set_getElem? (v : Nat → Int) (is : List Nat) (c : List Int) (j : Nat)
    (hj : j < c.length) :
    (is.foldl (fun connectivity i => connectivity.set i (v i)) c)[j]?
      = some (if j ∈ is then v j else c.getD j 0) := by
  induction is generalizing c with
  | nil =>
    simp only [List.foldl_nil, List.not_mem_nil, if_false]
    rw [List.getD_eq_getElem?_getD, List.getElem?_eq_getElem hj]
    rfl
  | cons i rest ih =>
    rw [List.foldl_cons, ih (c.set i (v i)) (by rw [List.length_set]; exact hj)]
    congr 1
    by_cases hjr : j ∈ rest
    · rw [if_pos hjr, if_pos (List.mem_cons_of_mem _ hjr)]
    · rw [if_neg hjr]
      by_cases hji : j = i
      · subst hji
        rw [if_pos (List.mem_cons_self _ _), List.getD_eq_getElem?_getD,
          List.getElem?_set_self hj]
        rfl
      · have hne : ¬ j ∈ i :: rest := by
          intro hmem
          rcases List.mem_cons.1 hmem with h1 | h1
          · exact hji h1
          · exact hjr h1
        rw [if_neg hne, List.getD_eq_getElem?_getD, List.getD_eq_getElem?_getD,
          List.getElem?_set_ne (fun h => hji h.symm)]

/-- C17: for `featureCount` at most the length of the structure,
`calculateConnectivity` returns, without index fault, a sequence of exactly
`featureCount` integers whose `i`-th entry is the number of pairs listed for
feature `i`. -/
theorem calculateConnectivity_degrees (adj : List (List (Int × K))) (featureCount : Nat)
    (h : featureCount ≤ adj.length) :
    ∃ connectivity : List Int,
      calculateConnectivity adj featureCount = .ok connectivity ∧
      connectivity.length = featureCount ∧
      ∀ i, i < featureCount →
        connectivity[i]? = some (((adj.getD i []).length : Nat) : Int) := by
  refine ⟨(List.range featureCount).foldl (fun connectivity i =>
      connectivity.set i ((adj.getD i []).length : Int)) (List.replicate featureCount 0),
    ?_, ?_, ?_⟩
  · unfold calculateConnectivity
    exact foldlM_connectivity adj (List.range featureCount)
      (fun i hi => lt_of_lt_of_le (List.mem_range.1 hi) h) _
  · rw [foldl_set_length (fun i => ((adj.getD i []).length : Int)), List.length_replicate]
  · intro i hi
    rw [foldl_set_getElem? (fun i => ((adj.getD i []).length : Int)) _ _ i
      (by rw [List.length_replicate]; exact hi), if_pos (List.mem_range.2 hi)]

end Connectivity

/-- On the three-feature path the connectivity is `[1, 2, 1]`. -/
theorem calculateConnectivity_pathAdjacency :
    calculateConnectivity pathAdjacency 3 = .ok [1, 2, 1] := by
  rfl

/-- Witness for C17: the three-feature path, `featureCount = 3`. -/
theorem calculateConnectivity_degrees_witness :
    3 ≤ pathAdjacency.length ∧
    calculateConnectivity pathAdjacency 3 = .ok [1, 2, 1] ∧
    ∃ connectivity : List Int,
      calculateConnectivity pathAdjacency 3 = .ok connectivity ∧
      connectivity.length = 3 ∧
      ∀ i, i < 3 →
        connectivity[i]? = some (((pathAdjacency.getD i []).length : Nat) : Int) :=
  ⟨by decide, calculateConnectivity_pathAdjacency,
    calculateConnectivity_degrees pathAdjacency 3 (by decide)⟩

/-! ## Angle between two segments: properties -/

section Angle

/-- Range of `angleBetweenLines` for any arccosine with values in `[0, π]`. -/
theorem angleBetweenLines_range (sqrt acos : K → K) (pi : K) (hpi : 0 < pi)
    (hacos : ∀ x, 0 ≤ acos x ∧ acos x ≤ pi) (line1 line2 : Line K) :
    0 ≤ angleBetweenLines sqrt acos pi line1 line2 ∧
    angleBetweenLines sqrt acos pi line1 line2 ≤ 90 := by
  unfold angleBetweenLines
  dsimp only
  split_ifs with h
  · exact ⟨le_refl _, by norm_num⟩
  · generalize (max (-1) (min 1 _) : K) = x
    obtain ⟨h0, h1⟩ := hacos x
    generalize acos x = a at h0 h1 ⊢
    have hθ0 : 0 ≤ a * 180 / pi := by positivity
    have hθ1 : a * 180 / pi ≤ 180 := by
      rw [div_le_iff₀ hpi]
      nlinarith
    constructor
    · exact le_min hθ0 (by linarith)
    · rcases le_total (a * 180 / pi) (180 - a * 180 / pi) with hle | hle
      · rw [min_eq_left hle]; linarith
      · rw [min_eq_right hle]; linarith

end Angle

/-- C16: with the real square root, arccosine and `π`, `angleBetweenLines`
returns a value in `[0, 90]`; it is 0 when either direction vector has length
below `1e-10`, and otherwise `min(θ, 180 - θ)` for `θ` the arccosine of the
clamped cosine, in degrees. -/
theorem angleBetweenLines_real (line1 line2 : Line ℝ) :
    (0 ≤ angleBetweenLines Real.sqrt Real.arccos Real.pi line1 line2 ∧
      angleBetweenLines Real.sqrt Real.arccos Real.pi line1 line2 ≤ 90) ∧
    ((Real.sqrt ((line1.p2.x - line1.p1.x) * (line1.p2.x - line1.p1.x)
          + (line1.p2.y - line1.p1.y) * (line1.p2.y - line1.p1.y)) < 1 / 10 ^ 10 ∨
      Real.sqrt ((line2.p2.x - line2.p1.x) * (line2.p2.x - line2.p1.x)
          + (line2.p2.y - line2.p1.y) * (line2.p2.y - line2.p1.y)) < 1 / 10 ^ 10) →
      angleBetweenLines Real.sqrt Real.arccos Real.pi line1 line2 = 0) ∧
    (¬ (Real.sqrt ((line1.p2.x - line1.p1.x) * (line1.p2.x - line1.p1.x)
          + (line1.p2.y - line1.p1.y) * (line1.p2.y - line1.p1.y)) < 1 / 10 ^ 10 ∨
      Real.sqrt ((line2.p2.x - line2.p1.x) * (line2.p2.x - line2.p1.x)
          + (line2.p2.y - line2.p1.y) * (line2.p2.y - line2.p1.y)) < 1 / 10 ^ 10) →
      angleBetweenLines Real.sqrt Real.arccos Real.pi line1 line2 =
        min
          (Real.arccos (max (-1) (min 1
            (((line1.p2.x - line1.p1.x) * (line2.p2.x - line2.p1.x)
                + (line1.p2.y - line1.p1.y) * (line2.p2.y - line2.p1.y)) /
              (Real.sqrt ((line1.p2.x - line1.p1.x) * (line1.p2.x - line1.p1.x)
                  + (line1.p2.y - line1.p1.y) * (line1.p2.y - line1.p1.y)) *
                Real.sqrt ((line2.p2.x - line2.p1.x) * (line2.p2.x - line2.p1.x)
                  + (line2.p2.y - line2.p1.y) * (line2.p2.y - line2.p1.y)))))) * 180 / Real.pi)
          (180 - Real.arccos (max (-1) (min 1
            (((line1.p2.x - line1.p1.x) * (line2.p2.x - line2.p1.x)
                + (line1.p2.y - line1.p1.y) * (line2.p2.y - line2.p1.y)) /
              (Real.sqrt ((line1.p2.x - line1.p1.x) * (line1.p2.x - line1.p1.x)
                  + (line1.p2.y - line1.p1.y) * (line1.p2.y - line1.p1.y)) *
                Real.sqrt ((line2.p2.x - line2.p1.x) * (line2.p2.x - line2.p1.x)
                  + (line2.p2.y - line2.p1.y) * (line2.p2.y - line2.p1.y)))))) * 180 / Real.pi)) := by
  refine ⟨angleBetweenLines_range Real.sqrt Real.arccos Real.pi Real.pi_pos
    (fun x => ⟨Real.arccos_nonneg x, Real.arccos_le_pi x⟩) line1 line2, ?_, ?_⟩
  · intro h
    have he : (1 / 10 ^ 10 : ℝ) = EPSILON := rfl
    rw [he] at h
    unfold angleBetweenLines
    dsimp only [Line.direction]
    rw [if_pos h]
  · intro h
    have he : (1 / 10 ^ 10 : ℝ) = EPSILON := rfl
    rw [he] at h
    unfold angleBetweenLines
    dsimp only [Line.direction]
    rw [if_neg h]

/-! ## Depth engine: faults, termination and out-of-range entries -/

section DepthFaults

variable {n : Nat}

theorem foldl_relaxEdge_inRange (d : K) (es : List (Int × K)) (s : DepthState K n)
    (h : ∀ e ∈ s.pq, ∃ v : Fin n, e.2 = ((v : Nat) : Int)) :
    ∀ e ∈ (es.foldl (relaxEdge d) s).pq, ∃ v : Fin n, e.2 = ((v : Nat) : Int) := by
  refine foldl_invariant (fun s' => ∀ e ∈ s'.pq, ∃ v : Fin n, e.2 = ((v : Nat) : Int))
    (relaxEdge d) es s h ?_
  intro s' e _ hs' y hy
  rcases relaxEdge_cases d s' e with h1 | ⟨x, hx, -, h1⟩
  · rw [h1] at hy
    exact hs' y hy
  · rw [h1] at hy
    rcases (mem_pqPush _ _ _).1 hy with heq | hold
    · exact ⟨x, by rw [heq]; exact hx⟩
    · exact hs' y hold

/-- The loop never reads the depth vector out of range, whatever the weights. -/
theorem depthLoop_ne_indexFault (adj : List (List (Int × K))) :
    ∀ (fuel : Nat) (s : DepthState K n),
      (∀ e ∈ s.pq, ∃ v : Fin n, e.2 = ((v : Nat) : Int)) →
      depthLoop adj fuel s ≠ .error .indexOutOfRange := by
  intro fuel
  induction fuel with
  | zero =>
    intro s _ hc
    rw [depthLoop_zero] at hc
    exact Fault.noConfusion (Except.error.inj hc)
  | succ fuel ih =>
    intro s hs
    obtain ⟨depth, pq⟩ := s
    cases pq with
    | nil =>
      rw [depthLoop_succ_nil]
      intro hc
      exact Except.noConfusion hc
    | cons e rest =>
      obtain ⟨d, node⟩ := e
      obtain ⟨u, hu⟩ := hs (d, node) (List.mem_cons_self _ _)
      dsimp only at hu
      subst hu
      have hrest : ∀ e ∈ rest, ∃ v : Fin n, e.2 = ((v : Nat) : Int) :=
        fun e he => hs e (List.mem_cons_of_mem _ he)
      rw [depthLoop_succ_cons]
      split_ifs
      · exact ih ⟨depth, rest⟩ hrest
      · exact ih _ (foldl_relaxEdge_inRange d _ ⟨depth, rest⟩ hrest)

/-- With the root in range, `calculateDepthFromRoot` either runs out of fuel or
returns a value. -/
theorem calculateDepthFromRoot_cases (adj : List (List (Int × K))) (root : Fin n)
    (fuel : Nat) :
    calculateDepthFromRoot fuel ((root : Nat) : Int) adj n = .error .outOfFuel ∨
    ∃ v, calculateDepthFromRoot fuel ((root : Nat) : Int) adj n = .ok v := by
  have hne := depthLoop_ne_indexFault adj fuel
    (⟨Function.update (fun _ => (⊤ : WithTop K)) root ((0 : K) : WithTop K),
      [(0, ((root : Nat) : Int))]⟩ : DepthState K n)
    (by
      intro e he
      rw [List.mem_singleton] at he
      exact ⟨root, by rw [he]⟩)
  unfold calculateDepthFromRoot
  rw [toIndex_coe]
  dsimp only
  cases hl : depthLoop adj fuel
      (⟨Function.update (fun _ => (⊤ : WithTop K)) root ((0 : K) : WithTop K),
        [(0, ((root : Nat) : Int))]⟩ : DepthState K n) with
  | error e =>
    left
    cases e with
    | indexOutOfRange => exact absurd hl hne
    | outOfFuel => rfl
  | ok depth =>
    right
    dsimp only
    split_ifs
    · exact ⟨_, rfl⟩
    · exact ⟨_, rfl⟩
    · exact ⟨_, rfl⟩

/-- Without negative weights and with fuel `depthFuel`, a value is returned. -/
theorem calculateDepthFromRoot_returns (adj : List (List (Int × K)))
    (hw : ∀ row ∈ adj, ∀ e ∈ row, (0 : K) ≤ e.2) (root : Fin n) (fuel : Nat)
    (hfuel : depthFuel adj n ≤ fuel) :
    ∃ v, calculateDepthFromRoot fuel ((root : Nat) : Int) adj n = .ok v := by
  obtain ⟨R, dist, hR, hdist⟩ := exists_reachable_dist adj hw root
  exact ⟨_, calculateDepthFromRoot_eq adj hw root R dist hR
    (fun v hv => hdist v ((hR v).1 hv).2) fuel hfuel⟩

theorem relaxEdge_of_outOfRange (d : K) (s : DepthState K n) (e : Int × K)
    (h : ¬ (0 ≤ e.1 ∧ e.1 < (n : Int))) : relaxEdge d s e = s := by
  unfold relaxEdge toIndex
  rw [dif_neg h]

theorem foldl_relaxEdge_filter (d : K) (es : List (Int × K)) (s : DepthState K n) :
    (es.filter (fun e => decide (0 ≤ e.1 ∧ e.1 < (n : Int)))).foldl (relaxEdge d) s
      = es.foldl (relaxEdge d) s := by
  induction es generalizing s with
  | nil => rfl
  | cons e rest ih =>
    by_cases h : 0 ≤ e.1 ∧ e.1 < (n : Int)
    · rw [List.filter_cons_of_pos (by simpa using h), List.foldl_cons, List.foldl_cons, ih]
    · rw [List.filter_cons_of_neg (by simpa using h), List.foldl_cons,
        relaxEdge_of_outOfRange d s e h, ih]

theorem length_pruneAdjacency (adj : List (List (Int × K))) :
    (pruneAdjacency n adj).length = adj.length := by
  unfold pruneAdjacency
  rw [List.length_map]

theorem getD_pruneAdjacency (adj : List (List (Int × K))) (i : Nat) :
    (pruneAdjacency n adj).getD i []
      = (adj.getD i []).filter (fun e => decide (0 ≤ e.1 ∧ e.1 < (n : Int))) := by
  unfold pruneAdjacency
  rw [List.getD_eq_getElem?_getD, List.getD_eq_getElem?_getD, List.getElem?_map]
  cases adj[i]? with
  | none => rfl
  | some row => rfl

/-- The loop takes the same steps on the pruned structure. -/
theorem depthLoop_pruneAdjacency (adj : List (List (Int × K))) :
    ∀ (fuel : Nat) (s : DepthState K n),
      depthLoop (pruneAdjacency n adj) fuel s = depthLoop adj fuel s := by
  intro fuel
  induction fuel with
  | zero => intro s; rfl
  | succ fuel ih =>
    intro s
    obtain ⟨depth, pq⟩ := s
    cases pq with
    | nil => rfl
    | cons e rest =>
      obtain ⟨d, node⟩ := e
      cases hi : toIndex n node with
      | none =>
        rw [depthLoop, depthLoop]
        simp only [hi]
      | some u =>
        have hnode := toIndex_eq_some hi
        subst hnode
        rw [depthLoop_succ_cons, depthLoop_succ_cons, getD_pruneAdjacency,
          foldl_relaxEdge_filter, ih, ih]

theorem calculateDepthFromRoot_pruneAdjacency (adj : List (List (Int × K))) (rootIndex : Int)
    (fuel : Nat) :
    calculateDepthFromRoot fuel rootIndex (pruneAdjacency n adj) n
      = calculateDepthFromRoot fuel rootIndex adj n := by
  unfold calculateDepthFromRoot
  cases toIndex n rootIndex with
  | none => rfl
  | some r =>
    dsimp only
    rw [depthLoop_pruneAdjacency]

/-- C18: without negative weights and with the root in range,
`calculateDepthFromRoot` returns a value (for every fuel of at least `depthFuel`
iterations), the same as on the structure with every out-of-range entry
deleted, and it never stops with an index fault; the length of the structure
need not be `nodeCount`. -/
theorem calculateDepthFromRoot_skips_outOfRange (adj : List (List (Int × K))) (root : Fin n)
    (hw : ∀ row ∈ adj, ∀ e ∈ row, (0 : K) ≤ e.2) :
    (∀ fuel, calculateDepthFromRoot fuel ((root : Nat) : Int) adj n
      = calculateDepthFromRoot fuel ((root : Nat) : Int) (pruneAdjacency n adj) n) ∧
    (∀ fuel, depthFuel adj n ≤ fuel →
      ∃ v, calculateDepthFromRoot fuel ((root : Nat) : Int) adj n = .ok v ∧
        calculateDepthFromRoot fuel ((root : Nat) : Int) (pruneAdjacency n adj) n = .ok v) ∧
    (∀ fuel, calculateDepthFromRoot fuel ((root : Nat) : Int) adj n
      ≠ .error .indexOutOfRange) := by
  refine ⟨fun fuel => (calculateDepthFromRoot_pruneAdjacency adj _ fuel).symm, ?_, ?_⟩
  · intro fuel hfuel
    obtain ⟨v, hv⟩ := calculateDepthFromRoot_returns adj hw root fuel hfuel
    exact ⟨v, hv, by rw [calculateDepthFromRoot_pruneAdjacency]; exact hv⟩
  · intro fuel hc
    rcases calculateDepthFromRoot_cases adj root fuel with h | ⟨v, h⟩
    · rw [h] at hc
      exact Fault.noConfusion (Except.error.inj hc)
    · rw [h] at hc
      exact Except.noConfusion hc

end DepthFaults

/-! ## Integration scorer: guards and the normalisation base -/

theorem pairAdjacency_nonneg : ∀ row ∈ pairAdjacency, ∀ e ∈ row, (0 : ℚ) ≤ e.2 := by
  norm_num [pairAdjacency]

theorem pairAdjacency_lower (v : Fin 2) (d : ℚ) (h : PathWeight pairAdjacency 2 0 v d) :
    (v = 0 ∧ 0 ≤ d) ∨ (v = 1 ∧ 1 ≤ d) := by
  induction h with
  | nil => exact Or.inl ⟨rfl, le_refl _⟩
  | @snoc u v d w _ hedge ih =>
    rcases ih with ⟨hu, hd⟩ | ⟨hu, hd⟩
    · subst hu
      have : v = 1 ∧ w = 1 := by
        fin_cases v <;> simp [pairAdjacency] at hedge ⊢
        exact hedge
      right
      exact ⟨this.1, by rw [this.2]; linarith⟩
    · subst hu
      have : v = 0 ∧ w = 1 := by
        fin_cases v <;> simp [pairAdjacency] at hedge ⊢
        exact hedge
      left
      exact ⟨this.1, by rw [this.2]; linarith⟩

theorem pairAdjacency_reachable (v : Fin 2) :
    v ∈ ({1} : Finset (Fin 2)) ↔ (v ≠ 0 ∧ ∃ d, PathWeight pairAdjacency 2 0 v d) := by
  rw [Finset.mem_singleton]
  constructor
  · intro hv
    subst hv
    exact ⟨by decide, 0 + 1, PathWeight.snoc PathWeight.nil (by simp [pairAdjacency])⟩
  · rintro ⟨h0, d, hp⟩
    rcases pairAdjacency_lower v d hp with ⟨h, -⟩ | ⟨h, -⟩
    · exact absurd h h0
    · exact h

theorem pairAdjacency_min (v : Fin 2) (hv : v ∈ ({1} : Finset (Fin 2))) :
    IsMinPathWeight pairAdjacency 2 0 v ((fun _ => (1 : ℚ)) v) := by
  rw [Finset.mem_singleton] at hv
  subst hv
  refine ⟨?_, fun d' hp => ?_⟩
  · have h : PathWeight pairAdjacency 2 0 1 (0 + 1) :=
      PathWeight.snoc PathWeight.nil (by simp [pairAdjacency])
    rw [zero_add] at h
    exact h
  · rcases pairAdjacency_lower 1 d' hp with ⟨h, -⟩ | ⟨-, h⟩
    · exact absurd h (by decide)
    · exact h

/-- On the two-feature structure with root 0 the aggregate depth is 1. -/
theorem calculateDepthFromRoot_pairAdjacency (fuel : Nat)
    (hfuel : depthFuel pairAdjacency 2 ≤ fuel) :
    calculateDepthFromRoot fuel 0 pairAdjacency 2 = .ok 1 := by
  have h := calculateDepthFromRoot_eq pairAdjacency pairAdjacency_nonneg (0 : Fin 2)
    {1} (fun _ => 1) pairAdjacency_reachable pairAdjacency_min fuel hfuel
  simp only [Fin.val_zero, Nat.cast_zero, Finset.sum_singleton, Finset.card_singleton] at h
  rw [h]
  norm_num

theorem pruneAdjacency_strayAdjacency : pruneAdjacency 2 strayAdjacency = pairAdjacency := by
  rfl

theorem strayAdjacency_nonneg : ∀ row ∈ strayAdjacency, ∀ e ∈ row, (0 : ℚ) ≤ e.2 := by
  norm_num [strayAdjacency]
  rintro a b (⟨-, rfl⟩ | ⟨-, rfl⟩ | ⟨-, rfl⟩) <;> norm_num

/-- Witness for C18: two entries of row 0 point outside the two nodes; the
result is that of the structure without them, 1. -/
theorem calculateDepthFromRoot_skips_outOfRange_witness :
    (∀ row ∈ strayAdjacency, ∀ e ∈ row, (0 : ℚ) ≤ e.2) ∧
    pruneAdjacency 2 strayAdjacency = pairAdjacency ∧
    calculateDepthFromRoot (depthFuel strayAdjacency 2) (((0 : Fin 2) : Nat) : Int)
      strayAdjacency 2 = .ok 1 := by
  refine ⟨strayAdjacency_nonneg, pruneAdjacency_strayAdjacency, ?_⟩
  rw [(calculateDepthFromRoot_skips_outOfRange strayAdjacency (0 : Fin 2)
    strayAdjacency_nonneg).1, pruneAdjacency_strayAdjacency]
  exact calculateDepthFromRoot_pairAdjacency _ (by decide)

section IntegrationGuards

variable {n : Nat}

/-- The parameter `globalNodeCount` has no influence on the result. -/
theorem calculateIntegrationForRoot_globalNodeCount (isnan isinf : K → Bool) (fuel : Nat)
    (rootIndex : Int) (nodeCount : Nat) (adj : List (List (Int × K))) (applyFormula : Bool)
    (g g' tulipBins : Int) :
    calculateIntegrationForRoot isnan isinf fuel rootIndex nodeCount adj applyFormula g
        tulipBins
      = calculateIntegrationForRoot isnan isinf fuel rootIndex nodeCount adj applyFormula g'
        tulipBins :=
  rfl

/-- C12: with formula application enabled, the root in range and a resolution
of at most 1, `calculateIntegrationForRoot` returns 0 whenever the depth
computation returns, which it does for every fuel of at least `depthFuel`
iterations when no weight is negative; it never stops with an index fault. -/
theorem calculateIntegrationForRoot_low_resolution (isnan isinf : K → Bool)
    (adj : List (List (Int × K)))
    (root : Fin n) (g tulipBins : Int) (hres : tulipBins ≤ 1) :
    (∀ fuel,
      calculateIntegrationForRoot isnan isinf fuel ((root : Nat) : Int) n adj true g tulipBins
        = .ok 0 ∨
      calculateIntegrationForRoot isnan isinf fuel ((root : Nat) : Int) n adj true g tulipBins
        = .error .outOfFuel) ∧
    ((∀ row ∈ adj, ∀ e ∈ row, (0 : K) ≤ e.2) → ∀ fuel, depthFuel adj n ≤ fuel →
      calculateIntegrationForRoot isnan isinf fuel ((root : Nat) : Int) n adj true g tulipBins
        = .ok 0) := by
  constructor
  · intro fuel
    rcases calculateDepthFromRoot_cases adj root fuel with h | ⟨v, h⟩
    · right
      unfold calculateIntegrationForRoot
      rw [h]
    · left
      rw [calculateIntegrationForRoot_of_depth isnan isinf fuel _ n adj g tulipBins v h,
        if_pos (Or.inr hres)]
  · intro hw fuel hfuel
    obtain ⟨v, h⟩ := calculateDepthFromRoot_returns adj hw root fuel hfuel
    rw [calculateIntegrationForRoot_of_depth isnan isinf fuel _ n adj g tulipBins v h,
      if_pos (Or.inr hres)]

/-- C13 (code at a failing input): with `nodeCount = 0` the depth vector is
empty, the write `depth[rootIndex] = 0.0` is out of range and the guard
`nodeCount <= 0` is never reached. -/
theorem calculateIntegrationForRoot_zero_nodes (isnan isinf : K → Bool) (fuel : Nat)
    (rootIndex : Int) (adj : List (List (Int × K))) (g tulipBins : Int) :
    calculateIntegrationForRoot isnan isinf fuel rootIndex 0 adj true g tulipBins
      = .error .indexOutOfRange := by
  have h : toIndex 0 rootIndex = none := by
    unfold toIndex
    rw [dif_neg (by omega)]
  unfold calculateIntegrationForRoot calculateDepthFromRoot
  rw [h]

/-- For a root without in-range neighbours and `nodeCount²` within the `int`
range, the integration value is `(resolution - 1) / 2`, provided that
`totalDepthConv` and the quotient are neither NaN nor infinite. -/
theorem calculateIntegrationForRoot_isolated_small (isnan isinf : K → Bool)
    (adj : List (List (Int × K)))
    (root : Fin n) (hiso : ∀ e ∈ adj.getD (root : Nat) [], toIndex n e.1 = none)
    (hsmall : n * n < 2 ^ 31) (g tulipBins : Int) (hres : 2 ≤ tulipBins) (fuel : Nat)
    (h1 : isnan ((2 * ((n : K) * (n : K))) / ((tulipBins : K) - 1)) = false)
    (h2 : isinf ((2 * ((n : K) * (n : K))) / ((tulipBins : K) - 1)) = false)
    (h3 : isnan (((n : K) * (n : K)) /
      ((2 * ((n : K) * (n : K))) / ((tulipBins : K) - 1))) = false)
    (h4 : isinf (((n : K) * (n : K)) /
      ((2 * ((n : K) * (n : K))) / ((tulipBins : K) - 1))) = false) :
    calculateIntegrationForRoot isnan isinf (fuel + 2) ((root : Nat) : Int) n adj true g
        tulipBins
      = .ok (((tulipBins : K) - 1) / 2) := by
  have hn : 0 < n := Fin.pos root
  have hnK : (0 : K) < (n : K) := by exact_mod_cast hn
  have hpos : (0 : K) < (tulipBins : K) - 1 := by
    have : (2 : K) ≤ (tulipBins : K) := by exact_mod_cast hres
    linarith
  rw [calculateIntegrationForRoot_of_depth isnan isinf (fuel + 2) _ n adj g tulipBins _
    (calculateDepthFromRoot_isolated_small adj root hiso hsmall fuel),
    if_neg (by omega)]
  have hconv : ¬ ((2 * ((n : K) * (n : K))) / ((tulipBins : K) - 1) ≤ 0) := by
    rw [not_le]
    positivity
  rw [if_neg (by rw [h1, h2]; simp [hconv]), if_neg (by rw [h3, h4]; simp)]
  congr 1
  field_simp
  ring

end IntegrationGuards

/-- Witness for C12: the three-feature path, root 1, resolution 1. -/
theorem calculateIntegrationForRoot_low_resolution_witness :
    (1 : Int) ≤ 1 ∧
    (∀ row ∈ pathAdjacency, ∀ e ∈ row, (0 : ℚ) ≤ e.2) ∧
    calculateIntegrationForRoot (fun _ => false) roundsToInfinity (depthFuel pathAdjacency 3)
      (((1 : Fin 3) : Nat) : Int) 3 pathAdjacency true 0 1 = .ok 0 :=
  ⟨le_refl _, pathAdjacency_nonneg,
    (calculateIntegrationForRoot_low_resolution (fun _ => false) roundsToInfinity
      pathAdjacency (1 : Fin 3) 0 1 (le_refl _)).2 pathAdjacency_nonneg _ (le_refl _)⟩

/-- C11 (code at the failing input): two features joined by a unit edge,
root 0, resolution 8 and `globalNodeCount = 10`; the result is
`2² / (2 / 7) = 14`, the value obtained for every `globalNodeCount`, and not
`10² / (2 / 7) = 350`. -/
theorem calculateIntegrationForRoot_ignores_globalNodeCount :
    calculateIntegrationForRoot (fun _ => false) roundsToInfinity (depthFuel pairAdjacency 2)
      0 2 pairAdjacency true 10 8 = .ok 14 ∧
    (14 : ℚ) ≠ 350 ∧
    ∀ g : Int,
      calculateIntegrationForRoot (fun _ => false) roundsToInfinity
        (depthFuel pairAdjacency 2) 0 2 pairAdjacency true g 8 = .ok 14 := by
  have h1 : roundsToInfinity ((2 * (1 : ℚ)) / (((8 : Int) : ℚ) - 1)) = false := by
    apply roundsToInfinity_eq_false
    rw [abs_lt]
    constructor <;> norm_num
  have h2 : roundsToInfinity ((((2 : Nat) : ℚ) * ((2 : Nat) : ℚ)) /
      ((2 * (1 : ℚ)) / (((8 : Int) : ℚ) - 1))) = false := by
    apply roundsToInfinity_eq_false
    rw [abs_lt]
    constructor <;> norm_num
  have h : ∀ g : Int,
      calculateIntegrationForRoot (fun _ => false) roundsToInfinity
        (depthFuel pairAdjacency 2) 0 2 pairAdjacency true g 8 = .ok 14 := by
    intro g
    rw [calculateIntegrationForRoot_of_depth (fun _ => false) roundsToInfinity _ 0 2
      pairAdjacency g 8 1 (calculateDepthFromRoot_pairAdjacency _ (le_refl _)),
      if_neg (by decide), if_neg (by rw [h1]; norm_num), if_neg (by rw [h2]; simp)]
    norm_num
  exact ⟨h 10, by norm_num, h⟩

/-- C20 (code at the failing input): 65536 features without any edge, root 0,
resolution 8; the depth sentinel wraps to 0 and the integration value is 0,
not `(8 - 1) / 2`. -/
theorem calculateIntegrationForRoot_isolated_overflow :
    (∀ isnan isinf : ℚ → Bool,
      calculateIntegrationForRoot isnan isinf 2 0 65536
        (List.replicate 65536 ([] : List (Int × ℚ))) true 0 8 = .ok 0) ∧
    (0 : ℚ) ≠ (8 - 1) / 2 := by
  refine ⟨?_, by norm_num⟩
  intro isnan isinf
  have h := calculateDepthFromRoot_isolated (List.replicate 65536 ([] : List (Int × ℚ)))
    (0 : Fin 65536)
    (by
      intro e he
      rw [getD_replicate_nil] at he
      exact absurd he (List.not_mem_nil e))
    0
  simp only [Fin.val_zero, Nat.cast_zero] at h
  have hMD : calculateDepthFromRoot 2 0 (List.replicate 65536 ([] : List (Int × ℚ))) 65536
      = .ok 0 := by
    rw [h]
    norm_num [wrapInt32]
  rw [calculateIntegrationForRoot_of_depth isnan isinf 2 0 65536 _ 0 8 0 hMD,
    if_neg (by decide), if_pos (Or.inl (by norm_num))]

/-! ## Graph builder: order of the rows -/

section RowOrder

variable [FloorRing K] (sqrt acos : K → K) (pi : K) (lines : List (Line K))
  (featureToLines : List (Int × List Nat)) (useAngleWeight : Bool) (tulipBins : Int)

theorem getD_pushBackAt (adj : List (List (Int × K))) (f : Nat) (e : Int × K) (a : Nat) :
    (pushBackAt adj f e).getD a []
      = if a = f ∧ f < adj.length then adj.getD a [] ++ [e] else adj.getD a [] := by
  induction adj generalizing f a with
  | nil => simp [pushBackAt]
  | cons row rest ih =>
    cases f with
    | zero =>
      cases a with
      | zero => simp [pushBackAt]
      | succ a => simp [pushBackAt]
    | succ f =>
      cases a with
      | zero => simp [pushBackAt]
      | succ a =>
        simp only [pushBackAt, List.getD_cons_succ, List.length_cons]
        rw [ih]
        simp

/-- Rows after the body of the `f2` loop, when an intersection was found. -/
theorem getD_connectFeatures_some (f1 f2 : Nat) (adj : List (List (Int × K)))
    (h1 : f1 < adj.length) (h2 : f2 < adj.length) (h12 : f1 < f2) (i j : Nat)
    (hfind : findIntersection lines (mapLookup featureToLines f1)
      (mapLookup featureToLines f2) = some (i, j)) (a : Nat) :
    (connectFeatures sqrt acos pi lines featureToLines useAngleWeight tulipBins
        f1 adj f2).getD a []
      = if a = f1 then adj.getD a [] ++ [((f2 : Int), edgeWeight sqrt acos pi useAngleWeight
            tulipBins (lines.getD i default) (lines.getD j default))]
        else if a = f2 then adj.getD a [] ++ [((f1 : Int), edgeWeight sqrt acos pi
            useAngleWeight tulipBins (lines.getD i default) (lines.getD j default))]
        else adj.getD a [] := by
  unfold connectFeatures
  dsimp only
  rw [hfind]
  dsimp only
  rw [getD_pushBackAt, getD_pushBackAt, length_pushBackAt]
  by_cases ha1 : a = f1
  · have ha2 : ¬ a = f2 := by omega
    rw [if_neg (fun h => ha2 h.1), if_pos ⟨ha1, h1⟩, if_pos ha1]
  · by_cases ha2 : a = f2
    · rw [if_pos ⟨ha2, h2⟩, if_neg (fun h => ha1 h.1), if_neg ha1, if_pos ha2]
    · rw [if_neg (fun h => ha2 h.1), if_neg (fun h => ha1 h.1), if_neg ha1, if_neg ha2]

theorem connectFeatures_none (f1 f2 : Nat) (adj : List (List (Int × K)))
    (hfind : findIntersection lines (mapLookup featureToLines f1)
      (mapLookup featureToLines f2) = none) :
    connectFeatures sqrt acos pi lines featureToLines useAngleWeight tulipBins f1 adj f2
      = adj := by
  unfold connectFeatures
  dsimp only
  rw [hfind]

theorem RowsOrdered.connect {adj : List (List (Int × K))} {count f1 f2 : Nat}
    (h : RowsOrdered adj count f1 f2) (hlen : adj.length = count) (h12 : f1 < f2)
    (h2 : f2 < count) :
    RowsOrdered (connectFeatures sqrt acos pi lines featureToLines useAngleWeight tulipBins
      f1 adj f2) count f1 (f2 + 1) := by
  cases hfind : findIntersection lines (mapLookup featureToLines f1)
      (mapLookup featureToLines f2) with
  | none =>
    rw [connectFeatures_none sqrt acos pi lines featureToLines useAngleWeight tulipBins
      f1 f2 adj hfind]
    intro a
    obtain ⟨hp, hb⟩ := h a
    refine ⟨hp, fun b hbm => ?_⟩
    obtain ⟨b0, b1, b2, b3, b4⟩ := hb b hbm
    refine ⟨b0, b1, b2, fun hlt => ?_, fun hlt => ?_⟩
    · rcases b3 hlt with h' | h'
      · exact Or.inl h'
      · exact Or.inr ⟨h'.1, by omega⟩
    · rcases b4 hlt with h' | h'
      · exact Or.inl h'
      · exact Or.inr ⟨h'.1, by omega⟩
  | some p =>
    obtain ⟨i, j⟩ := p
    intro a
    obtain ⟨hp, hb⟩ := h a
    rw [getD_connectFeatures_some sqrt acos pi lines featureToLines useAngleWeight tulipBins
      f1 f2 adj (by omega) (by omega) h12 i j hfind a]
    by_cases ha1 : a = f1
    · subst ha1
      rw [if_pos rfl, List.map_append, List.map_cons, List.map_nil]
      constructor
      · rw [List.pairwise_append]
        refine ⟨hp, List.pairwise_singleton _ _, fun b hbm c hc => ?_⟩
        rw [List.mem_singleton] at hc
        obtain ⟨b0, b1, b2, b3, b4⟩ := hb b hbm
        subst hc
        dsimp only
        rcases lt_or_gt_of_ne b2 with hlt | hgt
        · omega
        · rcases b4 hgt with h' | h'
          · omega
          · exact h'.2
      · intro b hbm
        rcases List.mem_append.1 hbm with hold | hnew
        · obtain ⟨b0, b1, b2, b3, b4⟩ := hb b hold
          refine ⟨b0, b1, b2, fun hlt => ?_, fun hlt => ?_⟩
          · rcases b3 hlt with h' | h'
            · exact Or.inl h'
            · omega
          · rcases b4 hlt with h' | h'
            · exact Or.inl h'
            · exact Or.inr ⟨h'.1, by omega⟩
        · rw [List.mem_singleton] at hnew
          subst hnew
          dsimp only
          refine ⟨by omega, by omega, by omega, fun hlt => by omega, fun _ => ?_⟩
          exact Or.inr ⟨rfl, by omega⟩
    · rw [if_neg ha1]
      by_cases ha2 : a = f2
      · subst ha2
        rw [if_pos rfl, List.map_append, List.map_cons, List.map_nil]
        constructor
        · rw [List.pairwise_append]
          refine ⟨hp, List.pairwise_singleton _ _, fun b hbm c hc => ?_⟩
          rw [List.mem_singleton] at hc
          obtain ⟨b0, b1, b2, b3, b4⟩ := hb b hbm
          subst hc
          dsimp only
          rcases lt_or_gt_of_ne b2 with hlt | hgt
          · rcases b3 hlt with h' | h'
            · exact h'
            · omega
          · rcases b4 hgt with h' | h'
            · omega
            · omega
        · intro b hbm
          rcases List.mem_append.1 hbm with hold | hnew
          · obtain ⟨b0, b1, b2, b3, b4⟩ := hb b hold
            refine ⟨b0, b1, b2, fun hlt => ?_, fun hlt => ?_⟩
            · rcases b3 hlt with h' | h'
              · exact Or.inl h'
              · omega
            · rcases b4 hlt with h' | h'
              · exact Or.inl h'
              · omega
          · rw [List.mem_singleton] at hnew
            subst hnew
            dsimp only
            refine ⟨by omega, by omega, by omega, fun _ => ?_, fun hlt => by omega⟩
            exact Or.inr ⟨rfl, by omega⟩
      · rw [if_neg ha2]
        refine ⟨hp, fun b hbm => ?_⟩
        obtain ⟨b0, b1, b2, b3, b4⟩ := hb b hbm
        refine ⟨b0, b1, b2, fun hlt => ?_, fun hlt => ?_⟩
        · rcases b3 hlt with h' | h'
          · exact Or.inl h'
          · exact Or.inr ⟨h'.1, by omega⟩
        · rcases b4 hlt with h' | h'
          · exact Or.inl h'
          · exact Or.inr ⟨h'.1, by omega⟩

theorem RowsOrdered.inner (count f1 : Nat) :
    ∀ (len s : Nat) (adj : List (List (Int × K))),
      s + len = count → f1 < s → adj.length = count → RowsOrdered adj count f1 s →
      RowsOrdered ((List.range' s len).foldl
        (connectFeatures sqrt acos pi lines featureToLines useAngleWeight tulipBins f1) adj)
        count f1 count ∧
      ((List.range' s len).foldl
        (connectFeatures sqrt acos pi lines featureToLines useAngleWeight tulipBins f1)
        adj).length = count := by
  intro len
  induction len with
  | zero =>
    intro s adj hs _ hlen h
    have : s = count := by omega
    subst this
    exact ⟨h, hlen⟩
  | succ len ih =>
    intro s adj hs hf1 hlen h
    rw [List.range'_succ, List.foldl_cons]
    exact ih (s + 1) _ (by omega) (by omega)
      (by rw [length_connectFeatures]; exact hlen)
      (h.connect sqrt acos pi lines featureToLines useAngleWeight tulipBins hlen hf1 (by omega))

theorem RowsOrdered.next {adj : List (List (Int × K))} {count f1 : Nat}
    (h : RowsOrdered adj count f1 count) : RowsOrdered adj count (f1 + 1) (f1 + 1 + 1) := by
  intro a
  obtain ⟨hp, hb⟩ := h a
  refine ⟨hp, fun b hbm => ?_⟩
  obtain ⟨b0, b1, b2, b3, b4⟩ := hb b hbm
  refine ⟨b0, b1, b2, fun hlt => ?_, fun hlt => ?_⟩
  · rcases b3 hlt with h' | h'
    · exact Or.inl (by omega)
    · exact Or.inl (by omega)
  · rcases b4 hlt with h' | h'
    · exact Or.inl (by omega)
    · exact Or.inl (by omega)

theorem RowsOrdered.outer (count : Nat) :
    ∀ (len s : Nat) (adj : List (List (Int × K))),
      s + len = count → adj.length = count → RowsOrdered adj count s (s + 1) →
      RowsOrdered ((List.range' s len).foldl (fun adjacencyList f1 =>
        (List.range' (f1 + 1) (count - (f1 + 1))).foldl
          (connectFeatures sqrt acos pi lines featureToLines useAngleWeight tulipBins f1)
          adjacencyList) adj) count count (count + 1) := by
  intro len
  induction len with
  | zero =>
    intro s adj hs _ h
    have : s = count := by omega
    subst this
    exact h
  | succ len ih =>
    intro s adj hs hlen h
    rw [List.range'_succ, List.foldl_cons]
    obtain ⟨hin, hlen'⟩ := RowsOrdered.inner sqrt acos pi lines featureToLines useAngleWeight
      tulipBins count s (count - (s + 1)) (s + 1) adj (by omega) (by omega) hlen h
    exact ih (s + 1) _ (by omega) hlen' hin.next

theorem rowsOrdered_buildAdjacencyList (mode : String) :
    RowsOrdered (buildAdjacencyList sqrt acos pi lines mode tulipBins)
      (groupByFeature lines).length (groupByFeature lines).length
      ((groupByFeature lines).length + 1) := by
  unfold buildAdjacencyList
  dsimp only
  rw [List.range_eq_range']
  refine RowsOrdered.outer sqrt acos pi lines (groupByFeature lines) (mode == "angle")
    tulipBins (groupByFeature lines).length (groupByFeature lines).length 0 _ (by omega)
    (by simp) ?_
  intro a
  rw [getD_replicate_nil]
  exact ⟨List.Pairwise.nil, fun b hb => absurd hb (List.not_mem_nil b)⟩

theorem weight_unique_of_pairwise (row : List (Int × K))
    (h : (row.map Prod.fst).Pairwise (fun x y => x < y)) (b : Int) (w w' : K)
    (h1 : (b, w) ∈ row) (h2 : (b, w') ∈ row) : w = w' := by
  induction row with
  | nil => exact absurd h1 (List.not_mem_nil _)
  | cons x rest ih =>
    rw [List.map_cons, List.pairwise_cons] at h
    rcases List.mem_cons.1 h1 with e1 | m1 <;> rcases List.mem_cons.1 h2 with e2 | m2
    · rw [← e1] at e2
      exact (((Prod.mk.injEq _ _ _ _).mp e2).2).symm
    · have := h.1 b (List.mem_map.2 ⟨(b, w'), m2, rfl⟩)
      rw [← e1] at this
      exact absurd this (lt_irrefl _)
    · have := h.1 b (List.mem_map.2 ⟨(b, w), m1, rfl⟩)
      rw [← e2] at this
      exact absurd this (lt_irrefl _)
    · exact ih h.2 m1 m2

/-- C19: in the structure returned by `buildAdjacencyList`, for every segment
list, mode and resolution, every row is strictly increasing in the neighbour
index, holds only indices in `[0, feature count)` and never its own index;
hence a neighbour is listed at most once in a row. -/
theorem buildAdjacencyList_rows_ordered (mode : String) (a : Nat) :
    (((buildAdjacencyList sqrt acos pi lines mode tulipBins).getD a []).map
      Prod.fst).Pairwise (fun x y => x < y) ∧
    (∀ e ∈ (buildAdjacencyList sqrt acos pi lines mode tulipBins).getD a [],
      0 ≤ e.1 ∧
      e.1 < ((buildAdjacencyList sqrt acos pi lines mode tulipBins).length : Int) ∧
      e.1 ≠ (a : Int)) ∧
    (∀ (b : Int) (w w' : K),
      (b, w) ∈ (buildAdjacencyList sqrt acos pi lines mode tulipBins).getD a [] →
      (b, w') ∈ (buildAdjacencyList sqrt acos pi lines mode tulipBins).getD a [] →
      w = w') := by
  obtain ⟨hp, hb⟩ := rowsOrdered_buildAdjacencyList sqrt acos pi lines tulipBins mode a
  refine ⟨hp, fun e he => ?_, fun b w w' h1 h2 => weight_unique_of_pairwise _ hp b w w' h1 h2⟩
  obtain ⟨b0, b1, b2, -, -⟩ := hb e.1 (List.mem_map.2 ⟨e, he, rfl⟩)
  rw [length_buildAdjacencyList]
  exact ⟨b0, b1, b2⟩

end RowOrder

/-! ## Graph builder: first intersection and weights -/

section FirstIntersection

variable [FloorRing K]

theorem pairwise_mapLookup_groupByFeature (lines : List (Line K)) (k : Int) :
    (mapLookup (groupByFeature lines) k).Pairwise (fun x y => x < y) := by
  unfold groupByFeature
  rw [mapLookup_foldl]
  simp only [mapLookup, List.nil_append]
  have hsub : ((lines.enum.filter (fun il => decide (il.2.featureIndex = k))).map Prod.fst).Sublist
      (lines.enum.map Prod.fst) := (List.filter_sublist _).map _
  rw [List.enum_map_fst] at hsub
  exact List.Pairwise.sublist hsub (List.pairwise_lt_range _)

theorem find?_first (p : Nat → Bool) (l : List Nat) (hl : l.Pairwise (fun x y => x < y))
    (j : Nat) (h : l.find? p = some j) (j' : Nat) (hj' : j' ∈ l) (hp : p j' = true) :
    j ≤ j' := by
  induction l with
  | nil => exact absurd hj' (List.not_mem_nil _)
  | cons x rest ih =>
    rw [List.pairwise_cons] at hl
    rw [List.find?_cons] at h
    cases hx : p x with
    | true =>
      rw [hx] at h
      simp only [Option.some.injEq] at h
      subst h
      rcases List.mem_cons.1 hj' with heq | hmem
      · exact le_of_eq heq.symm
      · exact le_of_lt (hl.1 j' hmem)
    | false =>
      rw [hx] at h
      rcases List.mem_cons.1 hj' with heq | hmem
      · rw [heq, hx] at hp
        exact Bool.noConfusion hp
      · exact ih hl.2 h hmem

theorem findIntersection_first (lines : List (Line K)) (l1 l2 : List Nat)
    (h1 : l1.Pairwise (fun x y => x < y)) (h2 : l2.Pairwise (fun x y => x < y))
    (i j : Nat) (h : findIntersection lines l1 l2 = some (i, j))
    (i' : Nat) (hi' : i' ∈ l1) (j' : Nat) (hj' : j' ∈ l2)
    (hc : (checkLineIntersection (lines.getD i' default) (lines.getD j' default)).1 = true) :
    i < i' ∨ (i = i' ∧ j ≤ j') := by
  induction l1 with
  | nil => exact absurd hi' (List.not_mem_nil _)
  | cons i0 rest ih =>
    rw [List.pairwise_cons] at h1
    unfold findIntersection at h
    cases hf : l2.find? (fun idx2 =>
        (checkLineIntersection (lines.getD i0 default) (lines.getD idx2 default)).1) with
    | some j0 =>
      rw [hf] at h
      simp only [Option.some.injEq, Prod.mk.injEq] at h
      obtain ⟨e1, e2⟩ := h
      subst e1 e2
      rcases List.mem_cons.1 hi' with heq | hmem
      · subst heq
        exact Or.inr ⟨rfl, find?_first _ l2 h2 j0 hf j' hj' hc⟩
      · exact Or.inl (h1.1 i' hmem)
    | none =>
      rw [hf] at h
      dsimp only at h
      rcases List.mem_cons.1 hi' with heq | hmem
      · subst heq
        rw [List.find?_eq_none] at hf
        have := hf j' hj'
        rw [hc] at this
        exact absurd rfl this
      · exact ih h1.2 h hmem

/-- The scan returns the first intersecting pair in scan order. -/
theorem findIntersection_of_isFirst (lines : List (Line K)) (k1 k2 : Int) (i j : Nat)
    (h : IsFirstIntersection lines k1 k2 i j) :
    findIntersection lines (mapLookup (groupByFeature lines) k1)
      (mapLookup (groupByFeature lines) k2) = some (i, j) := by
  obtain ⟨⟨l1, l2, hl1, hl2, hk1, hk2, hc⟩, hmin⟩ := h
  obtain ⟨i0, j0, hfind⟩ := (findIntersection_isSome_iff lines k1 k2).2
    ⟨l1, List.getElem?_mem hl1, l2, List.getElem?_mem hl2, hk1, hk2, hc⟩
  obtain ⟨hi0, hj0, hc0⟩ := findIntersection_eq_some lines _ _ i0 j0 hfind
  obtain ⟨m1, hm1, hmk1⟩ := (mem_mapLookup_groupByFeature lines k1 i0).1 hi0
  obtain ⟨m2, hm2, hmk2⟩ := (mem_mapLookup_groupByFeature lines k2 j0).1 hj0
  rw [getD_of_getElem? lines i0 default m1 hm1, getD_of_getElem? lines j0 default m2 hm2]
    at hc0
  have hA := hmin i0 j0 m1 m2 hm1 hm2 hmk1 hmk2 hc0
  have hB := findIntersection_first lines _ _ (pairwise_mapLookup_groupByFeature lines k1)
    (pairwise_mapLookup_groupByFeature lines k2) i0 j0 hfind i
    ((mem_mapLookup_groupByFeature lines k1 i).2 ⟨l1, hl1, hk1⟩) j
    ((mem_mapLookup_groupByFeature lines k2 j).2 ⟨l2, hl2, hk2⟩)
    (by rw [getD_of_getElem? lines i default l1 hl1, getD_of_getElem? lines j default l2 hl2]
        exact hc)
  have hi : i0 = i := by omega
  have hj : j0 = j := by omega
  rw [hfind, hi, hj]

end FirstIntersection

section Weights

variable [FloorRing K] (sqrt acos : K → K) (pi : K)

/-- For a connected pair `f1 < f2` the two entries carry the weight computed at
the first intersecting segment pair, and no other weight. -/
theorem mem_row_iff_first (lines : List (Line K)) (mode : String) (tulipBins : Int)
    (f1 f2 : Nat) (h12 : f1 < f2) (h2 : f2 < (groupByFeature lines).length) (i j : Nat)
    (hfirst : IsFirstIntersection lines f1 f2 i j) (w : K) :
    ((((f2 : Int), w) ∈ (buildAdjacencyList sqrt acos pi lines mode tulipBins).getD f1 []) ↔
      w = edgeWeight sqrt acos pi (mode == "angle") tulipBins
        (lines.getD i default) (lines.getD j default)) ∧
    ((((f1 : Int), w) ∈ (buildAdjacencyList sqrt acos pi lines mode tulipBins).getD f2 []) ↔
      w = edgeWeight sqrt acos pi (mode == "angle") tulipBins
        (lines.getD i default) (lines.getD j default)) := by
  have hfind := findIntersection_of_isFirst lines f1 f2 i j hfirst
  constructor
  · rw [mem_getD_buildAdjacencyList]
    constructor
    · rintro ⟨g1, g2, hg12, hg2, i', j', hfind', hcase⟩
      rcases hcase with ⟨ha, hx⟩ | ⟨ha, hx⟩
      · simp only [Prod.mk.injEq, Nat.cast_inj] at hx
        obtain ⟨hb, hw⟩ := hx
        subst ha hb
        rw [hfind] at hfind'
        simp only [Option.some.injEq, Prod.mk.injEq] at hfind'
        rw [hw, hfind'.1, hfind'.2]
      · simp only [Prod.mk.injEq, Nat.cast_inj] at hx
        omega
    · intro hw
      exact ⟨f1, f2, h12, h2, i, j, hfind, Or.inl ⟨rfl, by rw [hw]⟩⟩
  · rw [mem_getD_buildAdjacencyList]
    constructor
    · rintro ⟨g1, g2, hg12, hg2, i', j', hfind', hcase⟩
      rcases hcase with ⟨ha, hx⟩ | ⟨ha, hx⟩
      · simp only [Prod.mk.injEq, Nat.cast_inj] at hx
        omega
      · simp only [Prod.mk.injEq, Nat.cast_inj] at hx
        obtain ⟨hb, hw⟩ := hx
        subst ha hb
        rw [hfind] at hfind'
        simp only [Option.some.injEq, Prod.mk.injEq] at hfind'
        rw [hw, hfind'.1, hfind'.2]
    · intro hw
      exact ⟨f1, f2, h12, h2, i, j, hfind, Or.inr ⟨rfl, by rw [hw]⟩⟩

/-- Angle-mode weight for a resolution of at least 1 and a non-negative angle. -/
theorem edgeWeight_angle_of_nonneg (tulipBins : Int) (htb : 1 ≤ tulipBins) (l1 l2 : Line K)
    (hang : 0 ≤ angleBetweenLines sqrt acos pi l1 l2) :
    edgeWeight sqrt acos pi true tulipBins l1 l2 =
      (1 + ((max 0 (min ⌊angleBetweenLines sqrt acos pi l1 l2 / (180 / (tulipBins : K))⌋
          (tulipBins - 1)) : Int) : K)) * ((l1.length sqrt + l2.length sqrt) / 2) := by
  have hK : (0 : K) ≤ (tulipBins : K) := by exact_mod_cast (by omega : (0 : Int) ≤ tulipBins)
  have hq : 0 ≤ angleBetweenLines sqrt acos pi l1 l2 / (180 / (tulipBins : K)) :=
    div_nonneg hang (div_nonneg (by norm_num) hK)
  have hfl : 0 ≤ ⌊angleBetweenLines sqrt acos pi l1 l2 / (180 / (tulipBins : K))⌋ :=
    Int.floor_nonneg.2 hq
  unfold edgeWeight truncToInt
  simp only [if_true, if_pos hq]
  rw [max_eq_right (le_min hfl (by omega))]

theorem edgeWeight_nonneg (hsqrt : ∀ x, 0 ≤ sqrt x) (useAngleWeight : Bool) (tulipBins : Int)
    (htb : 0 ≤ tulipBins) (l1 l2 : Line K)
    (hang : 0 ≤ angleBetweenLines sqrt acos pi l1 l2) :
    0 ≤ edgeWeight sqrt acos pi useAngleWeight tulipBins l1 l2 := by
  cases useAngleWeight with
  | false => rw [edgeWeight_topo]; exact zero_le_one
  | true =>
    have hK : (0 : K) ≤ (tulipBins : K) := by exact_mod_cast htb
    have hq : 0 ≤ angleBetweenLines sqrt acos pi l1 l2 / (180 / (tulipBins : K)) :=
      div_nonneg hang (div_nonneg (by norm_num) hK)
    have hfl : 0 ≤ ⌊angleBetweenLines sqrt acos pi l1 l2 / (180 / (tulipBins : K))⌋ :=
      Int.floor_nonneg.2 hq
    unfold edgeWeight truncToInt
    simp only [if_true, if_pos hq]
    have hbin : (-1 : Int) ≤ min ⌊angleBetweenLines sqrt acos pi l1 l2 /
        (180 / (tulipBins : K))⌋ (tulipBins - 1) := le_min (by omega) (by omega)
    have hbinK : (-1 : K) ≤ ((min ⌊angleBetweenLines sqrt acos pi l1 l2 /
        (180 / (tulipBins : K))⌋ (tulipBins - 1) : Int) : K) := by exact_mod_cast hbin
    have hlen : 0 ≤ (l1.length sqrt + l2.length sqrt) / 2 := by
      unfold Line.length Point.distanceTo
      have := hsqrt ((l1.p1.x - l1.p2.x) * (l1.p1.x - l1.p2.x)
        + (l1.p1.y - l1.p2.y) * (l1.p1.y - l1.p2.y))
      have := hsqrt ((l2.p1.x - l2.p2.x) * (l2.p1.x - l2.p2.x)
        + (l2.p1.y - l2.p2.y) * (l2.p1.y - l2.p2.y))
      dsimp only
      linarith
    exact mul_nonneg (by linarith) hlen

/-- Angle-mode weight for the resolution `-1`: minus the mean length. -/
theorem edgeWeight_resolution_neg_one (l1 l2 : Line K)
    (hang : 0 ≤ angleBetweenLines sqrt acos pi l1 l2)
    (hang' : angleBetweenLines sqrt acos pi l1 l2 ≤ 90) :
    edgeWeight sqrt acos pi true (-1) l1 l2 = -((l1.length sqrt + l2.length sqrt) / 2) := by
  have hq1 : angleBetweenLines sqrt acos pi l1 l2 / (180 / ((-1 : Int) : K)) ≤ 0 := by
    rw [Int.cast_neg, Int.cast_one, div_neg, div_one, div_neg]
    have : 0 ≤ angleBetweenLines sqrt acos pi l1 l2 / 180 := by positivity
    linarith
  have hq2 : -1 < angleBetweenLines sqrt acos pi l1 l2 / (180 / ((-1 : Int) : K)) := by
    rw [Int.cast_neg, Int.cast_one, div_neg, div_one, div_neg]
    have : angleBetweenLines sqrt acos pi l1 l2 / 180 ≤ 90 / 180 :=
      div_le_div_of_nonneg_right hang' (by norm_num)
    have h2 : (90 : K) / 180 < 1 := by norm_num
    linarith
  have htr : truncToInt (angleBetweenLines sqrt acos pi l1 l2 / (180 / ((-1 : Int) : K)))
      = 0 := by
    unfold truncToInt
    split_ifs with h0
    · have : angleBetweenLines sqrt acos pi l1 l2 / (180 / ((-1 : Int) : K)) = 0 :=
        le_antisymm hq1 h0
      rw [this, Int.floor_zero]
    · rw [Int.ceil_eq_zero_iff]
      exact ⟨hq2, hq1⟩
  unfold edgeWeight
  simp only [if_true, htr]
  norm_num

end Weights

/-! ### The crossing pair of segments -/

section Crossing

variable [FloorRing K]

theorem crossingSegments_check :
    (checkLineIntersection ((crossingSegments K).getD 0 default)
      ((crossingSegments K).getD 1 default)).1 = true := by
  rw [checkLineIntersection_fst]
  norm_num [crossingSegments, intersectionDenom, intersectionT, intersectionU, EPSILON]

theorem crossingSegments_dense (k : Int) :
    (∃ l ∈ crossingSegments K, l.featureIndex = k) ↔ (0 ≤ k ∧ k < (2 : Nat)) := by
  simp only [crossingSegments, List.mem_cons, List.mem_singleton, List.not_mem_nil, or_false,
    exists_eq_or_imp, exists_eq_left]
  constructor
  · rintro (h | h) <;> omega
  · rintro ⟨h1, h2⟩
    have : k = 0 ∨ k = 1 := by omega
    rcases this with h | h <;> simp [h]

theorem crossingSegments_first :
    IsFirstIntersection (crossingSegments K) ((0 : Nat) : Int) ((1 : Nat) : Int) 0 1 := by
  refine ⟨⟨(crossingSegments K).getD 0 default, (crossingSegments K).getD 1 default,
    rfl, rfl, rfl, rfl, crossingSegments_check⟩, ?_⟩
  intro i' j' l1' l2' _ h2 _ hk2 _
  rcases i' with _ | i'
  · right
    refine ⟨rfl, ?_⟩
    rcases j' with _ | j'
    · simp only [crossingSegments, List.getElem?_cons_zero, Option.some.injEq] at h2
      rw [← h2] at hk2
      simp at hk2
    · omega
  · left
    omega

/-- In every mode and for every resolution the crossing pair is connected with
the weight computed at its two segments. -/
theorem crossingSegments_entry (sqrt acos : K → K) (pi : K) (mode : String)
    (tulipBins : Int) :
    ((1 : Int), edgeWeight sqrt acos pi (mode == "angle") tulipBins
        ((crossingSegments K).getD 0 default) ((crossingSegments K).getD 1 default)) ∈
      (buildAdjacencyList sqrt acos pi (crossingSegments K) mode tulipBins).getD 0 [] := by
  have h := (mem_row_iff_first sqrt acos pi (crossingSegments K) mode tulipBins 0 1
    (by decide)
    (by rw [length_groupByFeature_of_dense (crossingSegments K) 2 crossingSegments_dense]
        omega)
    0 1 crossingSegments_first
    (edgeWeight sqrt acos pi (mode == "angle") tulipBins
      ((crossingSegments K).getD 0 default) ((crossingSegments K).getD 1 default))).1.2 rfl
  simpa using h

end Crossing

/-! ### Weights over the real numbers -/

/-- C14: for dense feature indices and a resolution of at least 1, in "angle"
mode the two entries of a connected pair `f1 < f2` carry the weight
`(1 + bin) * avgLength` with `bin = floor(angle / (180 / resolution))` clamped
to `[0, resolution - 1]`, angle and mean length being those of the first
intersecting segment pair in scan order, and they carry no other weight. -/
theorem buildAdjacencyList_angle_weight (lines : List (Line ℝ)) (tulipBins : Int) (n : Nat)
    (hdense : ∀ k : Int, (∃ l ∈ lines, l.featureIndex = k) ↔ (0 ≤ k ∧ k < n))
    (hres : 1 ≤ tulipBins) (f1 f2 : Nat) (h12 : f1 < f2) (h2 : f2 < n) (i j : Nat)
    (hfirst : IsFirstIntersection lines f1 f2 i j) (w : ℝ) :
    ((((f2 : Int), w) ∈
        (buildAdjacencyList Real.sqrt Real.arccos Real.pi lines "angle" tulipBins).getD f1 []) ↔
      w = (1 + ((max 0 (min
          ⌊angleBetweenLines Real.sqrt Real.arccos Real.pi (lines.getD i default)
              (lines.getD j default) / (180 / (tulipBins : ℝ))⌋
          (tulipBins - 1)) : Int) : ℝ)) *
        (((lines.getD i default).length Real.sqrt
          + (lines.getD j default).length Real.sqrt) / 2)) ∧
    ((((f1 : Int), w) ∈
        (buildAdjacencyList Real.sqrt Real.arccos Real.pi lines "angle" tulipBins).getD f2 []) ↔
      w = (1 + ((max 0 (min
          ⌊angleBetweenLines Real.sqrt Real.arccos Real.pi (lines.getD i default)
              (lines.getD j default) / (180 / (tulipBins : ℝ))⌋
          (tulipBins - 1)) : Int) : ℝ)) *
        (((lines.getD i default).length Real.sqrt
          + (lines.getD j default).length Real.sqrt) / 2)) := by
  have hlen := length_groupByFeature_of_dense lines n hdense
  have hmode : ("angle" == "angle") = true := by decide
  have hang := (angleBetweenLines_range Real.sqrt Real.arccos Real.pi Real.pi_pos
    (fun x => ⟨Real.arccos_nonneg x, Real.arccos_le_pi x⟩)
    (lines.getD i default) (lines.getD j default)).1
  have h := mem_row_iff_first Real.sqrt Real.arccos Real.pi lines "angle" tulipBins f1 f2 h12
    (by rw [hlen]; exact h2) i j hfirst w
  rw [hmode, edgeWeight_angle_of_nonneg Real.sqrt Real.arccos Real.pi tulipBins hres _ _ hang]
    at h
  exact h

/-- Witness for C14: the crossing pair with resolution 8. -/
theorem buildAdjacencyList_angle_weight_witness :
    (∀ k : Int, (∃ l ∈ crossingSegments ℝ, l.featureIndex = k) ↔ (0 ≤ k ∧ k < (2 : Nat))) ∧
    (1 : Int) ≤ 8 ∧
    IsFirstIntersection (crossingSegments ℝ) ((0 : Nat) : Int) ((1 : Nat) : Int) 0 1 ∧
    ∀ w : ℝ,
      (((((1 : Nat) : Int), w) ∈ (buildAdjacencyList Real.sqrt Real.arccos Real.pi
          (crossingSegments ℝ) "angle" 8).getD 0 []) ↔
        w = (1 + ((max 0 (min
            ⌊angleBetweenLines Real.sqrt Real.arccos Real.pi
                ((crossingSegments ℝ).getD 0 default)
                ((crossingSegments ℝ).getD 1 default) / (180 / ((8 : Int) : ℝ))⌋
            (8 - 1)) : Int) : ℝ)) *
          ((((crossingSegments ℝ).getD 0 default).length Real.sqrt
            + ((crossingSegments ℝ).getD 1 default).length Real.sqrt) / 2)) ∧
      (((((0 : Nat) : Int), w) ∈ (buildAdjacencyList Real.sqrt Real.arccos Real.pi
          (crossingSegments ℝ) "angle" 8).getD 1 []) ↔
        w = (1 + ((max 0 (min
            ⌊angleBetweenLines Real.sqrt Real.arccos Real.pi
                ((crossingSegments ℝ).getD 0 default)
                ((crossingSegments ℝ).getD 1 default) / (180 / ((8 : Int) : ℝ))⌋
            (8 - 1)) : Int) : ℝ)) *
          ((((crossingSegments ℝ).getD 0 default).length Real.sqrt
            + ((crossingSegments ℝ).getD 1 default).length Real.sqrt) / 2)) :=
  ⟨crossingSegments_dense, by decide, crossingSegments_first,
    fun w => buildAdjacencyList_angle_weight (crossingSegments ℝ) 8 2 crossingSegments_dense
      (by decide) 0 1 (by decide) (by decide) 0 1 crossingSegments_first w⟩

/-- C15 (amended): for every segment list, every mode and every resolution that
is not negative, every weight in the structure returned by
`buildAdjacencyList` is at least 0. -/
theorem buildAdjacencyList_weight_nonneg (lines : List (Line ℝ)) (mode : String)
    (tulipBins : Int) (htb : 0 ≤ tulipBins) (a : Nat) (b : Int) (w : ℝ)
    (h : (b, w) ∈
      (buildAdjacencyList Real.sqrt Real.arccos Real.pi lines mode tulipBins).getD a []) :
    0 ≤ w := by
  rw [mem_getD_buildAdjacencyList] at h
  obtain ⟨f1, f2, -, -, i, j, -, hcase⟩ := h
  have hang := (angleBetweenLines_range Real.sqrt Real.arccos Real.pi Real.pi_pos
    (fun x => ⟨Real.arccos_nonneg x, Real.arccos_le_pi x⟩)
    (lines.getD i default) (lines.getD j default)).1
  have hnn := edgeWeight_nonneg Real.sqrt Real.arccos Real.pi Real.sqrt_nonneg
    (mode == "angle") tulipBins htb (lines.getD i default) (lines.getD j default) hang
  rcases hcase with ⟨-, hx⟩ | ⟨-, hx⟩
  · rw [((Prod.mk.injEq _ _ _ _).mp hx).2]
    exact hnn
  · rw [((Prod.mk.injEq _ _ _ _).mp hx).2]
    exact hnn

/-- Witness for C15: the crossing pair in "angle" mode with resolution 8. -/
theorem buildAdjacencyList_weight_nonneg_witness :
    (0 : Int) ≤ 8 ∧
    ((1 : Int), edgeWeight Real.sqrt Real.arccos Real.pi ("angle" == "angle") 8
        ((crossingSegments ℝ).getD 0 default) ((crossingSegments ℝ).getD 1 default)) ∈
      (buildAdjacencyList Real.sqrt Real.arccos Real.pi (crossingSegments ℝ) "angle" 8).getD
        0 [] ∧
    0 ≤ edgeWeight Real.sqrt Real.arccos Real.pi ("angle" == "angle") 8
        ((crossingSegments ℝ).getD 0 default) ((crossingSegments ℝ).getD 1 default) :=
  ⟨by decide, crossingSegments_entry Real.sqrt Real.arccos Real.pi "angle" 8,
    buildAdjacencyList_weight_nonneg (crossingSegments ℝ) "angle" 8 (by decide) 0 1 _
      (crossingSegments_entry Real.sqrt Real.arccos Real.pi "angle" 8)⟩

/-- Counterexample for C15 as stated: with resolution `-1` in "angle" mode the
crossing pair is given the weight `-(2 * sqrt 8) / 2`, which is negative. -/
theorem buildAdjacencyList_weight_nonneg_counterexample :
    ∃ w : ℝ,
      ((1 : Int), w) ∈ (buildAdjacencyList Real.sqrt Real.arccos Real.pi (crossingSegments ℝ)
        "angle" (-1)).getD 0 [] ∧
      w < 0 := by
  have hmode : ("angle" == "angle") = true := by decide
  have hrange := angleBetweenLines_range Real.sqrt Real.arccos Real.pi Real.pi_pos
    (fun x => ⟨Real.arccos_nonneg x, Real.arccos_le_pi x⟩)
    ((crossingSegments ℝ).getD 0 default) ((crossingSegments ℝ).getD 1 default)
  have hentry := crossingSegments_entry Real.sqrt Real.arccos Real.pi "angle" (-1)
  rw [hmode, edgeWeight_resolution_neg_one Real.sqrt Real.arccos Real.pi _ _ hrange.1
    hrange.2] at hentry
  refine ⟨_, hentry, ?_⟩
  have h1 : 0 < ((crossingSegments ℝ).getD 0 default).length Real.sqrt := by
    unfold Line.length Point.distanceTo
    apply Real.sqrt_pos.2
    norm_num [crossingSegments]
  have h2 : 0 ≤ ((crossingSegments ℝ).getD 1 default).length Real.sqrt := by
    unfold Line.length Point.distanceTo
    exact Real.sqrt_nonneg _
  linarith

end SpatialAnalysis
